import Mathlib

/-! # dockerdevtools: version model and build-cache naming

A shallow embedding of the version model (`versionutil/version.go`, and the
older copy in `version.go` of the root package) and of the path helpers of
`buildutil/builds.go`.

Conventions of the embedding.

* A Go `string` is a `List Char`.  All characters the code inspects are ASCII,
  and on valid UTF-8 the byte order Go compares strings by is the code point
  order, so `<` on `List Char` is Go's `<` on strings.
* A Go `int` is an `Int`; the code never does arithmetic on version numbers,
  it only compares and prints them.  `strconv.Atoi` keeps the 64-bit range.
* A function returning `(T, error)` returns both results, the error as an
  `Option` (`none` for `nil`); a panic is the error of an `Except`.
* The filesystem is a state that is passed in and returned: what is at each
  path, a regular file with its content or a directory.  Paths are compared as
  texts: two texts that lead to one file (through `.`, `..`, doubled slashes
  or links) are two paths.
* The network, the random names of temp files and `tar` are outside the
  program: what they answer is a parameter (`Env`), and so are the digest and
  the hash function.
-/

/-- A Go string: the list of its characters. -/
abbrev GoString := List Char

namespace strings

/-- Go `strings.HasPrefix(s, prefix)`. -/
def HasPrefix (s pre : GoString) : Bool := pre.isPrefixOf s

end strings

/-! ## `regexp`: a backtracking matcher

Go's `regexp` returns the leftmost match and, among the matches starting
there, the one a backtracking search finds first.  `Regex.run` is that search,
written with a success continuation; `Regex.find` tries the start positions
from left to right. -/

namespace regexp

/-- The submatches found so far: entry `i` is the text of group `i`. -/
abbrev Caps := List GoString

/-- The regular expressions the repository uses: classes, concatenation,
greedy `?`, `*`, `+`, and numbered capturing groups. -/
inductive Regex where
  | empty : Regex
  | cls (p : Char → Bool) : Regex
  | cat (a b : Regex) : Regex
  | quest (a : Regex) : Regex
  | star (a : Regex) : Regex
  | plus (a : Regex) : Regex
  | cap (i : Nat) (a : Regex) : Regex

/-- Greedy iteration of `body`: one more round first, the continuation after.
A round has to consume input; `n` bounds the number of rounds and is always
taken to be the length of the input at the start of the loop. -/
def loop {α : Type} (body : GoString → Caps → (GoString → Caps → Option α) → Option α) :
    Nat → GoString → Caps → (GoString → Caps → Option α) → Option α
  | 0, s, c, k => k s c
  | n + 1, s, c, k =>
    (body s c fun s1 c1 => if s1.length < s.length then loop body n s1 c1 k else none) <|> k s c

/-- Backtracking search: `re.run s c k` matches a prefix of `s` against `re`
and hands the rest of the input and the submatches to `k`; an alternative that
makes `k` fail is abandoned for the next one. -/
def Regex.run {α : Type} : Regex → GoString → Caps → (GoString → Caps → Option α) → Option α
  | .empty, s, c, k => k s c
  | .cls p, s, c, k =>
    match s with
    | [] => none
    | x :: xs => if p x then k xs c else none
  | .cat a b, s, c, k => a.run s c fun s1 c1 => b.run s1 c1 k
  | .quest a, s, c, k => a.run s c k <|> k s c
  | .star a, s, c, k => loop a.run s.length s c k
  | .plus a, s, c, k => a.run s c fun s1 c1 => loop a.run s1.length s1 c1 k
  | .cap i a, s, c, k => a.run s c fun s1 c1 => k s1 (c1.set i (s.take (s.length - s1.length)))

/-- Concatenation of a list of expressions. -/
def Regex.seq (rs : List Regex) : Regex := rs.foldr Regex.cat Regex.empty

/-- Go `(*Regexp).NumSubexp`: the number of capturing groups. -/
def Regex.numSubexp : Regex → Nat
  | .empty => 0
  | .cls _ => 0
  | .cat a b => a.numSubexp + b.numSubexp
  | .quest a => a.numSubexp
  | .star a => a.numSubexp
  | .plus a => a.numSubexp
  | .cap _ a => a.numSubexp + 1

/-- A match that starts at the first character of `s`: the submatches, with
the matched text as entry 0 and the empty string for a group that took no part. -/
def Regex.matchAt (re : Regex) (s : GoString) : Option Caps :=
  re.run s (List.replicate (re.numSubexp + 1) []) fun s1 c =>
    some (c.set 0 (s.take (s.length - s1.length)))

/-- The leftmost match: the start positions are tried from left to right. -/
def Regex.find (re : Regex) : GoString → Option Caps
  | [] => re.matchAt []
  | x :: xs => re.matchAt (x :: xs) <|> Regex.find re xs

/-- Go `(*Regexp).FindStringSubmatch`: the submatches of the leftmost match,
`nil` (the empty slice) without a match. -/
def Regex.FindStringSubmatch (re : Regex) (s : GoString) : List GoString :=
  (re.find s).getD []

/-- The declarative reading of an expression: `Derives re w c c1` says that
`re` matches exactly the text `w` and that the submatches `c` become `c1` on
the way (a group records the text it matched). -/
inductive Derives : Regex → GoString → Caps → Caps → Prop where
  | empty (c : Caps) : Derives .empty [] c c
  | cls (p : Char → Bool) (x : Char) (c : Caps) : p x = true → Derives (.cls p) [x] c c
  | cat {a b : Regex} {w1 w2 : GoString} {c c1 c2 : Caps} :
      Derives a w1 c c1 → Derives b w2 c1 c2 → Derives (.cat a b) (w1 ++ w2) c c2
  | questSome {a : Regex} {w : GoString} {c c1 : Caps} :
      Derives a w c c1 → Derives (.quest a) w c c1
  | questNone (a : Regex) (c : Caps) : Derives (.quest a) [] c c
  | starNil (a : Regex) (c : Caps) : Derives (.star a) [] c c
  | starCons {a : Regex} {w1 w2 : GoString} {c c1 c2 : Caps} :
      Derives a w1 c c1 → Derives (.star a) w2 c1 c2 → Derives (.star a) (w1 ++ w2) c c2
  | plus {a : Regex} {w1 w2 : GoString} {c c1 c2 : Caps} :
      Derives a w1 c c1 → Derives (.star a) w2 c1 c2 → Derives (.plus a) (w1 ++ w2) c c2
  | cap {a : Regex} {w : GoString} {c c1 : Caps} (i : Nat) :
      Derives a w c c1 → Derives (.cap i a) w c (c1.set i w)

/-- The search settles on `w`: on the input `w ++ rest` with the submatches
`c`, the first alternative of `re` whose continuation succeeds is the one that
takes `w` and leaves the submatches `c1`, whenever the continuation accepts
`rest` with `c1`. -/
def Accepts (re : Regex) (w rest : GoString) (c c1 : Caps) : Prop :=
  ∀ (α : Type) (k : GoString → Caps → Option α) (r : α),
    k rest c1 = some r → re.run (w ++ rest) c k = some r

/-- A literal character. -/
def lit (ch : Char) : Regex := .cls fun c => c == ch

/-- A literal string. -/
def str (s : GoString) : Regex := Regex.seq (s.map lit)

/-- The pattern `.`: any character but the newline. -/
def anyCharNotNL : Regex := .cls fun c => c != Char.ofNat 10

/-- A character range `lo-hi` of a class. -/
def range (lo hi : Char) (c : Char) : Bool := decide (lo ≤ c) && decide (c ≤ hi)

/-- The class `[0-9]`. -/
def isDigit (c : Char) : Bool := range '0' '9' c

/-- The class `[a-z]`. -/
def isLower (c : Char) : Bool := range 'a' 'z' c

/-- The class `[a-z0-9]`. -/
def isLowerDigit (c : Char) : Bool := range 'a' 'z' c || range '0' '9' c

/-- The class `[a-z0-9_]`. -/
def isLowerDigitUnderscore (c : Char) : Bool := range 'a' 'z' c || range '0' '9' c || c == '_'

/-- The class `[a-f0-9]`. -/
def isHexLower (c : Char) : Bool := range 'a' 'f' c || range '0' '9' c

end regexp

/-! ## `strconv` and `fmt` -/

namespace strconv

/-- The value of a string of decimal digits, most significant first; `none`
for the empty string and for a string with another character. -/
def parseDigits (s : GoString) : Option Nat :=
  if s ≠ [] ∧ s.all regexp.isDigit = true then
    some (s.foldl (fun n c => n * 10 + (c.toNat - '0'.toNat)) 0)
  else none

/-- The error `*NumError` of `Atoi`, as its message. The input is shown
between quotes, as `strconv.Quote` shows a string of plain characters. -/
def numError (s reason : GoString) : GoString :=
  "strconv.Atoi: parsing ".toList ++ ('"' :: s ++ ['"']) ++ ": ".toList ++ reason

/-- Go `strconv.Atoi` on a 64-bit platform: an optional sign and decimal
digits; a value outside the `int` range gives the nearest bound and a range
error. -/
def Atoi (s : GoString) : Int × Option GoString :=
  let neg := decide (s.head? = some '-')
  let body := if s.head? = some '-' ∨ s.head? = some '+' then s.tail else s
  match parseDigits body with
  | none => (0, some (numError s "invalid syntax".toList))
  | some n =>
    if neg then
      if n ≤ 2 ^ 63 then (-(n : Int), none)
      else (-(2 ^ 63 : Int), some (numError s "value out of range".toList))
    else
      if n < 2 ^ 63 then ((n : Int), none)
      else ((2 ^ 63 - 1 : Int), some (numError s "value out of range".toList))

end strconv

namespace fmt

/-- The integer verb of Go `fmt` in base 10 (`fmtInteger`): the digits, zero
digits in front up to the width when the `0` flag is set (one less for a
negative number, to leave room for the sign), then the sign. `wid = 0` and
`zero = false` is the plain verb. -/
def fmtInteger (v : Int) (wid : Nat) (zero : Bool) : GoString :=
  let negative := decide (v < 0)
  let prec := if zero then (if negative then wid - 1 else wid) else 0
  let ds := Nat.toDigits 10 v.natAbs
  let padded := List.replicate (prec - ds.length) '0' ++ ds
  if negative then '-' :: padded else padded

/-- The verb `%d`. -/
def d (v : Int) : GoString := fmtInteger v 0 false

/-- The verb `%02d`. -/
def d02 (v : Int) : GoString := fmtInteger v 2 true

end fmt

/-! ## `path/filepath` -/

namespace filepath

/-- Go `filepath.Split` on Linux: the path is cut right after its last `/`;
without a `/` the directory part is empty. The scan runs from the end of the
path, as the loop of the library does. -/
def Split (path : GoString) : GoString × GoString :=
  ((path.reverse.dropWhile fun c => c != '/').reverse,
   (path.reverse.takeWhile fun c => c != '/').reverse)

end filepath

/-! ## Package `versionutil` -/

namespace versionutil

open regexp

/-- The struct `Version` of `versionutil/version.go` (the root package's
`Version` has the same four fields). `versionNumber` is the `[3]int`. -/
structure Version where
  Name : GoString
  versionNumber : Int × Int × Int
  Tag : GoString
  Commit : GoString
deriving DecidableEq, Repr

/-- The zero value `Version{}`. -/
def Version.zero : Version := ⟨[], (0, 0, 0), [], []⟩

/-- Method `Version.String`. -/
def Version.String (v : Version) : GoString :=
  if v.Commit ≠ [] then v.Name ++ "@".toList ++ v.Commit else v.Name

/-- Function `versionString`: `%d.%d.%d` before major version 17 and
`%02d.%02d.%d` from there on. -/
def versionString (major minor release : Int) : GoString :=
  if major < 17 then
    fmt.d major ++ ".".toList ++ fmt.d minor ++ ".".toList ++ fmt.d release
  else
    fmt.d02 major ++ ".".toList ++ fmt.d02 minor ++ ".".toList ++ fmt.d release

/-- Method `Version.VersionString`. -/
def Version.VersionString (v : Version) : GoString :=
  versionString v.versionNumber.1 v.versionNumber.2.1 v.versionNumber.2.2

/-- Function `StaticVersion`. -/
def StaticVersion (major minor release : Int) : Version :=
  { Name := "v".toList ++ versionString major minor release
    versionNumber := (major, minor, release)
    Tag := []
    Commit := [] }

/-- Method `Version.LessThan`. -/
def Version.LessThan (v v2 : Version) : Bool :=
  if v.versionNumber.1 ≠ v2.versionNumber.1 then
    decide (v.versionNumber.1 < v2.versionNumber.1)
  else if v.versionNumber.2.1 ≠ v2.versionNumber.2.1 then
    decide (v.versionNumber.2.1 < v2.versionNumber.2.1)
  else if v.versionNumber.2.2 ≠ v2.versionNumber.2.2 then
    decide (v.versionNumber.2.2 < v2.versionNumber.2.2)
  else if v.Tag ≠ v2.Tag then
    if v.Tag = [] then false
    else if v2.Tag = [] then true
    else if v.Tag = "dev".toList then true
    else if strings.HasPrefix v.Tag "rc".toList && !strings.HasPrefix v2.Tag "rc".toList then false
    else decide (v.Tag < v2.Tag)
  else decide (v.Commit < v2.Commit)

/-- The local `tarVersion` of `downloadURL`: `StaticVersion(1, 11, 0)` with
its `Tag` set to `rc1`. -/
def tarVersion : Version := { StaticVersion 1 11 0 with Tag := "rc1".toList }

/-- The local `suffix` of `downloadURL`: `.tgz`, replaced by the empty string
when the version is less than `tarVersion`. -/
def downloadSuffix (v : Version) : GoString :=
  if v.LessThan tarVersion then [] else ".tgz".toList

/-- Method `Version.downloadURL`. -/
def Version.downloadURL (v : Version) (os arch : GoString) : GoString :=
  let suffix := downloadSuffix v
  if v.Tag = [] ∧ v.versionNumber.1 < 17 then
    "https://get.docker.com/builds/".toList ++ os ++ "/".toList ++ arch ++ "/docker-".toList
      ++ v.VersionString ++ suffix
  else if strings.HasPrefix v.Tag "ce".toList then
    let channel := if strings.HasPrefix v.Tag "ce-rc".toList then "test".toList else "stable".toList
    "https://download.docker.com/".toList ++ os ++ "/static/".toList ++ channel ++ "/".toList
      ++ arch ++ "/docker-".toList ++ v.VersionString ++ "-".toList ++ v.Tag ++ suffix
  else []

/-- Method `Version.DownloadURL` of `version_linux_amd64.go`. -/
def Version.DownloadURL (v : Version) : GoString :=
  v.downloadURL "linux".toList "x86_64".toList

/-- The pattern
`v?([0-9]+).([0-9]+).([0-9]+)-((?:[a-z][a-z0-9]+)(?:-[a-z0-9_]+)*)(?:@([a-f0-9]+(?:-dirty)?))?`
of `versionutil/version.go`. -/
def versionRegexp : Regex :=
  Regex.seq [
    .quest (lit 'v'),
    .cap 1 (.plus (.cls isDigit)),
    anyCharNotNL,
    .cap 2 (.plus (.cls isDigit)),
    anyCharNotNL,
    .cap 3 (.plus (.cls isDigit)),
    lit '-',
    .cap 4 (Regex.seq [
      Regex.seq [.cls isLower, .plus (.cls isLowerDigit)],
      .star (Regex.seq [lit '-', .plus (.cls isLowerDigitUnderscore)])]),
    .quest (Regex.seq [
      lit '@',
      .cap 5 (Regex.seq [.plus (.cls isHexLower), .quest (str "-dirty".toList)])])]

/-- The error of `ParseVersion` for a string without a match. -/
def errNoVersionMatch : GoString := "no version match".toList

/-- Function `ParseVersion` of `versionutil/version.go`, with its two results:
the version and the error (`none` for `nil`). An error of `Atoi` returns the
version as far as it was filled in. The slice of `Name` drops as many trailing
characters as `Commit` has, and one more. -/
def ParseVersion (s : GoString) : Version × Option GoString :=
  let submatches := versionRegexp.FindStringSubmatch s
  if submatches.length ≠ 6 then (Version.zero, some errNoVersionMatch)
  else
    let v : Version := { Version.zero with Name := submatches.getD 0 [] }
    let r0 := strconv.Atoi (submatches.getD 1 [])
    let v : Version := { v with versionNumber := (r0.1, v.versionNumber.2.1, v.versionNumber.2.2) }
    if r0.2 ≠ none then (v, r0.2)
    else
      let r1 := strconv.Atoi (submatches.getD 2 [])
      let v : Version := { v with versionNumber := (v.versionNumber.1, r1.1, v.versionNumber.2.2) }
      if r1.2 ≠ none then (v, r1.2)
      else
        let r2 := strconv.Atoi (submatches.getD 3 [])
        let v : Version := { v with versionNumber := (v.versionNumber.1, v.versionNumber.2.1, r2.1) }
        if r2.2 ≠ none then (v, r2.2)
        else
          let v : Version := { v with Tag := submatches.getD 4 [], Commit := submatches.getD 5 [] }
          if v.Commit ≠ [] then
            ({ v with Name := v.Name.take (v.Name.length - v.Commit.length - 1) }, none)
          else (v, none)

end versionutil

/-! ## The root package `dockerdevtools` (the older copy) -/

namespace dockerdevtools

open regexp versionutil

/-- Method `Version.downloadURL` of the root package's `version.go`. -/
def downloadURL (v : Version) (os arch : GoString) : GoString :=
  if v.Tag = [] then
    "https://get.docker.com/builds/".toList ++ os ++ "/".toList ++ arch ++ "/docker-".toList
      ++ fmt.d v.versionNumber.1 ++ ".".toList ++ fmt.d v.versionNumber.2.1 ++ ".".toList
      ++ fmt.d v.versionNumber.2.2
  else if strings.HasPrefix v.Tag "rc".toList then
    "https://test.docker.com/builds/".toList ++ os ++ "/".toList ++ arch ++ "/docker-".toList
      ++ fmt.d v.versionNumber.1 ++ ".".toList ++ fmt.d v.versionNumber.2.1 ++ ".".toList
      ++ fmt.d v.versionNumber.2.2 ++ "-".toList ++ v.Tag
  else []

/-- The pattern
`v?([0-9]+).([0-9]+).([0-9]+)(?:-([a-z][a-z0-9]+))?(?:@([a-f0-9]+(?:-dirty)?))?`
of the root package's `version.go`. -/
def versionRegexp : Regex :=
  Regex.seq [
    .quest (lit 'v'),
    .cap 1 (.plus (.cls isDigit)),
    anyCharNotNL,
    .cap 2 (.plus (.cls isDigit)),
    anyCharNotNL,
    .cap 3 (.plus (.cls isDigit)),
    .quest (Regex.seq [lit '-', .cap 4 (Regex.seq [.cls isLower, .plus (.cls isLowerDigit)])]),
    .quest (Regex.seq [
      lit '@',
      .cap 5 (Regex.seq [.plus (.cls isHexLower), .quest (str "-dirty".toList)])])]

/-- Function `ParseVersion` of the root package's `version.go`: as the one of
`versionutil`, but `Name` stays the whole matched text. -/
def ParseVersion (s : GoString) : Version × Option GoString :=
  let submatches := versionRegexp.FindStringSubmatch s
  if submatches.length ≠ 6 then (Version.zero, some errNoVersionMatch)
  else
    let v : Version := { Version.zero with Name := submatches.getD 0 [] }
    let r0 := strconv.Atoi (submatches.getD 1 [])
    let v : Version := { v with versionNumber := (r0.1, v.versionNumber.2.1, v.versionNumber.2.2) }
    if r0.2 ≠ none then (v, r0.2)
    else
      let r1 := strconv.Atoi (submatches.getD 2 [])
      let v : Version := { v with versionNumber := (v.versionNumber.1, r1.1, v.versionNumber.2.2) }
      if r1.2 ≠ none then (v, r1.2)
      else
        let r2 := strconv.Atoi (submatches.getD 3 [])
        let v : Version := { v with versionNumber := (v.versionNumber.1, v.versionNumber.2.1, r2.1) }
        if r2.2 ≠ none then (v, r2.2)
        else ({ v with Tag := submatches.getD 4 [], Commit := submatches.getD 5 [] }, none)

/-- Function `Less` of the root package's `version.go`. -/
def Less (v1 v2 : Version) : Bool :=
  if v1.versionNumber.1 ≠ v2.versionNumber.1 then
    decide (v1.versionNumber.1 < v2.versionNumber.1)
  else if v1.versionNumber.2.1 ≠ v2.versionNumber.2.1 then
    decide (v1.versionNumber.2.1 < v2.versionNumber.2.1)
  else if v1.versionNumber.2.2 ≠ v2.versionNumber.2.2 then
    decide (v1.versionNumber.2.2 < v2.versionNumber.2.2)
  else if v1.Tag ≠ v2.Tag then
    if v1.Tag = [] then false
    else if v2.Tag = [] then true
    else if v1.Tag = "dev".toList then true
    else if strings.HasPrefix v1.Tag "rc".toList && !strings.HasPrefix v2.Tag "rc".toList then false
    else decide (v1.Tag < v2.Tag)
  else decide (v1.Commit < v2.Commit)

end dockerdevtools

/-! ## Package `buildutil` -/

namespace buildutil

open versionutil

/-- Function `initFile` of `buildutil/builds.go` (the root package's
`builds.go` has the same function). `name[6:]` drops the six characters of
`docker`. -/
def initFile (f : GoString) : GoString :=
  let dir := (filepath.Split f).1
  let name := (filepath.Split f).2
  let name := if strings.HasPrefix name "docker".toList then "dockerinit".toList ++ name.drop 6
    else name ++ "-init".toList
  dir ++ name

/-- The local `nonLegacyVersion` of `InstallVersion`: `StaticVersion(1, 11, 0)`
with its `Tag` set to `rc1`. -/
def nonLegacyVersion : Version := { StaticVersion 1 11 0 with Tag := "rc1".toList }

end buildutil

/-! ## The version grammar, as the pattern of `versionutil` reads it

`[v]MAJOR c MINOR c' PATCH-TAG[@COMMIT]`: a text is described by its parts, and
`VersionText.text` writes it out. -/

namespace versionutil

open regexp

/-- The parts of a version text: an optional leading `v`, three numbers with
the two characters that separate them, the first segment of the tag and the
segments after it, and an optional commit (its hexadecimal part, and whether
`-dirty` follows). -/
structure VersionText where
  leadingV : Bool
  major : GoString
  sep1 : Char
  minor : GoString
  sep2 : Char
  patch : GoString
  tagHead : GoString
  tagTail : List GoString
  commit : Option (GoString × Bool)

/-- The later segments of a tag, each after its hyphen. -/
def tailText : List GoString → GoString
  | [] => []
  | seg :: segs => '-' :: seg ++ tailText segs

/-- The tag: its segments joined by hyphens. -/
def VersionText.tagText (t : VersionText) : GoString := t.tagHead ++ tailText t.tagTail

/-- The text of a commit: the hexadecimal part and `-dirty` when it has it;
empty without a commit. -/
def commitTextOf : Option (GoString × Bool) → GoString
  | none => []
  | some (hex, dirty) => hex ++ (if dirty then "-dirty".toList else [])

/-- The end of a version text: `@` and the commit, or nothing. -/
def commitPartOf : Option (GoString × Bool) → GoString
  | none => []
  | some cm => '@' :: commitTextOf (some cm)

/-- The commit of a version text, as written. -/
def VersionText.commitText (t : VersionText) : GoString := commitTextOf t.commit

/-- The version and tag part: everything before the `@`. -/
def VersionText.nameText (t : VersionText) : GoString :=
  (if t.leadingV then ['v'] else []) ++ t.major ++ t.sep1 :: t.minor ++ t.sep2 :: t.patch
    ++ '-' :: t.tagText

/-- The whole text. -/
def VersionText.text (t : VersionText) : GoString := t.nameText ++ commitPartOf t.commit

/-- A non-empty string of decimal digits. -/
def IsNumeral (s : GoString) : Prop := s ≠ [] ∧ ∀ c ∈ s, isDigit c = true

/-- The parts are those of a text the pattern accepts: numerals, separators
other than the newline, a first tag segment `[a-z][a-z0-9]+`, later segments
`[a-z0-9_]+`, a commit `[a-f0-9]+`. -/
structure VersionText.WellFormed (t : VersionText) : Prop where
  major : IsNumeral t.major
  minor : IsNumeral t.minor
  patch : IsNumeral t.patch
  sep1 : t.sep1 ≠ Char.ofNat 10
  sep2 : t.sep2 ≠ Char.ofNat 10
  tagHead : ∃ a b rest, t.tagHead = a :: b :: rest ∧ isLower a = true ∧
    ∀ c ∈ b :: rest, isLowerDigit c = true
  tagTail : ∀ seg ∈ t.tagTail, seg ≠ [] ∧ ∀ c ∈ seg, isLowerDigitUnderscore c = true
  commit : ∀ hex dirty, t.commit = some (hex, dirty) → hex ≠ [] ∧ ∀ c ∈ hex, isHexLower c = true

/-- The value of a numeral: its digits read in base ten, most significant
first. -/
def numeralValue (s : GoString) : Nat :=
  Nat.ofDigits 10 (s.reverse.map fun c => c.toNat - 48)

/-- The six submatches of a text: the text itself and the five groups. -/
def VersionText.submatches (t : VersionText) : List GoString :=
  [t.text, t.major, t.minor, t.patch, t.tagText, t.commitText]

/-- Group 5 after the end of a version text: set only with a commit. -/
def commitGroups (commit : Option (GoString × Bool)) (c : Caps) : Caps :=
  match commit with
  | none => c
  | some _ => c.set 5 (commitTextOf commit)

/-- The submatches after a match of the text: groups 1 to 4 are set, group 5
only with a commit. -/
def VersionText.groups (t : VersionText) (c : Caps) : Caps :=
  commitGroups t.commit ((((c.set 1 t.major).set 2 t.minor).set 3 t.patch).set 4 t.tagText)

/-- A string that contains three numerals with one character between the
first and the second and one between the second and the third, whatever the
two characters are. A string with a version of the grammar in it is one, with
or without a tag. -/
def ContainsNumberTriple (s : GoString) : Prop :=
  ∃ (before major : GoString) (c1 : Char) (minor : GoString) (c2 : Char)
    (patch after : GoString),
    IsNumeral major ∧ IsNumeral minor ∧ IsNumeral patch ∧
    s = before ++ major ++ c1 :: minor ++ c2 :: patch ++ after

end versionutil

/-! ## More of `path/filepath`, `strings` and `encoding/hex` -/

namespace filepath

/-- The elements of a path: the texts between its slashes. -/
def splitSlash : GoString → List GoString
  | [] => [[]]
  | c :: cs =>
    if c = '/' then [] :: splitSlash cs
    else
      match splitSlash cs with
      | [] => [[c]]
      | e :: es => (c :: e) :: es

/-- Go `strings.Join(elems, "/")`. -/
def joinSlash : List GoString → GoString
  | [] => []
  | [e] => e
  | e :: f :: es => e ++ '/' :: joinSlash (f :: es)

/-- One round of the loop of `Clean`, on the element `elem`; `out` holds the
elements written so far, the last one first. An empty element and `.` are
dropped; `..` removes the last element written, is kept in front of a path
that is not rooted, and is dropped at the root; any other element is written. -/
def cleanElem (rooted : Bool) (out : List GoString) (elem : GoString) : List GoString :=
  if elem = [] ∨ elem = ".".toList then out
  else if elem = "..".toList then
    match out with
    | top :: rest => if top = "..".toList then elem :: out else rest
    | [] => if rooted then [] else [elem]
  else elem :: out

/-- Go `filepath.Clean` on Linux. -/
def Clean (path : GoString) : GoString :=
  if path = [] then ".".toList
  else
    let rooted := decide (path.head? = some '/')
    let out := (splitSlash path).foldl (cleanElem rooted) []
    let body := joinSlash out.reverse
    if rooted then '/' :: body
    else if body = [] then ".".toList else body

/-- Go `filepath.Join`: the elements from the first non-empty one on are joined
with slashes and cleaned; the empty string when all are empty. -/
def Join (elem : List GoString) : GoString :=
  match elem.dropWhile fun e => e.isEmpty with
  | [] => []
  | e :: es => Clean (joinSlash (e :: es))

/-- Go `filepath.Dir` on Linux. -/
def Dir (path : GoString) : GoString := Clean (Split path).1

/-- Go `filepath.Base` on Linux. -/
def Base (path : GoString) : GoString :=
  if path = [] then ".".toList
  else
    let stripped := (path.reverse.dropWhile fun c => c == '/').reverse
    let last := (stripped.reverse.takeWhile fun c => c != '/').reverse
    if last = [] then "/".toList else last

/-- Go `filepath.Ext`: the text from the last dot of the final element on;
empty without a dot. -/
def Ext (path : GoString) : GoString :=
  let last := path.reverse.takeWhile fun c => c != '/'
  if '.' ∈ last then '.' :: (last.takeWhile fun c => c != '.').reverse else []

end filepath

namespace strings

/-- Go `strings.HasSuffix(s, suffix)`. -/
def HasSuffix (s suf : GoString) : Bool := suf.isSuffixOf s

end strings

/-! ## Package `buildutil`: errors and the filesystem -/

namespace buildutil

/-- The errors of `buildutil`. `notExist`, `isDirectory` and `notDirectory` are
the errors of the system (`ENOENT`, `EISDIR`, `ENOTDIR`); `creatingDirectory`,
`openingTarget`, `openingSource` and `copyingFile` are the four errors
`CopyFile` wraps. An error that comes from outside the model (the network,
`tar`, the disk) is `external`. -/
inductive Error where
  | cannotDownloadCommit : Error
  | sourceNotFound (source : GoString) : Error
  | creatingDirectory (dest : GoString) (e : Error) : Error
  | openingTarget (dest : GoString) (e : Error) : Error
  | openingSource (source : GoString) (e : Error) : Error
  | copyingFile (e : Error) : Error
  | notExist (path : GoString) : Error
  | isDirectory (path : GoString) : Error
  | notDirectory (path : GoString) : Error
  | missingFile (path : GoString) : Error
  | hashMismatch : Error
  | hexInvalidByte (c : Char) : Error
  | hexLength : Error
  | copyFailed (e : Error) : Error
  | untarring (e : Error) : Error
  | external (msg : GoString) : Error
deriving DecidableEq, Repr

/-- The variable `ErrCannotDownloadCommit`. -/
def ErrCannotDownloadCommit : Error := Error.cannotDownloadCommit

/-- What is at a path: a regular file with its content (the list of its
bytes), or a directory. -/
inductive Node where
  | file (content : GoString) : Node
  | dir : Node
deriving DecidableEq, Repr

/-- The state of the filesystem: what is at each path, `none` where there is
nothing, neither a file nor a directory. A path names a node by its text, and
two texts are two paths. In the state of a real filesystem there is a
directory at every path above a node. -/
abbrev FS := GoString → Option Node

/-- The file at `path` gets the content `content`. -/
def FS.write (fs : FS) (path content : GoString) : FS :=
  fun q => if q = path then some (Node.file content) else fs q

/-- A directory is made at `path` (`os.Mkdir`). -/
def FS.mkdir (fs : FS) (path : GoString) : FS :=
  fun q => if q = path then some Node.dir else fs q

/-- The file at `path` is removed. -/
def FS.remove (fs : FS) (path : GoString) : FS :=
  fun q => if q = path then none else fs q

/-- Go `os.Rename(source, target)` of a file that exists, when it succeeds. -/
def FS.rename (fs : FS) (source target : GoString) : FS :=
  fun q => if q = target then fs source else if q = source then none else fs q

/-- Go `os.RemoveAll(dir)`: whatever is at `dir` or below it is removed. -/
def FS.removeAll (fs : FS) (dir : GoString) : FS :=
  fun q => if q = dir ∨ (dir ++ "/".toList).isPrefixOf q = true then none else fs q

/-- Whether `os.Stat(path)` returns no error: there is a file or a directory
at `path`. -/
def FS.stat (fs : FS) (path : GoString) : Bool := (fs path).isSome

/-- The parent `os.MkdirAll` goes to from `path`: with `i` the length of
`path` without its trailing slashes and `j` the start of the last element of
`path[:i]`, it is `path[:j-1]` when `j > 1`, and there is none otherwise. -/
def mkdirParent (path : GoString) : Option GoString :=
  let i := (path.reverse.dropWhile fun c => c == '/').length
  let j := ((path.take i).reverse.dropWhile fun c => c != '/').length
  if j > 1 then some (path.take (j - 1)) else none

/-- Go `os.MkdirAll(path)`, with the depth of the recursion bounded by `fuel`:
a directory at `path` is success and a file there is the error `ENOTDIR`;
otherwise the parent is made first, and then `path` itself. Nothing is made
when an error is returned. -/
def mkdirAll : Nat → FS → GoString → FS × Option Error
  | 0, fs, path => (fs, some (Error.notExist path))
  | fuel + 1, fs, path =>
    match fs path with
    | some Node.dir => (fs, none)
    | some (Node.file _) => (fs, some (Error.notDirectory path))
    | none =>
      if path = [] then (fs, some (Error.notExist path))
      else
        match mkdirParent path with
        | none => (fs.mkdir path, none)
        | some parent =>
          let r := mkdirAll fuel fs parent
          if r.2 ≠ none then r else (r.1.mkdir path, none)

/-- Go `os.MkdirAll(path)`: every parent is shorter than its path, so the
length of `path` bounds the depth. -/
def FS.MkdirAll (fs : FS) (path : GoString) : FS × Option Error :=
  mkdirAll (path.length + 1) fs path

end buildutil

namespace hex

open buildutil

/-- The value of a hexadecimal digit (`reverseHexTable`). -/
def fromHexChar (c : Char) : Option Nat :=
  if regexp.range '0' '9' c then some (c.toNat - '0'.toNat)
  else if regexp.range 'a' 'f' c then some (c.toNat - 'a'.toNat + 10)
  else if regexp.range 'A' 'F' c then some (c.toNat - 'A'.toNat + 10)
  else none

/-- Go `hex.Decode`: two digits give one byte; a character that is no digit
and an odd length are errors. -/
def Decode : GoString → Except Error GoString
  | [] => .ok []
  | [p] =>
    match fromHexChar p with
    | none => .error (Error.hexInvalidByte p)
    | some _ => .error Error.hexLength
  | p :: q :: rest =>
    match fromHexChar p with
    | none => .error (Error.hexInvalidByte p)
    | some a =>
      match fromHexChar q with
      | none => .error (Error.hexInvalidByte q)
      | some b =>
        match Decode rest with
        | .error e => .error e
        | .ok bytes => .ok (Char.ofNat (16 * a + b) :: bytes)

end hex

/-! ## Package `buildutil`: the build cache -/

namespace buildutil

open versionutil

/-- Function `CopyFile` of `buildutil/copy.go`. The directory of the target is
made first; the target is then opened with `O_TRUNC|O_CREATE`, which fails on a
directory, before the source is opened for reading, so the target is empty when
the source is read. Reading a directory is the error of `io.Copy`. -/
def CopyFile (fs : FS) (source dest : GoString) : FS × Option Error :=
  if fs.stat source = false then (fs, some (Error.sourceNotFound source))
  else
    let made := fs.MkdirAll (filepath.Dir dest)
    match made.2 with
    | some e => (made.1, some (Error.creatingDirectory dest e))
    | none =>
      if made.1 dest = some Node.dir then
        (made.1, some (Error.openingTarget dest (Error.isDirectory dest)))
      else
        let fs1 := made.1.write dest []
        match fs1 source with
        | none => (fs1, some (Error.openingSource source (Error.notExist source)))
        | some Node.dir => (fs1, some (Error.copyingFile (Error.isDirectory source)))
        | some (Node.file content) => (fs1.write dest content, none)

/-- The text of the panic of `versionFile`. -/
def versionFilePanic : GoString := "cannot get release file with commit".toList

/-- Method `fsBuildCache.versionFile`: the path, or the panic (as the error of
`Except`) for a version with a commit. -/
def versionFile (root : GoString) (v : Version) : Except GoString GoString :=
  if v.Commit ≠ [] then .error versionFilePanic
  else
    let versionFile := filepath.Join [root,
      fmt.d v.versionNumber.1 ++ ".".toList ++ fmt.d v.versionNumber.2.1 ++ ".".toList
        ++ fmt.d v.versionNumber.2.2]
    if v.Tag ≠ [] then .ok (versionFile ++ "-".toList ++ v.Tag) else .ok versionFile

/-- Method `fsBuildCache.getCached`: the path of the cached file, the empty
string when there is none; a panic of `versionFile` comes through. -/
def getCached (fs : FS) (root : GoString) (v : Version) : Except GoString GoString :=
  if v.Commit ≠ [] then
    let commitFile := filepath.Join [root, v.Commit]
    if fs.stat commitFile then .ok commitFile else .ok []
  else
    match versionFile root v with
    | .error p => .error p
    | .ok versionFile => if fs.stat versionFile then .ok versionFile else .ok []

/-- Method `fsBuildCache.IsCached`. -/
def IsCached (fs : FS) (root : GoString) (v : Version) : Except GoString Bool :=
  match getCached fs root v with
  | .error p => .error p
  | .ok cached => .ok (decide (cached ≠ []))

/-- Function `binaryDigest`; the digest function of `go-digest` is the
parameter `digest`. A directory can be opened, and the error comes when it is
read. -/
def binaryDigest {δ : Type} (digest : GoString → δ) (fs : FS) (source : GoString) :
    Except Error δ :=
  match fs source with
  | none => .error (Error.notExist source)
  | some Node.dir => .error (Error.isDirectory source)
  | some (Node.file content) => .ok (digest content)

/-- The end of `PutVersion`, from the call of `CopyFile` on: the source is
copied to `cached`, and its init file, if there is one, to the init file of
`cached`. -/
def putCopy (fs : FS) (source cached : GoString) : FS × Option Error :=
  let r := CopyFile fs source cached
  if r.2 ≠ none then r
  else
    let sourceInit := initFile source
    if r.1.stat sourceInit then
      let cachedInit := initFile cached
      CopyFile r.1 sourceInit cachedInit
    else (r.1, none)

/-- Method `fsBuildCache.PutVersion`: the new state of the filesystem and the
error returned, or a panic. -/
def PutVersion {δ : Type} [DecidableEq δ] (digest : GoString → δ) (fs : FS) (root : GoString)
    (v : Version) (source : GoString) : Except GoString (FS × Option Error) :=
  match getCached fs root v with
  | .error p => .error p
  | .ok cached =>
    if cached ≠ [] then
      match binaryDigest digest fs source with
      | .error e => .ok (fs, some e)
      | .ok sourceDgst =>
        match binaryDigest digest fs cached with
        | .error e => .ok (fs, some e)
        | .ok cachedDgst =>
          if sourceDgst = cachedDgst then .ok (fs, none)
          else .ok (putCopy fs source cached)
    else if v.Commit ≠ [] then .ok (putCopy fs source (filepath.Join [root, v.Commit]))
    else
      match versionFile root v with
      | .error p => .error p
      | .ok cached => .ok (putCopy fs source cached)

/-- Function `installLegacyDocker`. Opening the init file of the target with
`O_TRUNC|O_WRONLY` empties a file and fails on a directory. -/
def installLegacyDocker (fs : FS) (cached cachedInit target : GoString) : FS × Option Error :=
  let r := CopyFile fs cached target
  if r.2 ≠ none then r
  else
    let targetInit := initFile target
    if r.1.stat cachedInit then CopyFile r.1 cachedInit targetInit
    else
      match r.1 targetInit with
      | some Node.dir => (r.1, some (Error.isDirectory targetInit))
      | some (Node.file _) => (r.1.write targetInit [], none)
      | none => (r.1, none)

/-- What `InstallVersion` takes from outside the filesystem: the answer of
`http.Get` for an address (the body, and the error that ends the reading of
it, if any), the directory `os.TempDir()` and the random names `TempFile` tries
in turn, the error of `os.Rename` if it fails, the directory `TempDir` makes,
and what `tar` unpacks from a file: the entries of the directory `docker` of
the archive, a directory (`none`) or a file with its content, or the error of
`ReadDir`, or the error of `tar`. -/
structure Env where
  httpGet : GoString → Except Error (GoString × Option Error)
  osTempDir : GoString
  tempNames : List GoString
  renameError : Option Error
  tempDir : Except Error GoString
  untar : Option Node → Except Error (Except Error (List (GoString × Option GoString)))

/-- Method `fsBuildCache.tempFile`: `ioutil.TempFile(bc.root, "tmp-")` makes an
empty file under the first name that is not in use; the directory has to be
there. -/
def tempFile (env : Env) (fs : FS) (root : GoString) : Except Error (GoString × FS) :=
  let dir := if root = [] then env.osTempDir else root
  match env.tempNames.find? fun r => !fs.stat (filepath.Join [dir, "tmp-".toList ++ r]) with
  | none => .error (Error.external "temp file".toList)
  | some r =>
    let name := filepath.Join [dir, "tmp-".toList ++ r]
    match fs (filepath.Dir name) with
    | some Node.dir => .ok (name, fs.write name [])
    | some (Node.file _) => .error (Error.notDirectory name)
    | none => .error (Error.notExist name)

/-- Method `fsBuildCache.saveVersion`: the temp file is renamed to the path of
`versionFile`; a file cannot be renamed to a directory. -/
def saveVersion (env : Env) (fs : FS) (root tmp : GoString) (v : Version) :
    Except GoString (FS × Except Error GoString) :=
  match versionFile root v with
  | .error p => .error p
  | .ok target =>
    match env.renameError with
    | some e => .ok (fs, .error e)
    | none =>
      if fs target = some Node.dir then .ok (fs, .error (Error.isDirectory target))
      else .ok (fs.rename tmp target, .ok target)

/-- The loop at the end of `InstallVersion`: every entry of `binRoot` that is
not a directory is copied to the target directory. -/
def installFiles (binRoot target : GoString) :
    FS → List (GoString × Option GoString) → FS × Option Error
  | fs, [] => (fs, none)
  | fs, (name, entry) :: fis =>
    match entry with
    | none => installFiles binRoot target fs fis
    | some _ =>
      let r := CopyFile fs (filepath.Join [binRoot, name]) (filepath.Join [target, name])
      if r.2 ≠ none then r else installFiles binRoot target r.1 fis

/-- The multi-binary part of `InstallVersion`: the archive is unpacked into a
scratch directory, the files of its directory `docker` are copied, and the
scratch directory is removed whatever happened. -/
def installMultiBinary (env : Env) (fs : FS) (cached target : GoString) : FS × Option Error :=
  match env.tempDir with
  | .error e => (fs, some e)
  | .ok td =>
    let fs0 := fs.mkdir td
    let r : FS × Option Error :=
      match env.untar (fs0 cached) with
      | .error e => (fs0, some (Error.untarring e))
      | .ok (.error e) => (fs0, some e)
      | .ok (.ok fis) =>
        let binRoot := filepath.Join [td, "docker".toList]
        let unpacked := fis.foldl (fun (f : FS) (x : GoString × Option GoString) =>
          match x.2 with
          | none => f.mkdir (filepath.Join [binRoot, x.1])
          | some content => f.write (filepath.Join [binRoot, x.1]) content) (fs0.mkdir binRoot)
        installFiles binRoot target unpacked fis
    (r.1.removeAll td, r.2)

/-- The part of `InstallVersion` after the cached file is resolved: a version
less than `nonLegacyVersion` goes to `installLegacyDocker`, any other is
unpacked with `tar`. -/
def installCached (env : Env) (fs : FS) (v : Version) (cached target : GoString) :
    FS × Option Error :=
  if v.LessThan nonLegacyVersion then
    installLegacyDocker fs cached (initFile cached) (filepath.Join [target, "docker".toList])
  else installMultiBinary env fs cached target

/-- What a call of `InstallVersion` leaves: the state of the filesystem, the
addresses it has called `http.Get` with, and the error it returns. -/
structure Installed where
  fs : FS
  requests : List GoString
  err : Option Error

/-- Method `fsBuildCache.InstallVersion`: what the call leaves, or a panic. -/
def InstallVersion (env : Env) (fs : FS) (root : GoString) (v : Version) (target : GoString) :
    Except GoString Installed :=
  match getCached fs root v with
  | .error p => .error p
  | .ok cached =>
    if cached = [] then
      if v.Commit ≠ [] then .ok ⟨fs, [], some ErrCannotDownloadCommit⟩
      else
        let downloadURL := v.DownloadURL
        match env.httpGet downloadURL with
        | .error e => .ok ⟨fs, [downloadURL], some e⟩
        | .ok (body, readError) =>
          match tempFile env fs root with
          | .error e => .ok ⟨fs, [downloadURL], some e⟩
          | .ok (tf, fs1) =>
            match readError with
            | some e => .ok ⟨(fs1.write tf body).remove tf, [downloadURL], some e⟩
            | none =>
              match saveVersion env (fs1.write tf body) root tf v with
              | .error p => .error p
              | .ok (fs2, .error e) => .ok ⟨fs2, [downloadURL], some e⟩
              | .ok (fs2, .ok saved) =>
                let r := installCached env fs2 v saved target
                .ok ⟨r.1, [downloadURL], r.2⟩
    else
      let r := installCached env fs v cached target
      .ok ⟨r.1, [], r.2⟩

/-- The layout of the cache as the specification gives it: `root/Commit` for a
version with a commit, and otherwise `root/major.minor.patch`, followed by a
hyphen and the tag when there is a tag. -/
def cachePath (root : GoString) (v : Version) : GoString :=
  if v.Commit ≠ [] then filepath.Join [root, v.Commit]
  else
    filepath.Join [root,
      fmt.d v.versionNumber.1 ++ ".".toList ++ fmt.d v.versionNumber.2.1 ++ ".".toList
        ++ fmt.d v.versionNumber.2.2]
      ++ (if v.Tag ≠ [] then "-".toList ++ v.Tag else [])

/-- An example of the outside world: the network is down, `tar` fails, and
`TempFile` is offered the names `1` and `2`. -/
def exampleEnv : Env where
  httpGet := fun _ => .error (Error.external "no network".toList)
  osTempDir := "/tmp".toList
  tempNames := ["1".toList, "2".toList]
  renameError := none
  tempDir := .ok "/tmp/scratch".toList
  untar := fun _ => .error (Error.external "tar failed".toList)

/-- An example of a filesystem: a cache at `/cache` with the build of commit
`abc123` and an older build of `1.9.0-rc1`, and a binary with its init file at
`/src`. -/
def exampleFS : FS := fun q =>
  if q = "/".toList ∨ q = "/cache".toList ∨ q = "/src".toList then some Node.dir
  else if q = "/cache/abc123".toList then some (Node.file "build".toList)
  else if q = "/cache/1.9.0-rc1".toList then some (Node.file "older".toList)
  else if q = "/src/docker".toList then some (Node.file "build".toList)
  else if q = "/src/dockerinit".toList then some (Node.file "init".toList)
  else none

/-- An example of a digest that does not tell all contents apart: the sum of
the bytes, modulo 256. -/
def exampleDigest (content : GoString) : Nat :=
  (content.foldl (fun n c => n + c.toNat) 0) % 256

/-! ## Package `buildutil`: copying a bundle -/

/-- Function `versionSuffix`. -/
def versionSuffix (source : GoString) : GoString :=
  let bundleDir := (filepath.Split (filepath.Dir source)).1
  let version := (filepath.Split (filepath.Dir source)).2
  if filepath.Base (filepath.Clean bundleDir) = "bundles".toList then "-".toList ++ version
  else []

/-- Function `hashCheck`; the hash (`sha256.New()`) is the parameter `sha`,
from a content to its sum. -/
def hashCheck (sha : GoString → GoString) (fs : FS) (file expected : GoString) : Option Error :=
  match fs file with
  | none => some (Error.notExist file)
  | some Node.dir => some (Error.isDirectory file)
  | some (Node.file content) => if expected ≠ sha content then some Error.hashMismatch else none

/-- Go `bytes.IndexRune(b, r)` for a character of one byte: the index of the
first `r`, `-1` without one. -/
def IndexRune (b : GoString) (r : Char) : Int :=
  if r ∈ b then (b.indexOf r : Int) else -1

/-- Function `copyBinary`. The sidecar is checked only when `ReadFile` returns
it: there is no check without a sidecar, nor when the sidecar is a directory. -/
def copyBinary (sha : GoString → GoString) (fs : FS)
    (sourceName targetName sourceDir targetDir : GoString) : FS × Option Error :=
  let source := filepath.Join [sourceDir, sourceName]
  let dest := filepath.Join [targetDir, targetName]
  if fs.stat source = false then (fs, some (Error.missingFile source))
  else
    let r := CopyFile fs source dest
    if r.2 ≠ none then r
    else
      match r.1 (source ++ ".sha256".toList) with
      | some (Node.file b) =>
        let i := IndexRune b ' '
        let b := if i > 0 then b.take i.toNat else b
        match hex.Decode b with
        | .error e => (r.1, some e)
        | .ok expectedHash => (r.1, hashCheck sha r.1 dest expectedHash)
      | _ => (r.1, none)

/-- The loop of `CopyBundleBinaries` over the names `ReadDir` returned. -/
def copyBundleNames (sha : GoString → GoString) (suffix source target : GoString) :
    FS → List GoString → FS × Option Error
  | fs, [] => (fs, none)
  | fs, name :: fis =>
    if filepath.Ext name ≠ ".sha256".toList then copyBundleNames sha suffix source target fs fis
    else
      let name := name.take (name.length - 7)
      let targetName :=
        if strings.HasSuffix name suffix then name.take (name.length - suffix.length) else name
      let r := copyBinary sha fs name targetName source target
      match r.2 with
      | some e => (r.1, some (Error.copyFailed e))
      | none => copyBundleNames sha suffix source target r.1 fis

/-- Function `CopyBundleBinaries`; `readDir` is what `ioutil.ReadDir` returns
for the source directory: the names of its entries, in order, or an error. -/
def CopyBundleBinaries (sha : GoString → GoString) (readDir : Except Error (List GoString))
    (fs : FS) (source target : GoString) : FS × Option Error :=
  let suffix := versionSuffix source
  match readDir with
  | .error e => (fs, some e)
  | .ok fis => copyBundleNames sha suffix source target fs fis

/-- The recorded value of a sidecar file as the specification gives it: the
token that stands before the first space (the whole file without a space). -/
def recordedToken (side : GoString) : GoString := side.takeWhile fun c => c != ' '

/-- The path the loop of `CopyBundleBinaries` hands to `CopyFile` as the
destination for the entry `n` of the listing, a name that ends in `.sha256`:
the name of `copyBinary`'s `dest` for that entry. -/
def bundleDest (suffix target n : GoString) : GoString :=
  let name := n.take (n.length - 7)
  filepath.Join [target,
    if strings.HasSuffix name suffix then name.take (name.length - suffix.length) else name]

/-- The bytes a string of hexadecimal digits stands for, empty when it is
not well formed. -/
def bytesOfHex (digits : GoString) : GoString :=
  match hex.Decode digits with
  | .ok b => b
  | .error _ => []

/-- The SHA-256 sums of the two contents of the example: the sum of the empty
content, and the sum of `abc` (any other content is given the sum of `abc`). -/
def exampleSum (content : GoString) : GoString :=
  if content = [] then
    bytesOfHex "e3b0c44298fc1c149afbf4c8996fb92427ae41e4649b934ca495991b7852b855".toList
  else bytesOfHex "ba7816bf8f01cfea414140de5dae2223b00361a396177a9cb410ff61f20015ad".toList

/-- An example of a bundle directory, `/b`: the binary `docker` with the
content `abc`, and its sidecar, which records the sum of the empty content. -/
def exampleBundle : FS := fun q =>
  if q = "/".toList ∨ q = "/b".toList then some Node.dir
  else if q = "/b/docker".toList then some (Node.file "abc".toList)
  else if q = "/b/docker.sha256".toList then
    some (Node.file
      "e3b0c44298fc1c149afbf4c8996fb92427ae41e4649b934ca495991b7852b855  docker\n".toList)
  else none

/-- The listing of the example bundle directory. -/
def exampleListing : List GoString := ["docker".toList, "docker.sha256".toList]

end buildutil

/-! # Theorems -/

/-! ## The matcher on classes and loops -/

namespace regexp

theorem orElse_eq_some {α : Type} (a b : Option α) (r : α) :
    (a <|> b) = some r ↔ a = some r ∨ (a = none ∧ b = some r) := by
  cases a <;> simp

theorem run_cls_cons {α : Type} (p : Char → Bool) (x : Char) (xs : GoString) (c : Caps)
    (k : GoString → Caps → Option α) (h : p x = true) :
    (Regex.cls p).run (x :: xs) c k = k xs c := by
  simp [Regex.run, h]

theorem run_cls_stop {α : Type} (p : Char → Bool) (s : GoString) (c : Caps)
    (k : GoString → Caps → Option α) (h : ∀ x ∈ s.head?, p x = false) :
    (Regex.cls p).run s c k = none := by
  cases s with
  | nil => rfl
  | cons x xs => simp [Regex.run, h x (by simp)]

theorem run_cls_some {α : Type} (p : Char → Bool) (s : GoString) (c : Caps)
    (k : GoString → Caps → Option α) (r : α) (h : (Regex.cls p).run s c k = some r) :
    ∃ x xs, s = x :: xs ∧ p x = true ∧ k xs c = some r := by
  cases s with
  | nil => simp [Regex.run] at h
  | cons x xs =>
    by_cases hp : p x = true
    · exact ⟨x, xs, rfl, hp, by simpa [Regex.run, hp] using h⟩
    · simp [Regex.run, hp] at h

/-- A loop over a class takes the longest run of characters of the class when
the continuation accepts what follows it. -/
theorem loop_cls_greedy {α : Type} (p : Char → Bool) (k : GoString → Caps → Option α) (r : α)
    (rest : GoString) (c : Caps) (hrest : ∀ x ∈ rest.head?, p x = false)
    (hk : k rest c = some r) :
    ∀ (w : GoString) (n : Nat), (∀ x ∈ w, p x = true) → w.length ≤ n →
      loop (Regex.cls p).run n (w ++ rest) c k = some r := by
  intro w
  induction w with
  | nil =>
    intro n _ _
    cases n with
    | zero => simpa [loop] using hk
    | succ m => simp [loop, run_cls_stop p rest c _ hrest, hk]
  | cons x w ih =>
    intro n hw hn
    cases n with
    | zero => simp at hn
    | succ m =>
      have hx : p x = true := hw x (by simp)
      have hrec := ih m (fun y hy => hw y (by simp [hy])) (by simpa using hn)
      simp [loop, run_cls_cons p x _ c _ hx, hrec]

/-- The pattern `[..]+` takes the longest run of characters of the class. -/
theorem run_plus_cls_greedy {α : Type} (p : Char → Bool) (k : GoString → Caps → Option α)
    (r : α) (w rest : GoString) (c : Caps) (hne : w ≠ []) (hw : ∀ x ∈ w, p x = true)
    (hrest : ∀ x ∈ rest.head?, p x = false) (hk : k rest c = some r) :
    (Regex.plus (.cls p)).run (w ++ rest) c k = some r := by
  cases w with
  | nil => exact absurd rfl hne
  | cons x w =>
    have hx : p x = true := hw x (by simp)
    simp only [Regex.run, List.cons_append, hx, if_true]
    exact loop_cls_greedy p k r rest c hrest hk w _ (fun y hy => hw y (by simp [hy])) (by simp)

/-- Whatever a loop over a class returns comes from the continuation, run
after some characters of the class. -/
theorem loop_cls_sound {α : Type} (p : Char → Bool) (k : GoString → Caps → Option α) (r : α) :
    ∀ (n : Nat) (s : GoString) (c : Caps), loop (Regex.cls p).run n s c k = some r →
      ∃ w rest, s = w ++ rest ∧ (∀ x ∈ w, p x = true) ∧ k rest c = some r := by
  intro n
  induction n with
  | zero =>
    intro s c h
    exact ⟨[], s, rfl, by simp, by simpa [loop] using h⟩
  | succ m ih =>
    intro s c h
    rw [loop, orElse_eq_some] at h
    rcases h with h | ⟨_, h⟩
    · obtain ⟨x, xs, rfl, hx, hk⟩ := run_cls_some p s c _ r h
      have hk2 : loop (Regex.cls p).run m xs c k = some r := by simpa using hk
      obtain ⟨w, rest, rfl, hw, hr⟩ := ih xs c hk2
      refine ⟨x :: w, rest, rfl, ?_, hr⟩
      intro y hy
      rcases List.mem_cons.mp hy with rfl | hy
      · exact hx
      · exact hw y hy
    · exact ⟨[], s, rfl, by simp, h⟩

theorem run_plus_cls_sound {α : Type} (p : Char → Bool) (k : GoString → Caps → Option α)
    (r : α) (s : GoString) (c : Caps) (h : (Regex.plus (.cls p)).run s c k = some r) :
    ∃ w rest, s = w ++ rest ∧ w ≠ [] ∧ (∀ x ∈ w, p x = true) ∧ k rest c = some r := by
  rw [Regex.run] at h
  obtain ⟨x, xs, rfl, hx, hk⟩ := run_cls_some p s c _ r h
  obtain ⟨w, rest, rfl, hw, hr⟩ := loop_cls_sound p k r _ xs c hk
  refine ⟨x :: w, rest, rfl, by simp, ?_, hr⟩
  intro y hy
  rcases List.mem_cons.mp hy with rfl | hy
  · exact hx
  · exact hw y hy

end regexp

/-! ## The search is sound for the declarative reading -/

namespace regexp

theorem loop_sound {α : Type} (a : Regex)
    (body : GoString → Caps → (GoString → Caps → Option α) → Option α)
    (hbody : ∀ (s : GoString) (c : Caps) (k : GoString → Caps → Option α) (r : α),
      body s c k = some r →
        ∃ w rest c1, s = w ++ rest ∧ Derives a w c c1 ∧ k rest c1 = some r)
    (k : GoString → Caps → Option α) (r : α) :
    ∀ (n : Nat) (s : GoString) (c : Caps), loop body n s c k = some r →
      ∃ w rest c1, s = w ++ rest ∧ Derives (.star a) w c c1 ∧ k rest c1 = some r := by
  intro n
  induction n with
  | zero =>
    intro s c h
    exact ⟨[], s, c, rfl, Derives.starNil a c, by simpa [loop] using h⟩
  | succ m ih =>
    intro s c h
    rw [loop, orElse_eq_some] at h
    rcases h with h | ⟨_, h⟩
    · obtain ⟨w1, rest1, c1, rfl, hd, hk⟩ := hbody s c _ r h
      by_cases hlen : rest1.length < (w1 ++ rest1).length
      · rw [if_pos hlen] at hk
        obtain ⟨w2, rest, c2, rfl, hd2, hk2⟩ := ih rest1 c1 hk
        exact ⟨w1 ++ w2, rest, c2, by simp, Derives.starCons hd hd2, hk2⟩
      · rw [if_neg hlen] at hk
        exact absurd hk (by simp)
    · exact ⟨[], s, c, rfl, Derives.starNil a c, h⟩

/-- Soundness of the search: a result of `run` is a result of the continuation,
run after a text the expression derives. -/
theorem run_sound {α : Type} (re : Regex) :
    ∀ (s : GoString) (c : Caps) (k : GoString → Caps → Option α) (r : α),
      re.run s c k = some r →
        ∃ w rest c1, s = w ++ rest ∧ Derives re w c c1 ∧ k rest c1 = some r := by
  induction re with
  | empty =>
    intro s c k r h
    exact ⟨[], s, c, rfl, Derives.empty c, by simpa [Regex.run] using h⟩
  | cls p =>
    intro s c k r h
    obtain ⟨x, xs, rfl, hx, hk⟩ := run_cls_some p s c k r h
    exact ⟨[x], xs, c, rfl, Derives.cls p x c hx, hk⟩
  | cat a b iha ihb =>
    intro s c k r h
    rw [Regex.run] at h
    obtain ⟨w1, rest1, c1, rfl, hd1, hk1⟩ := iha s c _ r h
    obtain ⟨w2, rest, c2, rfl, hd2, hk2⟩ := ihb rest1 c1 k r hk1
    exact ⟨w1 ++ w2, rest, c2, by simp, Derives.cat hd1 hd2, hk2⟩
  | quest a iha =>
    intro s c k r h
    rw [Regex.run, orElse_eq_some] at h
    rcases h with h | ⟨_, h⟩
    · obtain ⟨w, rest, c1, rfl, hd, hk⟩ := iha s c k r h
      exact ⟨w, rest, c1, rfl, Derives.questSome hd, hk⟩
    · exact ⟨[], s, c, rfl, Derives.questNone a c, h⟩
  | star a iha =>
    intro s c k r h
    rw [Regex.run] at h
    exact loop_sound a a.run iha k r _ s c h
  | plus a iha =>
    intro s c k r h
    rw [Regex.run] at h
    obtain ⟨w1, rest1, c1, rfl, hd1, hk1⟩ := iha s c _ r h
    obtain ⟨w2, rest, c2, rfl, hd2, hk2⟩ := loop_sound a a.run iha k r _ rest1 c1 hk1
    exact ⟨w1 ++ w2, rest, c2, by simp, Derives.plus hd1 hd2, hk2⟩
  | cap i a iha =>
    intro s c k r h
    rw [Regex.run] at h
    obtain ⟨w, rest, c1, rfl, hd, hk⟩ := iha s c _ r h
    exact ⟨w, rest, c1.set i w, rfl, Derives.cap i hd, by simpa using hk⟩

/-- A match at the start of `s` is the text a derivation reads, and the
submatches are the ones the derivation leaves, with the text as entry 0. -/
theorem matchAt_sound (re : Regex) (s : GoString) (caps : Caps)
    (h : re.matchAt s = some caps) :
    ∃ w rest c1, s = w ++ rest ∧
      Derives re w (List.replicate (re.numSubexp + 1) []) c1 ∧ caps = c1.set 0 w := by
  obtain ⟨w, rest, c1, rfl, hd, hk⟩ := run_sound re s _ _ caps h
  refine ⟨w, rest, c1, rfl, hd, ?_⟩
  simpa using hk.symm

/-- A match of `find` is a match at the start of a suffix of the input. -/
theorem find_sound (re : Regex) :
    ∀ (s : GoString) (caps : Caps), re.find s = some caps →
      ∃ before s1, s = before ++ s1 ∧ re.matchAt s1 = some caps := by
  intro s
  induction s with
  | nil =>
    intro caps h
    exact ⟨[], [], rfl, by simpa [Regex.find] using h⟩
  | cons x xs ih =>
    intro caps h
    rw [Regex.find, orElse_eq_some] at h
    rcases h with h | ⟨_, h⟩
    · exact ⟨[], x :: xs, rfl, h⟩
    · obtain ⟨before, s1, rfl, hm⟩ := ih caps h
      exact ⟨x :: before, s1, rfl, hm⟩

end regexp

/-! ## Reading a derivation back -/

namespace regexp

theorem Derives.empty_inv {w : GoString} {c c1 : Caps} (h : Derives .empty w c c1) :
    w = [] ∧ c1 = c := by
  cases h
  exact ⟨rfl, rfl⟩

theorem Derives.cls_inv {p : Char → Bool} {w : GoString} {c c1 : Caps}
    (h : Derives (.cls p) w c c1) : ∃ x, w = [x] ∧ p x = true ∧ c1 = c := by
  cases h with
  | cls _ x _ hx => exact ⟨x, rfl, hx, rfl⟩

theorem Derives.lit_inv {ch : Char} {w : GoString} {c c1 : Caps}
    (h : Derives (lit ch) w c c1) : w = [ch] ∧ c1 = c := by
  obtain ⟨x, rfl, hx, rfl⟩ := Derives.cls_inv h
  simp only [beq_iff_eq] at hx
  exact ⟨by rw [hx], rfl⟩

theorem Derives.cat_inv {a b : Regex} {w : GoString} {c c2 : Caps}
    (h : Derives (.cat a b) w c c2) :
    ∃ w1 w2 c1, w = w1 ++ w2 ∧ Derives a w1 c c1 ∧ Derives b w2 c1 c2 := by
  cases h with
  | cat h1 h2 => exact ⟨_, _, _, rfl, h1, h2⟩

theorem Derives.cap_inv {a : Regex} {i : Nat} {w : GoString} {c c2 : Caps}
    (h : Derives (.cap i a) w c c2) : ∃ c1, Derives a w c c1 ∧ c2 = c1.set i w := by
  cases h with
  | cap _ h1 => exact ⟨_, h1, rfl⟩

theorem Derives.quest_inv {a : Regex} {w : GoString} {c c1 : Caps}
    (h : Derives (.quest a) w c c1) : Derives a w c c1 ∨ (w = [] ∧ c1 = c) := by
  cases h with
  | questSome h1 => exact Or.inl h1
  | questNone => exact Or.inr ⟨rfl, rfl⟩

theorem Derives.star_cls_inv {p : Char → Bool} {w : GoString} {c c1 : Caps}
    (h : Derives (.star (.cls p)) w c c1) : (∀ x ∈ w, p x = true) ∧ c1 = c := by
  generalize hre : Regex.star (.cls p) = re at h
  induction h with
  | empty => cases hre
  | cls => cases hre
  | cat => cases hre
  | questSome => cases hre
  | questNone => cases hre
  | plus => cases hre
  | cap => cases hre
  | starNil => exact ⟨by simp, rfl⟩
  | starCons h1 _ _ ih2 =>
    cases hre
    obtain ⟨x, rfl, hx, rfl⟩ := Derives.cls_inv h1
    obtain ⟨hw, rfl⟩ := ih2 rfl
    refine ⟨?_, rfl⟩
    intro y hy
    rcases List.mem_cons.mp hy with rfl | hy
    · exact hx
    · exact hw y hy

theorem Derives.plus_cls_inv {p : Char → Bool} {w : GoString} {c c1 : Caps}
    (h : Derives (.plus (.cls p)) w c c1) : w ≠ [] ∧ (∀ x ∈ w, p x = true) ∧ c1 = c := by
  cases h with
  | plus h1 h2 =>
    obtain ⟨x, rfl, hx, rfl⟩ := Derives.cls_inv h1
    obtain ⟨hw, rfl⟩ := Derives.star_cls_inv h2
    refine ⟨by simp, ?_, rfl⟩
    intro y hy
    rcases List.mem_cons.mp hy with rfl | hy
    · exact hx
    · exact hw y hy

theorem Derives.str_inv (s : GoString) :
    ∀ {w : GoString} {c c1 : Caps}, Derives (str s) w c c1 → w = s ∧ c1 = c := by
  induction s with
  | nil =>
    intro w c c1 h
    exact Derives.empty_inv h
  | cons x xs ih =>
    intro w c c1 h
    obtain ⟨w1, w2, c2, rfl, h1, h2⟩ := Derives.cat_inv h
    obtain ⟨rfl, rfl⟩ := Derives.lit_inv h1
    obtain ⟨rfl, rfl⟩ := ih h2
    exact ⟨rfl, rfl⟩

/-! ## The alternative the search settles on -/

theorem take_length_sub (w rest : GoString) :
    (w ++ rest).take ((w ++ rest).length - rest.length) = w := by
  simp

theorem Accepts.empty (rest : GoString) (c : Caps) : Accepts .empty [] rest c c := by
  intro α k r hk
  simpa [Regex.run] using hk

theorem Accepts.cls (p : Char → Bool) (x : Char) (rest : GoString) (c : Caps)
    (hx : p x = true) : Accepts (.cls p) [x] rest c c := by
  intro α k r hk
  simpa [Regex.run, hx] using hk

theorem Accepts.lit (ch : Char) (rest : GoString) (c : Caps) :
    Accepts (lit ch) [ch] rest c c :=
  Accepts.cls _ ch rest c (by simp)

theorem Accepts.cat {a b : Regex} {u v r : GoString} {c c1 c2 : Caps}
    (ha : Accepts a u (v ++ r) c c1) (hb : Accepts b v r c1 c2) :
    Accepts (.cat a b) (u ++ v) r c c2 := by
  intro α k res hk
  rw [Regex.run, List.append_assoc]
  exact ha α _ res (hb α k res hk)

theorem Accepts.cap {a : Regex} {w rest : GoString} {c c1 : Caps} (i : Nat)
    (ha : Accepts a w rest c c1) : Accepts (.cap i a) w rest c (c1.set i w) := by
  intro α k r hk
  rw [Regex.run]
  apply ha
  rw [take_length_sub]
  exact hk

theorem Accepts.questSome {a : Regex} {w rest : GoString} {c c1 : Caps}
    (ha : Accepts a w rest c c1) : Accepts (.quest a) w rest c c1 := by
  intro α k r hk
  rw [Regex.run, ha α k r hk]
  rfl

theorem Accepts.questNone {a : Regex} {rest : GoString} {c : Caps}
    (hstop : ∀ (α : Type) (k : GoString → Caps → Option α), a.run rest c k = none) :
    Accepts (.quest a) [] rest c c := by
  intro α k r hk
  rw [Regex.run, List.nil_append, hstop α k]
  simpa using hk

theorem Accepts.plusCls (p : Char → Bool) (w rest : GoString) (c : Caps) (hne : w ≠ [])
    (hw : ∀ x ∈ w, p x = true) (hrest : ∀ x ∈ rest.head?, p x = false) :
    Accepts (.plus (.cls p)) w rest c c := by
  intro α k r hk
  exact run_plus_cls_greedy p k r w rest c hne hw hrest hk

theorem Accepts.str (s rest : GoString) (c : Caps) : Accepts (str s) s rest c c := by
  induction s with
  | nil => exact Accepts.empty rest c
  | cons x xs ih => exact Accepts.cat (u := [x]) (Accepts.lit x _ c) ih

theorem run_seq_cons {α : Type} (a : Regex) (rs : List Regex) (s : GoString) (c : Caps)
    (k : GoString → Caps → Option α) :
    (Regex.seq (a :: rs)).run s c k = a.run s c fun s1 c1 => (Regex.seq rs).run s1 c1 k :=
  rfl

theorem run_lit_stop {α : Type} (ch : Char) (s : GoString) (c : Caps)
    (k : GoString → Caps → Option α) (h : ∀ x ∈ s.head?, x ≠ ch) :
    (lit ch).run s c k = none := by
  apply run_cls_stop
  intro x hx
  simpa using h x hx

end regexp

/-! ## The pattern of `versionutil` on a version text -/

namespace versionutil

open regexp

theorem head_tailText_append (segs : List GoString) (rest : GoString) :
    ∀ x ∈ (tailText segs ++ rest).head?, x = '-' ∨ x ∈ rest.head? := by
  intro x hx
  cases segs with
  | nil => exact Or.inr (by simpa [tailText] using hx)
  | cons seg segs =>
    left
    simpa [tailText, eq_comm] using hx

theorem accepts_segment (seg rest : GoString) (c : Caps) (hne : seg ≠ [])
    (hseg : ∀ x ∈ seg, isLowerDigitUnderscore x = true)
    (hrest : ∀ x ∈ rest.head?, isLowerDigitUnderscore x = false) :
    Accepts (Regex.seq [lit '-', .plus (.cls isLowerDigitUnderscore)]) ('-' :: seg) rest c c := by
  have h := Accepts.cat (u := ['-']) (v := seg ++ []) (r := rest) (Accepts.lit '-' _ c)
    (Accepts.cat (v := []) (Accepts.plusCls isLowerDigitUnderscore seg ([] ++ rest) c hne hseg
      (by simpa using hrest)) (Accepts.empty rest c))
  simpa [Regex.seq] using h

theorem loop_tail {α : Type} (k : GoString → Caps → Option α) (r : α) (rest : GoString)
    (c : Caps) (hrest : ∀ x ∈ rest.head?, isLowerDigitUnderscore x = false ∧ x ≠ '-')
    (hk : k rest c = some r) :
    ∀ (segs : List GoString) (n : Nat),
      (∀ seg ∈ segs, seg ≠ [] ∧ ∀ x ∈ seg, isLowerDigitUnderscore x = true) →
      (tailText segs).length ≤ n →
      loop (Regex.seq [lit '-', .plus (.cls isLowerDigitUnderscore)]).run n
        (tailText segs ++ rest) c k = some r := by
  intro segs
  induction segs with
  | nil =>
    intro n _ _
    cases n with
    | zero => simpa [loop, tailText] using hk
    | succ m =>
      have hstop : ∀ K : GoString → Caps → Option α,
          (Regex.seq [lit '-', .plus (.cls isLowerDigitUnderscore)]).run rest c K = none := by
        intro K
        rw [run_seq_cons]
        exact run_lit_stop '-' rest c _ (fun x hx => (hrest x hx).2)
      simp [loop, tailText, hstop, hk]
  | cons seg segs ih =>
    intro n hsegs hn
    cases n with
    | zero => simp [tailText] at hn
    | succ m =>
      have hseg := hsegs seg (by simp)
      have hnext : ∀ x ∈ (tailText segs ++ rest).head?, isLowerDigitUnderscore x = false := by
        intro x hx
        rcases head_tailText_append segs rest x hx with rfl | hx
        · decide
        · exact (hrest x hx).1
      have hrec := ih m (fun sg hsg => hsegs sg (by simp [hsg]))
        (by simp [tailText] at hn; omega)
      have hbody : (Regex.seq [lit '-', .plus (.cls isLowerDigitUnderscore)]).run
          (tailText (seg :: segs) ++ rest) c
          (fun s1 c1 => if s1.length < (tailText (seg :: segs) ++ rest).length
            then loop (Regex.seq [lit '-', .plus (.cls isLowerDigitUnderscore)]).run m s1 c1 k
            else none) = some r := by
        have h := accepts_segment seg (tailText segs ++ rest) c hseg.1 hseg.2 hnext α
          (fun s1 c1 => if s1.length < (tailText (seg :: segs) ++ rest).length
            then loop (Regex.seq [lit '-', .plus (.cls isLowerDigitUnderscore)]).run m s1 c1 k
            else none) r
          (by
            beta_reduce
            rw [if_pos (by simp [tailText]; omega)]
            exact hrec)
        simpa [tailText] using h
      rw [loop, hbody]
      rfl

theorem accepts_tail (segs : List GoString) (rest : GoString) (c : Caps)
    (hsegs : ∀ seg ∈ segs, seg ≠ [] ∧ ∀ x ∈ seg, isLowerDigitUnderscore x = true)
    (hrest : ∀ x ∈ rest.head?, isLowerDigitUnderscore x = false ∧ x ≠ '-') :
    Accepts (.star (Regex.seq [lit '-', .plus (.cls isLowerDigitUnderscore)]))
      (tailText segs) rest c c := by
  intro α k r hk
  rw [Regex.run]
  exact loop_tail k r rest c hrest hk segs _ hsegs (by simp)

theorem derives_segment {w : GoString} {c c1 : Caps}
    (h : Derives (Regex.seq [lit '-', .plus (.cls isLowerDigitUnderscore)]) w c c1) :
    ∃ seg, w = '-' :: seg ∧ seg ≠ [] ∧ (∀ x ∈ seg, isLowerDigitUnderscore x = true) ∧ c1 = c := by
  simp only [Regex.seq, List.foldr] at h
  obtain ⟨w1, w2, c2, rfl, h1, h2⟩ := Derives.cat_inv h
  obtain ⟨rfl, rfl⟩ := Derives.lit_inv h1
  obtain ⟨w3, w4, c3, rfl, h3, h4⟩ := Derives.cat_inv h2
  obtain ⟨hne, hw, rfl⟩ := Derives.plus_cls_inv h3
  obtain ⟨rfl, rfl⟩ := Derives.empty_inv h4
  exact ⟨w3, by simp, hne, hw, rfl⟩

theorem derives_tail {w : GoString} {c c1 : Caps}
    (h : Derives (.star (Regex.seq [lit '-', .plus (.cls isLowerDigitUnderscore)])) w c c1) :
    ∃ segs, w = tailText segs ∧
      (∀ seg ∈ segs, seg ≠ [] ∧ ∀ x ∈ seg, isLowerDigitUnderscore x = true) ∧ c1 = c := by
  generalize hre :
    Regex.star (Regex.seq [lit '-', .plus (.cls isLowerDigitUnderscore)]) = re at h
  induction h with
  | empty => cases hre
  | cls => cases hre
  | cat => cases hre
  | questSome => cases hre
  | questNone => cases hre
  | plus => cases hre
  | cap => cases hre
  | starNil => exact ⟨[], rfl, by simp, rfl⟩
  | starCons h1 _ _ ih2 =>
    cases hre
    obtain ⟨seg, rfl, hne, hseg, rfl⟩ := derives_segment h1
    obtain ⟨segs, rfl, hsegs, rfl⟩ := ih2 rfl
    refine ⟨seg :: segs, by simp [tailText], ?_, rfl⟩
    intro sg hsg
    rcases List.mem_cons.mp hsg with rfl | hsg
    · exact ⟨hne, hseg⟩
    · exact hsegs sg hsg

end versionutil

namespace versionutil

open regexp

theorem isDigit_ne_v (x : Char) (hx : isDigit x = true) : x ≠ 'v' := by
  rintro rfl
  revert hx
  decide

theorem accepts_optV (lv : Bool) (rest : GoString) (c : Caps)
    (hrest : ∀ x ∈ rest.head?, isDigit x = true) :
    Accepts (.quest (lit 'v')) (if lv then ['v'] else []) rest c c := by
  cases lv with
  | true => exact Accepts.questSome (Accepts.lit 'v' _ c)
  | false =>
    exact Accepts.questNone fun α k =>
      run_lit_stop 'v' _ c k fun x hx => isDigit_ne_v x (hrest x hx)

theorem accepts_tag (a b : Char) (r3 : GoString) (tail : List GoString) (rest : GoString)
    (c : Caps) (ha : isLower a = true) (hb : ∀ x ∈ b :: r3, isLowerDigit x = true)
    (htail : ∀ seg ∈ tail, seg ≠ [] ∧ ∀ x ∈ seg, isLowerDigitUnderscore x = true)
    (hrest : ∀ x ∈ rest.head?, x = '@') :
    Accepts
      (Regex.seq [Regex.seq [.cls isLower, .plus (.cls isLowerDigit)],
        .star (Regex.seq [lit '-', .plus (.cls isLowerDigitUnderscore)])])
      (a :: b :: r3 ++ tailText tail) rest c c := by
  have hnext : ∀ x ∈ ([] ++ ((tailText tail ++ []) ++ rest)).head?, isLowerDigit x = false := by
    intro x hx
    have hx2 : x ∈ (tailText tail ++ rest).head? := by simpa using hx
    rcases head_tailText_append tail rest x hx2 with rfl | hx3
    · decide
    · rw [hrest x hx3]
      decide
  have hstop : ∀ x ∈ ([] ++ rest).head?, isLowerDigitUnderscore x = false ∧ x ≠ '-' := by
    intro x hx
    rw [hrest x (by simpa using hx)]
    decide
  have h := Accepts.cat (r := rest)
    (Accepts.cat (u := [a]) (Accepts.cls isLower a _ c ha)
      (Accepts.cat (v := [])
        (Accepts.plusCls isLowerDigit (b :: r3) _ c (by simp) hb hnext)
        (Accepts.empty _ c)))
    (Accepts.cat (v := []) (accepts_tail tail _ c htail hstop) (Accepts.empty rest c))
  simpa [Regex.seq] using h

theorem run_dirty_nil {α : Type} (c : Caps) (k : GoString → Caps → Option α) :
    (str "-dirty".toList).run [] c k = none :=
  rfl

theorem accepts_commit (hex : GoString) (dirty : Bool) (c : Caps) (hne : hex ≠ [])
    (hhex : ∀ x ∈ hex, isHexLower x = true) :
    Accepts
      (Regex.seq [lit '@',
        .cap 5 (Regex.seq [.plus (.cls isHexLower), .quest (str "-dirty".toList)])])
      ('@' :: commitTextOf (some (hex, dirty))) [] c
      (c.set 5 (commitTextOf (some (hex, dirty)))) := by
  cases dirty with
  | true =>
    have h := Accepts.cat (u := ['@']) (r := []) (Accepts.lit '@' _ c)
      (Accepts.cat (v := [])
        (Accepts.cap 5
          (Accepts.cat (u := hex)
            (Accepts.plusCls isHexLower hex _ c hne hhex (by decide))
            (Accepts.cat (v := []) (Accepts.questSome (Accepts.str "-dirty".toList _ c))
              (Accepts.empty _ c))))
        (Accepts.empty [] _))
    simpa [Regex.seq, commitTextOf] using h
  | false =>
    have h := Accepts.cat (u := ['@']) (r := []) (Accepts.lit '@' _ c)
      (Accepts.cat (v := [])
        (Accepts.cap 5
          (Accepts.cat (u := hex) (v := [] ++ [])
            (Accepts.plusCls isHexLower hex _ c hne hhex (by decide))
            (Accepts.cat (v := [])
              (Accepts.questNone fun α k => run_dirty_nil c k)
              (Accepts.empty _ c))))
        (Accepts.empty [] _))
    simpa [Regex.seq, commitTextOf] using h

end versionutil

namespace versionutil

open regexp

theorem accepts_optCommit (commit : Option (GoString × Bool)) (c : Caps)
    (hcommit : ∀ hex dirty, commit = some (hex, dirty) →
      hex ≠ [] ∧ ∀ x ∈ hex, isHexLower x = true) :
    Accepts
      (.quest (Regex.seq [lit '@',
        .cap 5 (Regex.seq [.plus (.cls isHexLower), .quest (str "-dirty".toList)])]))
      (commitPartOf commit) [] c (commitGroups commit c) := by
  cases commit with
  | none =>
    exact Accepts.questNone fun α k => rfl
  | some cm =>
    obtain ⟨hex, dirty⟩ := cm
    obtain ⟨hne, hhex⟩ := hcommit hex dirty rfl
    exact Accepts.questSome (accepts_commit hex dirty c hne hhex)

/-- On a version text whose separators are not digits the search of
`versionRegexp` settles on the whole text, with the parts as the groups. -/
theorem versionRegexp_accepts (t : VersionText) (ht : t.WellFormed)
    (h1 : isDigit t.sep1 = false) (h2 : isDigit t.sep2 = false) (c : Caps) :
    Accepts versionRegexp t.text [] c (t.groups c) := by
  obtain ⟨lv, major, sep1, minor, sep2, patch, tagHead, tagTail, commit⟩ := t
  obtain ⟨hmajor, hminor, hpatch, hs1, hs2, hhead, htail, hcommit⟩ := ht
  obtain ⟨a, b, r3, rfl, ha, hb⟩ := hhead
  simp only at h1 h2 hmajor hminor hpatch hs1 hs2 htail hcommit ha hb
  have hpart : ∀ x ∈ (commitPartOf commit ++ [] ++ []).head?, x = '@' := by
    intro x hx
    cases commit with
    | none => simp [commitPartOf] at hx
    | some cm => simpa [commitPartOf, eq_comm] using hx
  have hfirst : ∀ x ∈ (major ++ ([sep1] ++ (minor ++ ([sep2] ++ (patch ++ (['-'] ++
      ((a :: b :: r3 ++ tailText tagTail) ++ (commitPartOf commit ++ []))))))) ++ []).head?,
      isDigit x = true := by
    intro x hx
    obtain ⟨hne, hd⟩ := hmajor
    cases major with
    | nil => exact absurd rfl hne
    | cons y ys =>
      have hxy : x = y := by simpa [eq_comm] using hx
      rw [hxy]
      exact hd y (by simp)
  have h := Accepts.cat (r := []) (accepts_optV lv _ c hfirst)
    (Accepts.cat
      (Accepts.cap 1 (Accepts.plusCls isDigit major _ c hmajor.1 hmajor.2
        (by intro x hx; simp at hx; rw [← hx]; exact h1)))
      (Accepts.cat (u := [sep1])
        (Accepts.cls (fun x => x != Char.ofNat 10) sep1 _ _ (by simpa using hs1))
        (Accepts.cat
          (Accepts.cap 2 (Accepts.plusCls isDigit minor _ _ hminor.1 hminor.2
            (by intro x hx; simp at hx; rw [← hx]; exact h2)))
          (Accepts.cat (u := [sep2])
            (Accepts.cls (fun x => x != Char.ofNat 10) sep2 _ _ (by simpa using hs2))
            (Accepts.cat
              (Accepts.cap 3 (Accepts.plusCls isDigit patch _ _ hpatch.1 hpatch.2
                (by intro x hx; simp at hx; rw [← hx]; decide)))
              (Accepts.cat (u := ['-']) (Accepts.lit '-' _ _)
                (Accepts.cat
                  (Accepts.cap 4
                    (accepts_tag a b r3 tagTail _ _ ha hb htail hpart))
                  (Accepts.cat (v := [])
                    (accepts_optCommit commit _ hcommit)
                    (Accepts.empty [] _)))))))))
  have htext : (VersionText.mk lv major sep1 minor sep2 patch (a :: b :: r3) tagTail commit).text
      = (if lv then ['v'] else []) ++ (major ++ ([sep1] ++ (minor ++ ([sep2] ++ (patch ++
        (['-'] ++ ((a :: b :: r3 ++ tailText tagTail) ++ (commitPartOf commit ++ [])))))))) := by
    simp [VersionText.text, VersionText.nameText, VersionText.tagText]
  rw [htext]
  exact h

end versionutil

namespace versionutil

open regexp

theorem derives_optV {w : GoString} {c c1 : Caps} (h : Derives (.quest (lit 'v')) w c c1) :
    ∃ lv : Bool, w = (if lv then ['v'] else []) ∧ c1 = c := by
  rcases Derives.quest_inv h with h | ⟨rfl, rfl⟩
  · obtain ⟨rfl, rfl⟩ := Derives.lit_inv h
    exact ⟨true, rfl, rfl⟩
  · exact ⟨false, rfl, rfl⟩

theorem derives_tag {w : GoString} {c c1 : Caps}
    (h : Derives
      (Regex.seq [Regex.seq [.cls isLower, .plus (.cls isLowerDigit)],
        .star (Regex.seq [lit '-', .plus (.cls isLowerDigitUnderscore)])]) w c c1) :
    ∃ a b r3 tail, w = a :: b :: r3 ++ tailText tail ∧ isLower a = true ∧
      (∀ x ∈ b :: r3, isLowerDigit x = true) ∧
      (∀ seg ∈ tail, seg ≠ [] ∧ ∀ x ∈ seg, isLowerDigitUnderscore x = true) ∧ c1 = c := by
  simp only [Regex.seq, List.foldr] at h
  obtain ⟨w1, w2, c2, rfl, hhead, hrest⟩ := Derives.cat_inv h
  obtain ⟨w3, w4, c3, rfl, hfirst, hmore⟩ := Derives.cat_inv hhead
  obtain ⟨a, rfl, ha, rfl⟩ := Derives.cls_inv hfirst
  obtain ⟨w5, w6, c4, rfl, hplus, hnil⟩ := Derives.cat_inv hmore
  obtain ⟨hne, hw5, rfl⟩ := Derives.plus_cls_inv hplus
  obtain ⟨rfl, rfl⟩ := Derives.empty_inv hnil
  obtain ⟨w7, w8, c5, rfl, hstar, hnil2⟩ := Derives.cat_inv hrest
  obtain ⟨rfl, rfl⟩ := Derives.empty_inv hnil2
  obtain ⟨tail, rfl, htail, rfl⟩ := derives_tail hstar
  cases w5 with
  | nil => exact absurd rfl hne
  | cons b r3 => exact ⟨a, b, r3, tail, by simp, ha, hw5, htail, rfl⟩

theorem derives_optCommit {w : GoString} {c c1 : Caps}
    (h : Derives
      (.quest (Regex.seq [lit '@',
        .cap 5 (Regex.seq [.plus (.cls isHexLower), .quest (str "-dirty".toList)])])) w c c1) :
    ∃ commit : Option (GoString × Bool),
      (∀ hex dirty, commit = some (hex, dirty) → hex ≠ [] ∧ ∀ x ∈ hex, isHexLower x = true) ∧
      w = commitPartOf commit ∧ c1 = commitGroups commit c := by
  rcases Derives.quest_inv h with h0 | ⟨rfl, rfl⟩
  · clear h
    simp only [Regex.seq, List.foldr] at h0
    obtain ⟨w1, w2, c2, rfl, hat, g1⟩ := Derives.cat_inv h0
    clear h0
    obtain ⟨rfl, rfl⟩ := Derives.lit_inv hat
    obtain ⟨w3, w4, c3, rfl, hcap, hnil⟩ := Derives.cat_inv g1
    clear g1
    obtain ⟨rfl, rfl⟩ := Derives.empty_inv hnil
    obtain ⟨c4, hin, rfl⟩ := Derives.cap_inv hcap
    clear hcap
    obtain ⟨w5, w6, c5, rfl, hhex, hmore⟩ := Derives.cat_inv hin
    clear hin
    obtain ⟨hne, hw5, rfl⟩ := Derives.plus_cls_inv hhex
    obtain ⟨w7, w8, c6, rfl, hdirty, hnil2⟩ := Derives.cat_inv hmore
    clear hmore
    obtain ⟨rfl, rfl⟩ := Derives.empty_inv hnil2
    rcases Derives.quest_inv hdirty with hd | ⟨rfl, rfl⟩
    · obtain ⟨rfl, rfl⟩ := Derives.str_inv _ hd
      refine ⟨some (w5, true), ?_, by simp [commitPartOf, commitTextOf],
        by simp [commitGroups, commitTextOf]⟩
      intro hex dirty heq
      cases heq
      exact ⟨hne, hw5⟩
    · refine ⟨some (w5, false), ?_, by simp [commitPartOf, commitTextOf],
        by simp [commitGroups, commitTextOf]⟩
      intro hex dirty heq
      cases heq
      exact ⟨hne, hw5⟩
  · exact ⟨none, by simp, rfl, rfl⟩

/-- Whatever `versionRegexp` derives is a version text, and the groups are its
parts. -/
theorem versionRegexp_derives {w : GoString} {c c1 : Caps}
    (h : Derives versionRegexp w c c1) :
    ∃ t : VersionText, t.WellFormed ∧ w = t.text ∧ c1 = t.groups c := by
  unfold versionRegexp at h
  simp only [Regex.seq, List.foldr] at h
  obtain ⟨w0, r0, c0, rfl, hv, g0⟩ := Derives.cat_inv h
  clear h
  obtain ⟨lv, rfl, rfl⟩ := derives_optV hv
  clear hv
  obtain ⟨w1, r1, d1, rfl, hcap1, g1⟩ := Derives.cat_inv g0
  clear g0
  obtain ⟨c1a, hmajor, rfl⟩ := Derives.cap_inv hcap1
  clear hcap1
  obtain ⟨hmajne, hmaj, rfl⟩ := Derives.plus_cls_inv hmajor
  clear hmajor
  obtain ⟨w2, r2, d2, rfl, hsep1, g2⟩ := Derives.cat_inv g1
  clear g1
  obtain ⟨sep1, rfl, hs1, rfl⟩ := Derives.cls_inv hsep1
  clear hsep1
  obtain ⟨w3, r3, d3, rfl, hcap2, g3⟩ := Derives.cat_inv g2
  clear g2
  obtain ⟨c3a, hminor, rfl⟩ := Derives.cap_inv hcap2
  clear hcap2
  obtain ⟨hminne, hmin, rfl⟩ := Derives.plus_cls_inv hminor
  clear hminor
  obtain ⟨w4, r4, d4, rfl, hsep2, g4⟩ := Derives.cat_inv g3
  clear g3
  obtain ⟨sep2, rfl, hs2, rfl⟩ := Derives.cls_inv hsep2
  clear hsep2
  obtain ⟨w5, r5, d5, rfl, hcap3, g5⟩ := Derives.cat_inv g4
  clear g4
  obtain ⟨c5a, hpatch, rfl⟩ := Derives.cap_inv hcap3
  clear hcap3
  obtain ⟨hpatne, hpat, rfl⟩ := Derives.plus_cls_inv hpatch
  clear hpatch
  obtain ⟨w6, r6, d6, rfl, hdash, g6⟩ := Derives.cat_inv g5
  clear g5
  obtain ⟨rfl, rfl⟩ := Derives.lit_inv hdash
  clear hdash
  obtain ⟨w7, r7, d7, rfl, hcap4, g7⟩ := Derives.cat_inv g6
  clear g6
  obtain ⟨c7a, htag, rfl⟩ := Derives.cap_inv hcap4
  clear hcap4
  have htag2 : Derives
      (Regex.seq [Regex.seq [.cls isLower, .plus (.cls isLowerDigit)],
        .star (Regex.seq [lit '-', .plus (.cls isLowerDigitUnderscore)])]) w7 _ _ := htag
  obtain ⟨a, b, tl, tail, rfl, ha, hb, htail, rfl⟩ := derives_tag htag2
  clear htag htag2
  obtain ⟨w8, r8, d8, rfl, hopt, hnil⟩ := Derives.cat_inv g7
  clear g7
  obtain ⟨rfl, rfl⟩ := Derives.empty_inv hnil
  have hopt2 : Derives
      (.quest (Regex.seq [lit '@',
        .cap 5 (Regex.seq [.plus (.cls isHexLower), .quest (str "-dirty".toList)])])) w8
      _ _ := hopt
  obtain ⟨commit, hcommit, rfl, rfl⟩ := derives_optCommit hopt2
  refine ⟨⟨lv, w1, sep1, w3, sep2, w5, a :: b :: tl, tail, commit⟩, ?_, ?_, ?_⟩
  · exact ⟨⟨hmajne, hmaj⟩, ⟨hminne, hmin⟩, ⟨hpatne, hpat⟩, by simpa [anyCharNotNL] using hs1,
      by simpa [anyCharNotNL] using hs2, ⟨a, b, tl, rfl, ha, hb⟩, htail, hcommit⟩
  · simp [VersionText.text, VersionText.nameText, VersionText.tagText]
  · simp [VersionText.groups, VersionText.tagText]

end versionutil

/-! ## `FindStringSubmatch` with the pattern of `versionutil` -/

namespace versionutil

open regexp

theorem versionRegexp_numSubexp : versionRegexp.numSubexp = 5 := rfl

theorem groups_submatches (t : VersionText) :
    (t.groups (List.replicate 6 [])).set 0 t.text = t.submatches := by
  cases hc : t.commit <;>
    simp [VersionText.groups, commitGroups, VersionText.submatches, VersionText.commitText,
      commitTextOf, hc, List.replicate]

theorem text_ne_nil (t : VersionText) : t.text ≠ [] := by
  cases hv : t.leadingV <;> cases hm : t.major <;>
    simp [VersionText.text, VersionText.nameText, hv, hm]

/-- The leftmost match in a version text with separators that are not digits
is the text itself. -/
theorem find_text (t : VersionText) (ht : t.WellFormed)
    (h1 : isDigit t.sep1 = false) (h2 : isDigit t.sep2 = false) :
    versionRegexp.find t.text = some t.submatches := by
  have hm : versionRegexp.matchAt t.text = some t.submatches := by
    have h := versionRegexp_accepts t ht h1 h2 (List.replicate 6 []) (List GoString)
      (fun s1 c => some (c.set 0 (t.text.take (t.text.length - s1.length))))
      t.submatches (by
        simp only [List.length_nil, Nat.sub_zero, List.take_length]
        rw [groups_submatches])
    simpa [Regex.matchAt, versionRegexp_numSubexp] using h
  cases htext : t.text with
  | nil => exact absurd htext (text_ne_nil t)
  | cons x xs =>
    rw [Regex.find, ← htext, hm]
    rfl

/-- A match of the pattern anywhere in a string is a version text in it, and
the submatches are the parts of that text. -/
theorem find_some (s : GoString) (caps : Caps) (h : versionRegexp.find s = some caps) :
    ∃ (before : GoString) (t : VersionText) (after : GoString),
      t.WellFormed ∧ s = before ++ t.text ++ after ∧ caps = t.submatches := by
  obtain ⟨before, s1, rfl, hm⟩ := find_sound versionRegexp s caps h
  obtain ⟨w, rest, c1, rfl, hd, rfl⟩ := matchAt_sound versionRegexp s1 caps hm
  obtain ⟨t, ht, rfl, rfl⟩ := versionRegexp_derives hd
  refine ⟨before, t, rest, ht, by simp, ?_⟩
  rw [versionRegexp_numSubexp]
  exact groups_submatches t

end versionutil

/-! ## `Atoi` on a numeral -/

namespace strconv

open regexp versionutil

theorem foldl_digits (s : GoString) :
    ∀ a : Nat, s.foldl (fun n c => n * 10 + (c.toNat - '0'.toNat)) a
      = a * 10 ^ s.length + numeralValue s := by
  induction s with
  | nil =>
    intro a
    simp [numeralValue]
  | cons x xs ih =>
    intro a
    have h48 : '0'.toNat = 48 := rfl
    rw [List.foldl_cons, ih]
    simp only [numeralValue, List.reverse_cons, List.map_append, List.map_cons, List.map_nil,
      Nat.ofDigits_append, Nat.ofDigits_singleton, List.length_map, List.length_reverse,
      List.length_cons, h48]
    ring

theorem isDigit_head (s : GoString) (hs : IsNumeral s) :
    s.head? ≠ some '-' ∧ s.head? ≠ some '+' := by
  obtain ⟨hne, hd⟩ := hs
  cases s with
  | nil => exact absurd rfl hne
  | cons x xs =>
    have hx := hd x (by simp)
    constructor
    · intro h
      have hx2 : x = '-' := by simpa using h
      rw [hx2] at hx
      revert hx
      decide
    · intro h
      have hx2 : x = '+' := by simpa using h
      rw [hx2] at hx
      revert hx
      decide

/-- On a numeral that fits in an `int`, `Atoi` returns its value and no error. -/
theorem Atoi_numeral (s : GoString) (hs : IsNumeral s) (hfit : numeralValue s < 2 ^ 63) :
    Atoi s = ((numeralValue s : Int), none) := by
  obtain ⟨h1, h2⟩ := isDigit_head s hs
  have hp : parseDigits s = some (numeralValue s) := by
    have hall : s.all isDigit = true := by
      rw [List.all_eq_true]
      exact hs.2
    unfold parseDigits
    rw [if_pos ⟨hs.1, hall⟩, foldl_digits]
    simp
  have h63 : (2 : Nat) ^ 63 = 9223372036854775808 := by norm_num
  rw [h63] at hfit
  simp [Atoi, h1, h2, hp, hfit]

end strconv

/-! ## `ParseVersion` -/

namespace versionutil

open regexp

theorem ParseVersion_of_no_match (s : GoString) (h : versionRegexp.find s = none) :
    ParseVersion s = (Version.zero, some errNoVersionMatch) := by
  simp [ParseVersion, Regex.FindStringSubmatch, h]

theorem ParseVersion_of_submatches (s m a b c tag commit : GoString)
    (h : versionRegexp.FindStringSubmatch s = [m, a, b, c, tag, commit]) :
    ParseVersion s =
      if (strconv.Atoi a).2 ≠ none then
        (⟨m, ((strconv.Atoi a).1, 0, 0), [], []⟩, (strconv.Atoi a).2)
      else if (strconv.Atoi b).2 ≠ none then
        (⟨m, ((strconv.Atoi a).1, (strconv.Atoi b).1, 0), [], []⟩, (strconv.Atoi b).2)
      else if (strconv.Atoi c).2 ≠ none then
        (⟨m, ((strconv.Atoi a).1, (strconv.Atoi b).1, (strconv.Atoi c).1), [], []⟩,
          (strconv.Atoi c).2)
      else if commit ≠ [] then
        (⟨m.take (m.length - commit.length - 1),
          ((strconv.Atoi a).1, (strconv.Atoi b).1, (strconv.Atoi c).1), tag, commit⟩, none)
      else
        (⟨m, ((strconv.Atoi a).1, (strconv.Atoi b).1, (strconv.Atoi c).1), tag, commit⟩, none) := by
  simp [ParseVersion, h, Version.zero]

theorem commitText_eq_nil (t : VersionText) (ht : t.WellFormed) :
    t.commitText = [] ↔ t.commit = none := by
  cases hc : t.commit with
  | none => simp [VersionText.commitText, commitTextOf, hc]
  | some cm =>
    obtain ⟨hex, dirty⟩ := cm
    have hne := (ht.commit hex dirty hc).1
    simp [VersionText.commitText, commitTextOf, hc, hne]

theorem text_of_commit (t : VersionText) (ht : t.WellFormed) (hc : t.commitText ≠ []) :
    t.text = t.nameText ++ '@' :: t.commitText := by
  cases hcm : t.commit with
  | none => exact absurd ((commitText_eq_nil t ht).2 hcm) hc
  | some cm => simp [VersionText.text, commitPartOf, VersionText.commitText, hcm]

theorem text_of_no_commit (t : VersionText) (ht : t.WellFormed) (hc : t.commitText = []) :
    t.text = t.nameText := by
  have hcm := (commitText_eq_nil t ht).1 hc
  simp [VersionText.text, commitPartOf, hcm]

theorem take_name (t : VersionText) (ht : t.WellFormed) (hc : t.commitText ≠ []) :
    t.text.take (t.text.length - t.commitText.length - 1) = t.nameText := by
  rw [text_of_commit t ht hc]
  have hlen : (t.nameText ++ '@' :: t.commitText).length - t.commitText.length - 1
      = t.nameText.length := by
    simp only [List.length_append, List.length_cons]
    omega
  rw [hlen, List.take_left]

/-- The result of `ParseVersion` on a string whose leftmost match is the
version text `t`, when the three numbers fit in an `int`. -/
theorem ParseVersion_of_find (s : GoString) (t : VersionText) (ht : t.WellFormed)
    (hfind : versionRegexp.find s = some t.submatches)
    (hmajor : numeralValue t.major < 2 ^ 63) (hminor : numeralValue t.minor < 2 ^ 63)
    (hpatch : numeralValue t.patch < 2 ^ 63) :
    ParseVersion s =
      (⟨t.nameText, ((numeralValue t.major : Int), (numeralValue t.minor : Int),
        (numeralValue t.patch : Int)), t.tagText, t.commitText⟩, none) := by
  have hsub : versionRegexp.FindStringSubmatch s
      = [t.text, t.major, t.minor, t.patch, t.tagText, t.commitText] := by
    simp [Regex.FindStringSubmatch, hfind, VersionText.submatches]
  rw [ParseVersion_of_submatches s _ _ _ _ _ _ hsub,
    strconv.Atoi_numeral _ ht.major hmajor, strconv.Atoi_numeral _ ht.minor hminor,
    strconv.Atoi_numeral _ ht.patch hpatch]
  by_cases hc : t.commitText = []
  · simp [hc, text_of_no_commit t ht hc]
  · simp [hc, take_name t ht hc]

theorem isDigit_dot : isDigit '.' = false := by decide

end versionutil

namespace versionutil

open regexp

theorem tailText_no_at (segs : List GoString)
    (h : ∀ seg ∈ segs, seg ≠ [] ∧ ∀ x ∈ seg, isLowerDigitUnderscore x = true) :
    '@' ∉ tailText segs := by
  induction segs with
  | nil => simp [tailText]
  | cons seg segs ih =>
    have hseg := (h seg (by simp)).2
    have hrec := ih fun sg hsg => h sg (by simp [hsg])
    have hs : '@' ∉ seg := fun hmem => absurd (hseg '@' hmem) (by decide)
    have hd : ¬ '@' = '-' := by decide
    simp only [tailText, List.mem_cons, List.mem_append]
    tauto

/-- The version and tag part of a version text has no `@` but, possibly, the
two separators. -/
theorem nameText_no_at (t : VersionText) (ht : t.WellFormed) (h1 : t.sep1 ≠ '@')
    (h2 : t.sep2 ≠ '@') : '@' ∉ t.nameText := by
  obtain ⟨a, b, r3, hhead, ha, hb⟩ := ht.tagHead
  have hmaj : '@' ∉ t.major := fun hm => absurd (ht.major.2 '@' hm) (by decide)
  have hmin : '@' ∉ t.minor := fun hm => absurd (ht.minor.2 '@' hm) (by decide)
  have hpat : '@' ∉ t.patch := fun hm => absurd (ht.patch.2 '@' hm) (by decide)
  have htl := tailText_no_at t.tagTail ht.tagTail
  have hr3 : '@' ∉ b :: r3 := fun hm => absurd (hb '@' hm) (by decide)
  have ha2 : '@' ≠ a := by
    rintro rfl
    revert ha
    decide
  have hv : '@' ∉ (if t.leadingV then ['v'] else []) := by
    cases t.leadingV <;> simp
  have hd : ¬ '@' = '-' := by decide
  have h1s : ¬ '@' = t.sep1 := fun h => h1 h.symm
  have h2s : ¬ '@' = t.sep2 := fun h => h2 h.symm
  simp only [VersionText.nameText, VersionText.tagText, hhead, List.mem_append, List.mem_cons]
  simp only [List.mem_cons] at hr3
  tauto

theorem dash_mem_text (t : VersionText) : '-' ∈ t.text := by
  simp [VersionText.text, VersionText.nameText]

end versionutil

/-! ## The claims on the ordering -/

namespace versionutil

open regexp

/-- C1 (code bug). `LessThan` is not a strict weak ordering: for `1.2.3-beta`
and `1.2.3-dev`, an example of the specification itself, `LessThan` holds in
both directions, so it is not asymmetric, and with transitivity it would give
`1.2.3-beta < 1.2.3-beta`, which it denies. `Less` of the root package agrees. -/
theorem LessThan_beta_dev_both :
    Version.LessThan ⟨[], (1, 2, 3), "beta".toList, []⟩ ⟨[], (1, 2, 3), "dev".toList, []⟩ = true ∧
    Version.LessThan ⟨[], (1, 2, 3), "dev".toList, []⟩ ⟨[], (1, 2, 3), "beta".toList, []⟩ = true ∧
    Version.LessThan ⟨[], (1, 2, 3), "beta".toList, []⟩ ⟨[], (1, 2, 3), "beta".toList, []⟩ = false ∧
    dockerdevtools.Less ⟨[], (1, 2, 3), "beta".toList, []⟩ ⟨[], (1, 2, 3), "dev".toList, []⟩ = true ∧
    dockerdevtools.Less ⟨[], (1, 2, 3), "dev".toList, []⟩ ⟨[], (1, 2, 3), "beta".toList, []⟩ = true ∧
    ¬ (∀ a b : Version, a.LessThan b = true → b.LessThan a = false) ∧
    ¬ (∀ a b c : Version, a.LessThan b = true → b.LessThan c = true → a.LessThan c = true) := by
  refine ⟨by decide, by decide, by decide, by decide, by decide, ?_, ?_⟩
  · intro h
    exact absurd (h ⟨[], (1, 2, 3), "beta".toList, []⟩ ⟨[], (1, 2, 3), "dev".toList, []⟩
      (by decide)) (by decide)
  · intro h
    exact absurd (h ⟨[], (1, 2, 3), "beta".toList, []⟩ ⟨[], (1, 2, 3), "dev".toList, []⟩
      ⟨[], (1, 2, 3), "beta".toList, []⟩ (by decide) (by decide)) (by decide)

/-- C2 (code bug). The four classes of tags are not respected. `dev` is in the
lowest class and `beta` in the next, yet `1.2.3-beta` is less than `1.2.3-dev`;
`zeta` is below the class of `rc1`, yet `1.2.3-zeta` is not less than
`1.2.3-rc1`: the two are incomparable. -/
theorem LessThan_tag_classes_fail :
    Version.LessThan ⟨[], (1, 2, 3), "dev".toList, []⟩ ⟨[], (1, 2, 3), "beta".toList, []⟩ = true ∧
    Version.LessThan ⟨[], (1, 2, 3), "beta".toList, []⟩ ⟨[], (1, 2, 3), "dev".toList, []⟩ = true ∧
    Version.LessThan ⟨[], (1, 2, 3), "zeta".toList, []⟩ ⟨[], (1, 2, 3), "rc1".toList, []⟩ = false ∧
    Version.LessThan ⟨[], (1, 2, 3), "rc1".toList, []⟩ ⟨[], (1, 2, 3), "zeta".toList, []⟩ = false := by
  decide

/-! ## The claims on `ParseVersion` -/

/-- C3 (counterexample). Two strings of the grammar of the claim that
`ParseVersion` rejects: `1.9.0`, without a tag, and `1.2.3-a`, whose tag is one
letter. -/
theorem ParseVersion_rejects_grammar :
    ParseVersion "1.9.0".toList = (Version.zero, some errNoVersionMatch) ∧
    ParseVersion "1.2.3-a".toList = (Version.zero, some errNoVersionMatch) := by
  decide

/-- The older `ParseVersion` of the root package takes the tag as optional: it
accepts `1.9.0`. Its tag is one segment: of `17.03.0-ce-rc1` it matches
`17.03.0-ce` only. -/
theorem root_ParseVersion_examples :
    dockerdevtools.ParseVersion "1.9.0".toList = (⟨"1.9.0".toList, (1, 9, 0), [], []⟩, none) ∧
    dockerdevtools.ParseVersion "17.03.0-ce-rc1".toList
      = (⟨"17.03.0-ce".toList, (17, 3, 0), "ce".toList, []⟩, none) := by
  decide

/-- C3 (amended). For every text `[v]MAJOR.MINOR.PATCH-TAG[@COMMIT]` with a
tag, the first segment of the tag a lowercase letter and at least one more
lowercase letter or digit, the later segments over `[a-z0-9_]`, the commit
lowercase hexadecimal with an optional `-dirty`, and the three numbers within
the range of `int`, `ParseVersion` returns no error and exactly the numbers,
the tag and the commit of the text; `Name` is the text before the `@`. -/
theorem ParseVersion_roundtrip (t : VersionText) (ht : t.WellFormed)
    (h1 : t.sep1 = '.') (h2 : t.sep2 = '.')
    (hmajor : numeralValue t.major < 2 ^ 63) (hminor : numeralValue t.minor < 2 ^ 63)
    (hpatch : numeralValue t.patch < 2 ^ 63) :
    ParseVersion t.text =
      (⟨t.nameText, ((numeralValue t.major : Int), (numeralValue t.minor : Int),
        (numeralValue t.patch : Int)), t.tagText, t.commitText⟩, none) :=
  ParseVersion_of_find t.text t ht
    (find_text t ht (by rw [h1]; exact isDigit_dot) (by rw [h2]; exact isDigit_dot))
    hmajor hminor hpatch

/-- C3 (witness). The text `v17.03.0-ce-rc1@abc123-dirty`. -/
theorem ParseVersion_roundtrip_witness :
    ParseVersion "v17.03.0-ce-rc1@abc123-dirty".toList =
      (⟨"v17.03.0-ce-rc1".toList, (17, 3, 0), "ce-rc1".toList, "abc123-dirty".toList⟩, none) := by
  have h := ParseVersion_roundtrip
    ⟨true, "17".toList, '.', "03".toList, '.', "0".toList, "ce".toList, ["rc1".toList],
      some ("abc123".toList, true)⟩
    ⟨⟨by decide, by decide⟩, ⟨by decide, by decide⟩, ⟨by decide, by decide⟩, by decide, by decide,
      ⟨'c', 'e', [], rfl, by decide, by decide⟩, by decide,
      by
        intro hex dirty heq
        cases heq
        decide⟩
    rfl rfl (by simp [numeralValue, Nat.ofDigits_cons]) (by simp [numeralValue, Nat.ofDigits_cons])
    (by simp [numeralValue, Nat.ofDigits_cons])
  simpa [VersionText.text, VersionText.nameText, VersionText.tagText, VersionText.commitText,
    commitPartOf, commitTextOf, tailText, numeralValue, Nat.ofDigits_cons] using h

end versionutil

namespace versionutil

open regexp

/-- C4 (counterexample). The string `build 1.2.3-rc1 ok` has text before and
after the version, so it is not a string of the grammar; `ParseVersion` looks
for a version anywhere in the string and accepts it. -/
theorem ParseVersion_accepts_embedded :
    ParseVersion "build 1.2.3-rc1 ok".toList
      = (⟨"1.2.3-rc1".toList, (1, 2, 3), "rc1".toList, []⟩, none) := by
  decide

/-- C4 (amended). For every string that does not contain three numerals
separated by two single characters, `ParseVersion` returns the error
`no version match` and the zero `Version`. -/
theorem ParseVersion_no_version_match (s : GoString) (h : ¬ ContainsNumberTriple s) :
    ParseVersion s = (Version.zero, some errNoVersionMatch) := by
  cases hf : versionRegexp.find s with
  | none => exact ParseVersion_of_no_match s hf
  | some caps =>
    obtain ⟨before, t, after, ht, hs, _⟩ := find_some s caps hf
    refine absurd ⟨before ++ (if t.leadingV then ['v'] else []), t.major, t.sep1, t.minor,
      t.sep2, t.patch, '-' :: t.tagText ++ commitPartOf t.commit ++ after,
      ht.major, ht.minor, ht.patch, ?_⟩ h
    rw [hs]
    simp [VersionText.text, VersionText.nameText]

/-- C4 (witness). The string `1.9` has two numbers only: three numerals and
two separators take five characters at least. -/
theorem ParseVersion_no_version_match_witness :
    ParseVersion "1.9".toList = (Version.zero, some errNoVersionMatch) :=
  ParseVersion_no_version_match "1.9".toList (by
    rintro ⟨before, major, c1, minor, c2, patch, after, hmajor, hminor, hpatch, hs⟩
    have hlen := congrArg List.length hs
    have h1 : 0 < major.length := List.length_pos.mpr hmajor.1
    have h2 : 0 < minor.length := List.length_pos.mpr hminor.1
    have h3 : 0 < patch.length := List.length_pos.mpr hpatch.1
    simp at hlen
    omega)

/-- C5. In `1@2@3-ab@abc` the numbers are separated by `@`, which the
unescaped dots of the pattern accept; `ParseVersion` returns the commit `abc`
and the `Name` `1@2@3-ab`, which contains `@`. -/
theorem ParseVersion_name_contains_at :
    ParseVersion "1@2@3-ab@abc".toList
      = (⟨"1@2@3-ab".toList, (1, 2, 3), "ab".toList, "abc".toList⟩, none) ∧
    '@' ∈ (ParseVersion "1@2@3-ab@abc".toList).1.Name := by
  decide

end versionutil

/-! ## The claims on formatting and download locations -/

namespace versionutil

theorem fmt_d_natCast (n : Nat) : fmt.d (n : Int) = (Nat.repr n).toList := by
  have hneg : ¬ ((n : Int) < 0) := by omega
  simp [fmt.d, fmt.fmtInteger, hneg, Nat.repr, List.asString]

theorem fmt_d02_natCast (n : Nat) :
    fmt.d02 (n : Int) = List.leftpad 2 '0' (Nat.repr n).toList := by
  have hneg : ¬ ((n : Int) < 0) := by omega
  simp [fmt.d02, fmt.fmtInteger, hneg, Nat.repr, List.asString, List.leftpad]

/-- C6. For natural numbers, `versionString` is the plain decimal
`major.minor.patch` below major version 17; from 17 on, major and minor are
padded with zeros on the left to two digits at least and the patch is not
padded. `versionString(17,3,0)` is `17.03.0` and `versionString(16,3,0)` is
`16.3.0`. -/
theorem versionString_format (major minor release : Nat) :
    versionString major minor release =
      (if major < 17 then
        (Nat.repr major).toList ++ ".".toList ++ (Nat.repr minor).toList ++ ".".toList
          ++ (Nat.repr release).toList
      else
        List.leftpad 2 '0' (Nat.repr major).toList ++ ".".toList
          ++ List.leftpad 2 '0' (Nat.repr minor).toList ++ ".".toList
          ++ (Nat.repr release).toList) ∧
    2 ≤ (List.leftpad 2 '0' (Nat.repr major).toList).length ∧
    2 ≤ (List.leftpad 2 '0' (Nat.repr minor).toList).length ∧
    versionString 17 3 0 = "17.03.0".toList ∧
    versionString 16 3 0 = "16.3.0".toList := by
  refine ⟨?_, ?_, ?_, by decide, by decide⟩
  · have hlt : ((major : Int) < 17) ↔ major < 17 := by omega
    simp only [versionString, hlt, fmt_d_natCast, fmt_d02_natCast]
  · rw [List.leftpad_length]
    omega
  · rw [List.leftpad_length]
    omega

/-- C7. The three cases of `downloadURL` of `versionutil`: the address at
`get.docker.com` for an empty tag below major version 17, the address at
`download.docker.com` for a tag that starts with `ce` (channel `test` exactly
for a tag that starts with `ce-rc`, `stable` otherwise), and the empty string
in every other case; with the addresses of `1.9.0`, `17.03.0-ce` and
`17.03.0-ce-rc1`. -/
theorem downloadURL_cases (v : Version) (os arch : GoString) :
    ((v.Tag = [] ∧ v.versionNumber.1 < 17) →
      v.downloadURL os arch = "https://get.docker.com/builds/".toList ++ os ++ "/".toList
        ++ arch ++ "/docker-".toList ++ v.VersionString ++ downloadSuffix v) ∧
    (strings.HasPrefix v.Tag "ce".toList = true →
      v.downloadURL os arch = "https://download.docker.com/".toList ++ os ++ "/static/".toList
        ++ (if strings.HasPrefix v.Tag "ce-rc".toList = true then "test".toList
            else "stable".toList)
        ++ "/".toList ++ arch ++ "/docker-".toList ++ v.VersionString ++ "-".toList ++ v.Tag
        ++ downloadSuffix v) ∧
    (¬ (v.Tag = [] ∧ v.versionNumber.1 < 17) → strings.HasPrefix v.Tag "ce".toList = false →
      v.downloadURL os arch = []) ∧
    (StaticVersion 1 9 0).DownloadURL
      = "https://get.docker.com/builds/linux/x86_64/docker-1.9.0".toList ∧
    ({ StaticVersion 17 3 0 with Tag := "ce".toList } : Version).DownloadURL
      = "https://download.docker.com/linux/static/stable/x86_64/docker-17.03.0-ce.tgz".toList ∧
    ({ StaticVersion 17 3 0 with Tag := "ce-rc1".toList } : Version).DownloadURL
      = "https://download.docker.com/linux/static/test/x86_64/docker-17.03.0-ce-rc1.tgz".toList := by
  refine ⟨?_, ?_, ?_, by decide, by decide, by decide⟩
  · intro h
    simp only [Version.downloadURL, h, and_self, if_true]
  · intro h
    have hne : ¬ (v.Tag = [] ∧ v.versionNumber.1 < 17) := by
      rintro ⟨h0, _⟩
      rw [h0] at h
      revert h
      decide
    simp only [Version.downloadURL, hne, h, if_true, if_false]
  · intro h1 h2
    simp only [Version.downloadURL, h1, h2, if_false, Bool.false_eq_true]

/-- C8 (counterexample). `DownloadURL` of `versionutil` returns the empty string
for `1.9.0-rc5`; `downloadURL` of the root package gives `1.12.0-rc1`, which is
after `1.11.0-rc1`, an address that does not end in `.tgz`. -/
theorem DownloadURL_rc_counterexample :
    ({ StaticVersion 1 9 0 with Tag := "rc5".toList } : Version).DownloadURL = [] ∧
    dockerdevtools.downloadURL { StaticVersion 1 12 0 with Tag := "rc1".toList }
        "linux".toList "x86_64".toList
      = "https://test.docker.com/builds/linux/x86_64/docker-1.12.0-rc1".toList := by
  decide

/-- C8 (amended). For every version whose tag starts with `rc`, `downloadURL` of
the root package returns the address at `test.docker.com` with the three
numbers in plain decimal and the tag, and no suffix, whatever the version;
`downloadURL` of `versionutil` has no such case and returns the empty string. -/
theorem downloadURL_rc (v : Version) (os arch : GoString)
    (h : strings.HasPrefix v.Tag "rc".toList = true) :
    dockerdevtools.downloadURL v os arch
      = "https://test.docker.com/builds/".toList ++ os ++ "/".toList ++ arch
        ++ "/docker-".toList ++ fmt.d v.versionNumber.1 ++ ".".toList
        ++ fmt.d v.versionNumber.2.1 ++ ".".toList ++ fmt.d v.versionNumber.2.2
        ++ "-".toList ++ v.Tag ∧
    v.downloadURL os arch = [] := by
  have hne : v.Tag ≠ [] := by
    intro h0
    rw [h0] at h
    revert h
    decide
  have hce : strings.HasPrefix v.Tag "ce".toList = false := by
    cases hT : v.Tag with
    | nil => exact absurd hT hne
    | cons x xs =>
      rw [hT] at h
      have hx : x = 'r' := by
        simp [strings.HasPrefix, List.isPrefixOf] at h
        exact h.1.symm
      subst hx
      simp [strings.HasPrefix, List.isPrefixOf]
  constructor
  · simp only [dockerdevtools.downloadURL, hne, h, if_true, if_false]
  · have h17 : ¬ (v.Tag = [] ∧ v.versionNumber.1 < 17) := fun h0 => hne h0.1
    simp only [Version.downloadURL, h17, hce, if_false, Bool.false_eq_true]

/-- C8 (witness). The version `1.9.0-rc5`. -/
theorem downloadURL_rc_witness :
    dockerdevtools.downloadURL { StaticVersion 1 9 0 with Tag := "rc5".toList }
        "Linux".toList "x86_64".toList
      = "https://test.docker.com/builds/Linux/x86_64/docker-1.9.0-rc5".toList ∧
    ({ StaticVersion 1 9 0 with Tag := "rc5".toList } : Version).downloadURL
        "Linux".toList "x86_64".toList = [] := by
  have h := downloadURL_rc { StaticVersion 1 9 0 with Tag := "rc5".toList }
    "Linux".toList "x86_64".toList (by decide)
  exact ⟨h.1.trans (by decide), h.2⟩

end versionutil

/-! ## The last character of a download location -/

namespace versionutil

open buildutil

theorem toDigitsCore_suffix (f : Nat) :
    ∀ (n : Nat) (ds : List Char), ∃ pre, Nat.toDigitsCore 10 f n ds = pre ++ ds := by
  induction f with
  | zero =>
    intro n ds
    exact ⟨[], rfl⟩
  | succ f ih =>
    intro n ds
    by_cases h : n / 10 = 0
    · exact ⟨[Nat.digitChar (n % 10)], by simp [Nat.toDigitsCore, h]⟩
    · obtain ⟨pre, hpre⟩ := ih (n / 10) (Nat.digitChar (n % 10) :: ds)
      exact ⟨pre ++ [Nat.digitChar (n % 10)], by simp [Nat.toDigitsCore, h, hpre]⟩

theorem toDigits_last (n : Nat) :
    ∃ pre, Nat.toDigits 10 n = pre ++ [Nat.digitChar (n % 10)] := by
  by_cases h : n / 10 = 0
  · exact ⟨[], by simp [Nat.toDigits, Nat.toDigitsCore, h]⟩
  · obtain ⟨pre, hpre⟩ := toDigitsCore_suffix n (n / 10) [Nat.digitChar (n % 10)]
    exact ⟨pre, by simp [Nat.toDigits, Nat.toDigitsCore, h, hpre]⟩

theorem digitChar_ne_z (n : Nat) : Nat.digitChar (n % 10) ≠ 'z' := by
  have h : n % 10 < 10 := Nat.mod_lt n (by decide)
  generalize n % 10 = m at h
  interval_cases m <;> decide

theorem fmt_d_last (v : Int) : ∃ pre c, fmt.d v = pre ++ [c] ∧ c ≠ 'z' := by
  obtain ⟨pre, hpre⟩ := toDigits_last v.natAbs
  by_cases hneg : v < 0
  · exact ⟨'-' :: pre, Nat.digitChar (v.natAbs % 10),
      by simp [fmt.d, fmt.fmtInteger, hneg, hpre], digitChar_ne_z _⟩
  · exact ⟨pre, Nat.digitChar (v.natAbs % 10),
      by simp [fmt.d, fmt.fmtInteger, hneg, hpre], digitChar_ne_z _⟩

theorem versionString_last (major minor release : Int) :
    ∃ pre c, versionString major minor release = pre ++ [c] ∧ c ≠ 'z' := by
  obtain ⟨pre, c, hpre, hc⟩ := fmt_d_last release
  by_cases h : major < 17
  · exact ⟨fmt.d major ++ ".".toList ++ fmt.d minor ++ ".".toList ++ pre, c,
      by simp [versionString, h, hpre], hc⟩
  · exact ⟨fmt.d02 major ++ ".".toList ++ fmt.d02 minor ++ ".".toList ++ pre, c,
      by simp [versionString, h, hpre], hc⟩

theorem not_tgz_suffix_of_last (l pre : GoString) (c : Char) (hl : l = pre ++ [c])
    (hc : c ≠ 'z') : ¬ ".tgz".toList <:+ l := by
  rintro ⟨t, ht⟩
  rw [hl] at ht
  have hrev := congrArg List.reverse ht
  simp at hrev
  exact hc hrev.1.symm

theorem tgz_suffix_of_dash (x tag : GoString)
    (h : ".tgz".toList <:+ x ++ '-' :: tag) : ".tgz".toList <:+ tag := by
  have h2 : ('-' :: tag) <:+ x ++ '-' :: tag := List.suffix_append x _
  rcases List.suffix_or_suffix_of_suffix h h2 with h3 | h3
  · rcases List.suffix_cons_iff.mp h3 with h4 | h4
    · exact absurd h4 (by simp)
    · exact h4
  · have hmem : '-' ∈ ".tgz".toList := h3.subset (by simp)
    exact absurd hmem (by decide)

theorem tarVersion_eq_nonLegacyVersion : tarVersion = nonLegacyVersion := rfl

end versionutil

/-! ## The name of the init file -/

namespace buildutil

/-- `filepath.Split` cuts a path into a directory part that is empty or ends
in `/` and a final name without `/`, and there is one such cut only. -/
theorem Split_eq (dir name : GoString) (hname : '/' ∉ name)
    (hdir : dir = [] ∨ dir.getLast? = some '/') :
    filepath.Split (dir ++ name) = (dir, name) := by
  have hall : ∀ a ∈ name.reverse, (fun c : Char => c != '/') a = true := by
    intro a ha
    have ha2 : a ∈ name := List.mem_reverse.mp ha
    have hne : a ≠ '/' := fun h => hname (h ▸ ha2)
    simpa using hne
  have hstop : dir.reverse.takeWhile (fun c : Char => c != '/') = [] ∧
      dir.reverse.dropWhile (fun c : Char => c != '/') = dir.reverse := by
    rcases hdir with rfl | hlast
    · simp
    · rw [← List.head?_reverse] at hlast
      cases hrev : dir.reverse with
      | nil => simp [hrev] at hlast
      | cons x xs =>
        rw [hrev] at hlast
        have hx : x = '/' := by simpa using hlast
        subst hx
        simp [List.takeWhile, List.dropWhile]
  simp only [filepath.Split, List.reverse_append, List.takeWhile_append_of_pos hall,
    List.dropWhile_append_of_pos hall, hstop.1, hstop.2, List.append_nil, List.reverse_reverse]

/-- C10. For a path `f` cut into a directory part `dir` (empty or ending in
`/`) and a final name without `/`: `initFile(f)` is `dir`, `dockerinit` and
the rest when the name is `docker` and a rest, and `dir`, the name and `-init`
when the name does not start with `docker`. The directory part of the result is
`dir` again, and the result is never `f`. -/
theorem initFile_spec (f dir name : GoString) (hf : f = dir ++ name) (hname : '/' ∉ name)
    (hdir : dir = [] ∨ dir.getLast? = some '/') :
    filepath.Split f = (dir, name) ∧
    (∀ rest, name = "docker".toList ++ rest →
      initFile f = dir ++ "dockerinit".toList ++ rest) ∧
    (¬ "docker".toList <+: name → initFile f = dir ++ name ++ "-init".toList) ∧
    (filepath.Split (initFile f)).1 = dir ∧
    initFile f ≠ f := by
  subst hf
  have hsplit := Split_eq dir name hname hdir
  have hdocker : ∀ rest, name = "docker".toList ++ rest →
      initFile (dir ++ name) = dir ++ "dockerinit".toList ++ rest := by
    intro rest hrest
    subst hrest
    simp only [initFile, hsplit]
    simp [strings.HasPrefix, List.isPrefixOf]
  have hother : ¬ "docker".toList <+: name →
      initFile (dir ++ name) = dir ++ name ++ "-init".toList := by
    intro hpre
    have hb : strings.HasPrefix name "docker".toList = false := by
      rw [strings.HasPrefix, Bool.eq_false_iff]
      intro hp
      exact hpre (List.isPrefixOf_iff_prefix.mp hp)
    simp only [initFile, hsplit, hb, Bool.false_eq_true, if_false, List.append_assoc]
  refine ⟨hsplit, hdocker, hother, ?_, ?_⟩
  · by_cases hpre : "docker".toList <+: name
    · obtain ⟨rest, hrest⟩ := hpre
      rw [hdocker rest hrest.symm, List.append_assoc]
      have hno : '/' ∉ "dockerinit".toList ++ rest := by
        intro hm
        rcases List.mem_append.mp hm with h1 | h1
        · revert h1
          decide
        · exact hname (hrest ▸ List.mem_append_right _ h1)
      rw [Split_eq dir _ hno hdir]
    · rw [hother hpre, List.append_assoc]
      have hno : '/' ∉ name ++ "-init".toList := by
        intro hm
        rcases List.mem_append.mp hm with h1 | h1
        · exact hname h1
        · revert h1
          decide
      rw [Split_eq dir _ hno hdir]
  · intro heq
    have hlen := congrArg List.length heq
    by_cases hpre : "docker".toList <+: name
    · obtain ⟨rest, hrest⟩ := hpre
      rw [hdocker rest hrest.symm, ← hrest] at hlen
      simp at hlen
      omega
    · rw [hother hpre] at hlen
      simp at hlen

/-- C10 (witness). The path `/cache/docker-1.9.0`. -/
theorem initFile_spec_witness :
    initFile "/cache/docker-1.9.0".toList = "/cache/dockerinit-1.9.0".toList ∧
    (filepath.Split (initFile "/cache/docker-1.9.0".toList)).1 = "/cache/".toList ∧
    initFile "/cache/docker-1.9.0".toList ≠ "/cache/docker-1.9.0".toList := by
  have h := initFile_spec "/cache/docker-1.9.0".toList "/cache/".toList "docker-1.9.0".toList
    (by decide) (by decide) (by decide)
  exact ⟨h.2.1 "-1.9.0".toList (by decide), h.2.2.2.1, h.2.2.2.2⟩

end buildutil

/-! ## The filesystem: making directories and copying a file -/

namespace buildutil

theorem mkdirParent_length (path parent : GoString) (h : mkdirParent path = some parent) :
    parent.length < path.length := by
  unfold mkdirParent at h
  simp only at h
  split at h
  · rename_i hj
    have hp : parent = path.take
        (((path.take (path.reverse.dropWhile fun c => c == '/').length).reverse.dropWhile
          fun c => c != '/').length - 1) := (Option.some.inj h).symm
    have h1 : ((path.take (path.reverse.dropWhile fun c => c == '/').length).reverse.dropWhile
        fun c => c != '/').length ≤ path.length := by
      refine le_trans (List.dropWhile_suffix _).length_le ?_
      rw [List.length_reverse, List.length_take]
      exact Nat.min_le_right _ _
    rw [hp, List.length_take]
    omega
  · cases h

/-- The bound on the depth of `mkdirAll` is never reached: any fuel above the
length of the path gives the same result. -/
theorem mkdirAll_fuel : ∀ (n m : Nat) (fs : FS) (path : GoString),
    path.length < n → path.length < m → mkdirAll n fs path = mkdirAll m fs path := by
  intro n
  induction n with
  | zero =>
    intro m fs path hn
    exact absurd hn (Nat.not_lt_zero _)
  | succ n ih =>
    intro m fs path hn hm
    cases m with
    | zero => exact absurd hm (Nat.not_lt_zero _)
    | succ m =>
      simp only [mkdirAll]
      cases hp : mkdirParent path with
      | none => rfl
      | some parent =>
        have hl := mkdirParent_length path parent hp
        simp only
        rw [ih m fs parent (by omega) (by omega)]

theorem mkdirAll_keeps : ∀ (fuel : Nat) (fs : FS) (path q : GoString) (n : Node),
    fs q = some n → (mkdirAll fuel fs path).1 q = some n := by
  intro fuel
  induction fuel with
  | zero =>
    intro fs path q n h
    exact h
  | succ fuel ih =>
    intro fs path q n h
    have hmk : ∀ f : FS, f q = some n → f path = none → (f.mkdir path) q = some n := by
      intro f hf hnone
      have hq : q ≠ path := by
        intro hqp
        rw [hqp, hnone] at hf
        cases hf
      simp [FS.mkdir, hq, hf]
    simp only [mkdirAll]
    cases hfp : fs path with
    | some node =>
      cases node with
      | file c => exact h
      | dir => exact h
    | none =>
      simp only
      split
      · exact h
      · cases hp : mkdirParent path with
        | none => exact hmk fs h hfp
        | some parent =>
          simp only
          split
          · exact ih fs parent q n h
          · have hq : q ≠ path := by
              intro hqp
              rw [hqp, hfp] at h
              cases h
            simp [FS.mkdir, hq, ih fs parent q n h]

theorem mkdirAll_error : ∀ (fuel : Nat) (fs : FS) (path : GoString) (e : Error),
    (mkdirAll fuel fs path).2 = some e → (mkdirAll fuel fs path).1 = fs := by
  intro fuel
  induction fuel with
  | zero =>
    intro fs path e _
    rfl
  | succ fuel ih =>
    intro fs path e h
    simp only [mkdirAll] at h ⊢
    cases hfp : fs path with
    | some node =>
      cases node with
      | file c => rfl
      | dir => rfl
    | none =>
      rw [hfp] at h
      simp only at h ⊢
      split
      · rfl
      · rename_i hne
        rw [if_neg hne] at h
        cases hp : mkdirParent path with
        | none =>
          rw [hp] at h
          cases h
        | some parent =>
          rw [hp] at h
          simp only at h ⊢
          split
          · rename_i hr
            rw [if_pos hr] at h
            exact ih fs parent e h
          · rename_i hr
            rw [if_neg hr] at h
            cases h

theorem mkdirAll_file : ∀ (fuel : Nat) (fs : FS) (path q : GoString) (c : GoString),
    (mkdirAll fuel fs path).1 q = some (Node.file c) → fs q = some (Node.file c) := by
  intro fuel
  induction fuel with
  | zero =>
    intro fs path q c h
    exact h
  | succ fuel ih =>
    intro fs path q c h
    have hmk : ∀ f : FS, (f.mkdir path) q = some (Node.file c) → f q = some (Node.file c) := by
      intro f hf
      by_cases hq : q = path
      · simp [FS.mkdir, hq] at hf
      · simpa [FS.mkdir, hq] using hf
    simp only [mkdirAll] at h
    cases hfp : fs path with
    | some node =>
      rw [hfp] at h
      cases node with
      | file c => exact h
      | dir => exact h
    | none =>
      rw [hfp] at h
      simp only at h
      split at h
      · exact h
      · cases hp : mkdirParent path with
        | none =>
          rw [hp] at h
          exact hmk fs h
        | some parent =>
          rw [hp] at h
          simp only at h
          split at h
          · exact ih fs parent q c h
          · exact ih fs parent q c (hmk _ h)

theorem MkdirAll_keeps (fs : FS) (path q : GoString) (n : Node) (h : fs q = some n) :
    (fs.MkdirAll path).1 q = some n :=
  mkdirAll_keeps _ fs path q n h

theorem MkdirAll_error (fs : FS) (path : GoString) (e : Error)
    (h : (fs.MkdirAll path).2 = some e) : (fs.MkdirAll path).1 = fs :=
  mkdirAll_error _ fs path e h

theorem MkdirAll_file (fs : FS) (path q c : GoString)
    (h : (fs.MkdirAll path).1 q = some (Node.file c)) : fs q = some (Node.file c) :=
  mkdirAll_file _ fs path q c h

end buildutil

namespace buildutil

open versionutil

theorem write_other (fs : FS) (path content q : GoString) (hq : q ≠ path) :
    (fs.write path content) q = fs q := by
  simp [FS.write, hq]

theorem write_same (fs : FS) (path content : GoString) :
    (fs.write path content) path = some (Node.file content) := by
  simp [FS.write]

/-- `CopyFile` leaves every node but the target as it is. -/
theorem CopyFile_keeps (fs : FS) (source dest q : GoString) (n : Node) (hq : q ≠ dest)
    (h : fs q = some n) : (CopyFile fs source dest).1 q = some n := by
  have hm := MkdirAll_keeps fs (filepath.Dir dest) q n h
  unfold CopyFile
  split
  · exact h
  · simp only
    split
    · exact hm
    · split
      · exact hm
      · split
        · simp only [write_other _ _ _ _ hq, hm]
        · simp only [write_other _ _ _ _ hq, hm]
        · simp only [write_other _ _ _ _ hq, hm]

/-- `CopyFile` makes no file but the target. -/
theorem CopyFile_file (fs : FS) (source dest q c : GoString) (hq : q ≠ dest)
    (h : (CopyFile fs source dest).1 q = some (Node.file c)) : fs q = some (Node.file c) := by
  unfold CopyFile at h
  split at h
  · exact h
  · simp only at h
    split at h
    · exact MkdirAll_file fs _ q c h
    · split at h
      · exact MkdirAll_file fs _ q c h
      · split at h
        · simp only [write_other _ _ _ _ hq] at h
          exact MkdirAll_file fs _ q c h
        · simp only [write_other _ _ _ _ hq] at h
          exact MkdirAll_file fs _ q c h
        · simp only [write_other _ _ _ _ hq] at h
          exact MkdirAll_file fs _ q c h

/-- A copy that succeeds leaves the content of the source at the target, when
the two are not the same path. -/
theorem CopyFile_dest (fs : FS) (source dest c : GoString) (h : fs source = some (Node.file c))
    (hsd : source ≠ dest) (hok : (CopyFile fs source dest).2 = none) :
    (CopyFile fs source dest).1 dest = some (Node.file c) := by
  have hm := MkdirAll_keeps fs (filepath.Dir dest) source _ h
  have hst : fs.stat source = true := by simp [FS.stat, h]
  unfold CopyFile at hok ⊢
  rw [if_neg (by simp [hst])] at hok ⊢
  simp only at hok ⊢
  split
  · rename_i e he
    rw [he] at hok
    cases hok
  · rename_i he
    rw [he] at hok
    simp only at hok
    split
    · rename_i hd
      rw [if_pos hd] at hok
      cases hok
    · simp only [write_other _ _ _ _ hsd, hm, write_same]

/-- A copy of a regular file succeeds when the directory of the target can be
made and the target is not a directory. -/
theorem CopyFile_ok (fs : FS) (source dest c : GoString) (h : fs source = some (Node.file c))
    (hmk : (fs.MkdirAll (filepath.Dir dest)).2 = none)
    (hd : (fs.MkdirAll (filepath.Dir dest)).1 dest ≠ some Node.dir) :
    (CopyFile fs source dest).2 = none := by
  have hm := MkdirAll_keeps fs (filepath.Dir dest) source _ h
  have hst : fs.stat source = true := by simp [FS.stat, h]
  unfold CopyFile
  rw [if_neg (by simp [hst])]
  simp only [hmk]
  rw [if_neg hd]
  by_cases hsd : source = dest
  · subst hsd
    simp only [write_same]
  · simp only [write_other _ _ _ _ hsd, hm]

theorem putCopy_keeps (fs : FS) (source cached q : GoString) (n : Node) (hq : q ≠ cached)
    (hi : q ≠ initFile cached) (h : fs q = some n) :
    (putCopy fs source cached).1 q = some n := by
  have h1 := CopyFile_keeps fs source cached q n hq h
  unfold putCopy
  simp only
  split
  · exact h1
  · split
    · exact CopyFile_keeps _ _ _ q n hi h1
    · exact h1

theorem putCopy_file (fs : FS) (source cached q c : GoString) (hq : q ≠ cached)
    (hi : q ≠ initFile cached) (h : (putCopy fs source cached).1 q = some (Node.file c)) :
    fs q = some (Node.file c) := by
  unfold putCopy at h
  simp only at h
  split at h
  · exact CopyFile_file fs source cached q c hq h
  · split at h
    · exact CopyFile_file fs source cached q c hq (CopyFile_file _ _ _ q c hi h)
    · exact CopyFile_file fs source cached q c hq h

theorem versionFile_eq (root : GoString) (v : Version) (hc : v.Commit = []) :
    versionFile root v = .ok (cachePath root v) := by
  by_cases ht : v.Tag = [] <;> simp [versionFile, cachePath, hc, ht]

theorem getCached_eq (fs : FS) (root : GoString) (v : Version) :
    getCached fs root v
      = .ok (if fs.stat (cachePath root v) = true then cachePath root v else []) := by
  by_cases hc : v.Commit = []
  · simp only [getCached, hc, ne_eq, not_true_eq_false, if_false, versionFile_eq root v hc]
    split <;> rfl
  · simp only [getCached, cachePath, hc, ne_eq, not_false_eq_true, if_true]
    split <;> rfl

theorem Clean_ne_nil (path : GoString) : filepath.Clean path ≠ [] := by
  unfold filepath.Clean
  split
  · decide
  · simp only
    split
    · simp
    · split
      · decide
      · assumption

theorem Join_ne_nil (root e : GoString) (he : e ≠ []) : filepath.Join [root, e] ≠ [] := by
  unfold filepath.Join
  cases root with
  | nil =>
    cases e with
    | nil => exact absurd rfl he
    | cons x xs =>
      simp only [List.dropWhile, List.isEmpty]
      exact Clean_ne_nil _
  | cons y ys =>
    simp only [List.dropWhile, List.isEmpty]
    exact Clean_ne_nil _

theorem toDigits_ne_nil (n : Nat) : Nat.toDigits 10 n ≠ [] := by
  obtain ⟨pre, hpre⟩ := toDigits_last n
  rw [hpre]
  simp

theorem fmt_d_ne_nil (v : Int) : fmt.d v ≠ [] := by
  obtain ⟨pre, c, hpre, _⟩ := fmt_d_last v
  rw [hpre]
  simp

theorem cachePath_ne_nil (root : GoString) (v : Version) : cachePath root v ≠ [] := by
  unfold cachePath
  split
  · exact Join_ne_nil root _ (by assumption)
  · have h := Join_ne_nil root
      (fmt.d v.versionNumber.1 ++ ".".toList ++ fmt.d v.versionNumber.2.1 ++ ".".toList
        ++ fmt.d v.versionNumber.2.2) (by simp)
    intro habs
    exact h (List.append_eq_nil.mp habs).1

theorem initFile_length (f : GoString) : f.length < (initFile f).length := by
  have hlen : (filepath.Split f).1.length + (filepath.Split f).2.length = f.length := by
    have h := congrArg List.length
      (List.takeWhile_append_dropWhile (fun c : Char => c != '/') f.reverse)
    simp only [List.length_append, List.length_reverse] at h
    simp only [filepath.Split, List.length_reverse]
    omega
  unfold initFile
  simp only
  split
  · rename_i hp
    have hpre : "docker".toList <+: (filepath.Split f).2 := List.isPrefixOf_iff_prefix.mp hp
    have h6 := hpre.length_le
    simp only [List.length_append, List.length_drop]
    have h10 : "dockerinit".toList.length = 10 := rfl
    have h6b : "docker".toList.length = 6 := rfl
    omega
  · simp only [List.length_append]
    have h5 : "-init".toList.length = 5 := rfl
    omega

theorem initFile_ne (f : GoString) : initFile f ≠ f := by
  intro h
  have hl := initFile_length f
  rw [h] at hl
  exact Nat.lt_irrefl _ hl

/-- What `PutVersion` does, by the state of the cache entry at `cachePath`. -/
theorem PutVersion_eq {δ : Type} [DecidableEq δ] (digest : GoString → δ) (fs : FS)
    (root : GoString) (v : Version) (source : GoString) :
    PutVersion digest fs root v source =
      .ok (if fs.stat (cachePath root v) = true then
        match binaryDigest digest fs source with
        | .error e => (fs, some e)
        | .ok sourceDgst =>
          match binaryDigest digest fs (cachePath root v) with
          | .error e => (fs, some e)
          | .ok cachedDgst =>
            if sourceDgst = cachedDgst then (fs, none)
            else putCopy fs source (cachePath root v)
      else putCopy fs source (cachePath root v)) := by
  have hne := cachePath_ne_nil root v
  unfold PutVersion
  rw [getCached_eq]
  by_cases hs : fs.stat (cachePath root v) = true
  · simp only [hs, hne, if_true, ne_eq, not_false_eq_true]
    cases binaryDigest digest fs source with
    | error e => rfl
    | ok sd =>
      cases binaryDigest digest fs (cachePath root v) with
      | error e => rfl
      | ok cd =>
        by_cases hd : sd = cd <;> simp [hd]
  · by_cases hc : v.Commit = []
    · simp [hs, hc, versionFile_eq root v hc]
    · have hj : filepath.Join [root, v.Commit] = cachePath root v := by
        simp [cachePath, hc]
      simp [hs, hc, hj]

end buildutil

/-! ## The build cache: paths, panics and the commit that is not cached -/

namespace buildutil

open versionutil

/-- When `putCopy` returns no error, the content of the source is at `cached`. -/
theorem putCopy_dest (fs : FS) (source cached c : GoString)
    (h : fs source = some (Node.file c)) (hsd : source ≠ cached)
    (hok : (putCopy fs source cached).2 = none) :
    (putCopy fs source cached).1 cached = some (Node.file c) := by
  unfold putCopy at hok ⊢
  simp only at hok ⊢
  by_cases hr : (CopyFile fs source cached).2 = none
  · have hd := CopyFile_dest fs source cached c h hsd hr
    rw [if_neg (fun hn => hn hr)] at hok ⊢
    split
    · exact CopyFile_keeps _ _ _ cached _ (Ne.symm (initFile_ne cached)) hd
    · exact hd
  · rw [if_pos hr] at hok
    exact absurd hok hr

/-- C11. `getCached` looks up the path `cachePath`, and `PutVersion` writes
there: with an entry at `cachePath` it compares the digests and, when they
differ, copies the source to `cachePath`; without an entry it copies the source
to `cachePath`. A copy that returns no error leaves the content of the source
at `cachePath`, and the copy changes no other node but the init file of that
path (it may make directories). For a version with a commit the path is
`root/Commit`, the same for every version with that commit, whatever its
numbers and tag; without a commit it is `root/major.minor.patch` with the
numbers in plain decimal, followed by a hyphen and the tag exactly when there
is a tag. -/
theorem cache_path_layout {δ : Type} [DecidableEq δ] (digest : GoString → δ) (fs : FS)
    (root : GoString) (v : Version) (source : GoString) :
    getCached fs root v
      = .ok (if fs.stat (cachePath root v) = true then cachePath root v else []) ∧
    PutVersion digest fs root v source =
      .ok (if fs.stat (cachePath root v) = true then
        match binaryDigest digest fs source with
        | .error e => (fs, some e)
        | .ok sourceDgst =>
          match binaryDigest digest fs (cachePath root v) with
          | .error e => (fs, some e)
          | .ok cachedDgst =>
            if sourceDgst = cachedDgst then (fs, none)
            else putCopy fs source (cachePath root v)
      else putCopy fs source (cachePath root v)) ∧
    (∀ c, fs source = some (Node.file c) → source ≠ cachePath root v →
      (putCopy fs source (cachePath root v)).2 = none →
      (putCopy fs source (cachePath root v)).1 (cachePath root v) = some (Node.file c)) ∧
    (∀ q n, q ≠ cachePath root v → q ≠ initFile (cachePath root v) → fs q = some n →
      (putCopy fs source (cachePath root v)).1 q = some n) ∧
    (∀ q c, q ≠ cachePath root v → q ≠ initFile (cachePath root v) →
      (putCopy fs source (cachePath root v)).1 q = some (Node.file c) →
      fs q = some (Node.file c)) ∧
    (v.Commit ≠ [] →
      cachePath root v = filepath.Join [root, v.Commit] ∧
      ∀ w : Version, w.Commit = v.Commit →
        cachePath root w = cachePath root v ∧
        getCached fs root w = getCached fs root v ∧
        PutVersion digest fs root w source = PutVersion digest fs root v source) ∧
    (v.Commit = [] → ∀ a b c : Nat, v.versionNumber = ((a : Int), (b : Int), (c : Int)) →
      cachePath root v =
        filepath.Join [root, (Nat.repr a).toList ++ ".".toList ++ (Nat.repr b).toList
            ++ ".".toList ++ (Nat.repr c).toList]
          ++ (if v.Tag ≠ [] then "-".toList ++ v.Tag else [])) ∧
    cachePath "/cache".toList ⟨"1.9.0-rc1".toList, (1, 9, 0), "rc1".toList, []⟩
      = "/cache/1.9.0-rc1".toList ∧
    cachePath "/cache".toList ⟨"17.03.0-ce".toList, (17, 3, 0), "ce".toList, "abc123".toList⟩
      = "/cache/abc123".toList ∧
    (PutVersion exampleDigest exampleFS "/cache".toList
        ⟨"1.9.0-rc1".toList, (1, 9, 0), "rc1".toList, []⟩ "/src/docker".toList).toOption.map
        (fun r => (r.2, r.1 "/cache/1.9.0-rc1".toList, r.1 "/cache/1.9.0-rc1-init".toList))
      = some (none, some (Node.file "build".toList), some (Node.file "init".toList)) := by
  refine ⟨getCached_eq fs root v, PutVersion_eq digest fs root v source, ?_, ?_, ?_, ?_, ?_,
    by decide, by decide, by decide⟩
  · intro c hsrc hsd hok
    exact putCopy_dest fs source _ c hsrc hsd hok
  · intro q n hq hi hn
    exact putCopy_keeps fs source _ q n hq hi hn
  · intro q c hq hi hc
    exact putCopy_file fs source _ q c hq hi hc
  · intro hc
    refine ⟨by simp [cachePath, hc], ?_⟩
    intro w hw
    have hcw : cachePath root w = cachePath root v := by
      have hwc : w.Commit ≠ [] := by rwa [hw]
      simp [cachePath, hc, hwc, hw]
    refine ⟨hcw, ?_, ?_⟩
    · rw [getCached_eq, getCached_eq, hcw]
    · rw [PutVersion_eq, PutVersion_eq, hcw]
  · intro hc a b c hn
    simp only [cachePath, hc, ne_eq, not_true_eq_false, if_false, hn, fmt_d_natCast]

/-- C12. For a version with a commit, when there is nothing at `root/Commit`,
neither a file nor a directory, `InstallVersion` returns
`ErrCannotDownloadCommit` whatever the numbers, the tag and the outside world
are; it has called `http.Get` with no address, and the filesystem is as it
was. -/
theorem InstallVersion_commit_not_cached (env : Env) (fs : FS) (root : GoString)
    (v : Version) (target : GoString) (hc : v.Commit ≠ [])
    (hmiss : fs (filepath.Join [root, v.Commit]) = none) :
    InstallVersion env fs root v target = .ok ⟨fs, [], some ErrCannotDownloadCommit⟩ := by
  simp [InstallVersion, getCached, hc, FS.stat, hmiss]

/-- C12 (witness). The commit `fff000` is not in the example cache. -/
theorem InstallVersion_commit_not_cached_witness :
    InstallVersion exampleEnv exampleFS "/cache".toList
      ⟨"1.9.0-dev".toList, (1, 9, 0), "dev".toList, "fff000".toList⟩ "/target".toList
      = .ok ⟨exampleFS, [], some ErrCannotDownloadCommit⟩ :=
  InstallVersion_commit_not_cached exampleEnv exampleFS "/cache".toList
    ⟨"1.9.0-dev".toList, (1, 9, 0), "dev".toList, "fff000".toList⟩ "/target".toList
    (by decide) (by decide)

/-- C16. The panic of `versionFile`, which is raised exactly for a version with
a commit, is not reached through the cache: for every version, filesystem and
outside world, `IsCached`, `PutVersion` and `InstallVersion` return and do not
panic. -/
theorem versionFile_panic_unreachable {δ : Type} [DecidableEq δ] (digest : GoString → δ)
    (env : Env) (fs : FS) (root : GoString) (v : Version) (source target : GoString) :
    (versionFile root v = .error versionFilePanic ↔ v.Commit ≠ []) ∧
    (∃ b, IsCached fs root v = .ok b) ∧
    (∃ r, PutVersion digest fs root v source = .ok r) ∧
    (∃ r, InstallVersion env fs root v target = .ok r) := by
  refine ⟨?_, ?_, ?_, ?_⟩
  · by_cases hc : v.Commit = []
    · simp [versionFile_eq root v hc, hc]
    · simp [versionFile, hc]
  · exact ⟨_, by rw [IsCached, getCached_eq]⟩
  · exact ⟨_, PutVersion_eq digest fs root v source⟩
  · unfold InstallVersion
    rw [getCached_eq]
    simp only
    by_cases hcd : (if fs.stat (cachePath root v) = true then cachePath root v else []) = []
    · rw [if_pos hcd]
      by_cases hc : v.Commit = []
      · simp only [hc, ne_eq, not_true_eq_false, if_false]
        cases env.httpGet v.DownloadURL with
        | error e => exact ⟨_, rfl⟩
        | ok resp =>
          obtain ⟨body, readError⟩ := resp
          cases tempFile env fs root with
          | error e => exact ⟨_, rfl⟩
          | ok tmp =>
            obtain ⟨tf, fs1⟩ := tmp
            cases readError with
            | some e => exact ⟨_, rfl⟩
            | none =>
              simp only [saveVersion, versionFile_eq root v hc]
              cases env.renameError with
              | some e => exact ⟨_, rfl⟩
              | none =>
                simp only
                by_cases hd : (fs1.write tf body) (cachePath root v) = some Node.dir
                · rw [if_pos hd]
                  exact ⟨_, rfl⟩
                · rw [if_neg hd]
                  exact ⟨_, rfl⟩
      · exact ⟨⟨fs, [], some ErrCannotDownloadCommit⟩, by simp [hc]⟩
    · rw [if_neg hcd]
      exact ⟨_, rfl⟩

end buildutil

/-! ## The suffix of the download location and the way of installing -/

namespace versionutil

open buildutil

theorem location_not_tgz_of_less (v : Version) (os arch : GoString)
    (htag : ¬ ".tgz".toList <:+ v.Tag) (h : v.LessThan tarVersion = true)
    (hne : v.downloadURL os arch ≠ []) : ¬ ".tgz".toList <:+ v.downloadURL os arch := by
  intro hsuf
  have hs : downloadSuffix v = [] := by simp [downloadSuffix, h]
  by_cases hget : v.Tag = [] ∧ v.versionNumber.1 < 17
  · obtain ⟨pre, c, hpre, hc⟩ :=
      versionString_last v.versionNumber.1 v.versionNumber.2.1 v.versionNumber.2.2
    refine not_tgz_suffix_of_last (v.downloadURL os arch)
      ("https://get.docker.com/builds/".toList ++ os ++ "/".toList ++ arch
        ++ "/docker-".toList ++ pre) c ?_ hc hsuf
    simp only [Version.downloadURL, hget, and_self, if_true, hs, Version.VersionString, hpre,
      List.append_nil, List.append_assoc]
  · by_cases hce : strings.HasPrefix v.Tag "ce".toList = true
    · apply htag
      apply tgz_suffix_of_dash
        ("https://download.docker.com/".toList ++ os ++ "/static/".toList
          ++ (if strings.HasPrefix v.Tag "ce-rc".toList = true then "test".toList
              else "stable".toList)
          ++ "/".toList ++ arch ++ "/docker-".toList ++ v.VersionString)
      have hurl : v.downloadURL os arch =
          ("https://download.docker.com/".toList ++ os ++ "/static/".toList
          ++ (if strings.HasPrefix v.Tag "ce-rc".toList = true then "test".toList
              else "stable".toList)
          ++ "/".toList ++ arch ++ "/docker-".toList ++ v.VersionString) ++ '-' :: v.Tag := by
        simp only [Version.downloadURL, hget, hce, if_true, if_false, hs, List.append_nil,
          List.append_assoc]
        rfl
      rw [← hurl]
      exact hsuf
    · apply hne
      simp only [Version.downloadURL, hget, hce, if_false, Bool.false_eq_true]

theorem location_tgz_of_not_less (v : Version) (os arch : GoString)
    (h : ¬ v.LessThan tarVersion = true)
    (hne : v.downloadURL os arch ≠ []) : ".tgz".toList <:+ v.downloadURL os arch := by
  have hs : downloadSuffix v = ".tgz".toList := by simp [downloadSuffix, h]
  by_cases hget : v.Tag = [] ∧ v.versionNumber.1 < 17
  · simp only [Version.downloadURL, hget, and_self, if_true, hs]
    exact List.suffix_append _ _
  · by_cases hce : strings.HasPrefix v.Tag "ce".toList = true
    · simp only [Version.downloadURL, hget, hce, if_true, if_false, hs]
      exact List.suffix_append _ _
    · exfalso
      apply hne
      simp only [Version.downloadURL, hget, hce, if_false, Bool.false_eq_true]

/-- When `installLegacyDocker` returns no error, the content of the cached
file is at the target. -/
theorem installLegacyDocker_dest (fs : FS) (cached cachedInit target c : GoString)
    (h : fs cached = some (Node.file c)) (hne : cached ≠ target)
    (hok : (installLegacyDocker fs cached cachedInit target).2 = none) :
    (installLegacyDocker fs cached cachedInit target).1 target = some (Node.file c) := by
  unfold installLegacyDocker at hok ⊢
  simp only at hok ⊢
  by_cases hr : (CopyFile fs cached target).2 = none
  · have hd := CopyFile_dest fs cached target c h hne hr
    have hti : target ≠ initFile target := Ne.symm (initFile_ne target)
    rw [if_neg (fun hn => hn hr)] at hok ⊢
    split
    · exact CopyFile_keeps _ _ _ target _ hti hd
    · split
      · exact hd
      · simp only [write_other _ _ _ _ hti, hd]
      · exact hd
  · rw [if_pos hr] at hok
    exact absurd hok hr

/-- C9 (counterexample). The version `1.0.0` with the tag `ce.tgz` is less than
`1.11.0-rc1`: its suffix is empty and `InstallVersion` installs it with
`installLegacyDocker`, as a single binary, yet its download location is not
empty and ends in `.tgz`, because the tag does. -/
theorem tgz_location_installed_legacy :
    ({ StaticVersion 1 0 0 with Tag := "ce.tgz".toList } : Version).DownloadURL
      = "https://download.docker.com/linux/static/stable/x86_64/docker-1.0.0-ce.tgz".toList ∧
    downloadSuffix { StaticVersion 1 0 0 with Tag := "ce.tgz".toList } = [] ∧
    ({ StaticVersion 1 0 0 with Tag := "ce.tgz".toList } : Version).LessThan nonLegacyVersion
      = true ∧
    installCached exampleEnv exampleFS { StaticVersion 1 0 0 with Tag := "ce.tgz".toList }
        "/cache/1.0.0-ce.tgz".toList "/target".toList
      = installLegacyDocker exampleFS "/cache/1.0.0-ce.tgz".toList
          (initFile "/cache/1.0.0-ce.tgz".toList)
          (filepath.Join ["/target".toList, "docker".toList]) := by
  have h : ({ StaticVersion 1 0 0 with Tag := "ce.tgz".toList } : Version).LessThan
      nonLegacyVersion = true := by decide
  refine ⟨by decide, by decide, by decide, ?_⟩
  simp only [installCached, h, if_true]

/-- C9 (amended). With `T` the version `1.11.0` tagged `rc1`, for every version
`v`: when `v.LessThan(T)` the suffix is empty and `InstallVersion` installs the
cached file with `installLegacyDocker`, as a single binary (the file is copied
to `docker` in the target directory); otherwise the suffix is `.tgz` and
`InstallVersion` unpacks the cached file with `tar` (an error of `tar` is
returned as `error untarring`). `InstallVersion` does so for a file it finds in
the cache and for a file it has just downloaded. So a non-empty download location that does not end in `.tgz`
belongs to a version installed as a single binary, and, for a version whose tag
does not itself end in `.tgz`, a non-empty location that ends in `.tgz` belongs
to a version installed by unpacking. -/
theorem suffix_and_strategy (env : Env) (fs : FS) (root : GoString) (v : Version)
    (cached target os arch : GoString) :
    (v.LessThan { StaticVersion 1 11 0 with Tag := "rc1".toList } = true →
      downloadSuffix v = [] ∧
      installCached env fs v cached target
        = installLegacyDocker fs cached (initFile cached)
            (filepath.Join [target, "docker".toList])) ∧
    (v.LessThan { StaticVersion 1 11 0 with Tag := "rc1".toList } = false →
      downloadSuffix v = ".tgz".toList ∧
      installCached env fs v cached target = installMultiBinary env fs cached target) ∧
    (getCached fs root v = .ok cached → cached ≠ [] →
      InstallVersion env fs root v target
        = .ok ⟨(installCached env fs v cached target).1, [],
            (installCached env fs v cached target).2⟩) ∧
    (∀ body tf fs1 fs2 saved, getCached fs root v = .ok [] → v.Commit = [] →
      env.httpGet v.DownloadURL = .ok (body, none) → tempFile env fs root = .ok (tf, fs1) →
      saveVersion env (fs1.write tf body) root tf v = .ok (fs2, .ok saved) →
      InstallVersion env fs root v target
        = .ok ⟨(installCached env fs2 v saved target).1, [v.DownloadURL],
            (installCached env fs2 v saved target).2⟩) ∧
    (∀ c, fs cached = some (Node.file c) → cached ≠ filepath.Join [target, "docker".toList] →
      (installLegacyDocker fs cached (initFile cached)
        (filepath.Join [target, "docker".toList])).2 = none →
      (installLegacyDocker fs cached (initFile cached)
        (filepath.Join [target, "docker".toList])).1 (filepath.Join [target, "docker".toList])
        = some (Node.file c)) ∧
    (∀ td e, env.tempDir = .ok td → env.untar ((fs.mkdir td) cached) = .error e →
      (installMultiBinary env fs cached target).2 = some (Error.untarring e)) ∧
    (v.downloadURL os arch ≠ [] → ¬ ".tgz".toList <:+ v.downloadURL os arch →
      installCached env fs v cached target
        = installLegacyDocker fs cached (initFile cached)
            (filepath.Join [target, "docker".toList])) ∧
    (¬ ".tgz".toList <:+ v.Tag → v.downloadURL os arch ≠ [] →
      ".tgz".toList <:+ v.downloadURL os arch →
      installCached env fs v cached target = installMultiBinary env fs cached target) := by
  have hT : ({ StaticVersion 1 11 0 with Tag := "rc1".toList } : Version) = tarVersion := rfl
  have hN : nonLegacyVersion = tarVersion := rfl
  rw [hT]
  refine ⟨?_, ?_, ?_, ?_, ?_, ?_, ?_, ?_⟩
  · intro h
    simp [downloadSuffix, installCached, hN, h]
  · intro h
    simp [downloadSuffix, installCached, hN, h]
  · intro hg hne
    simp only [InstallVersion, hg, hne, if_false]
  · intro body tf fs1 fs2 saved hg hc hget htmp hsave
    simp only [InstallVersion, hg, hc, if_true, ne_eq, not_true_eq_false, if_false, hget, htmp,
      hsave]
  · intro c hc hne hok
    exact installLegacyDocker_dest fs cached _ _ c hc hne hok
  · intro td e htd hun
    simp only [installMultiBinary, htd, hun]
  · intro hne hsuf
    by_cases h : v.LessThan tarVersion = true
    · simp [installCached, hN, h]
    · exact absurd (location_tgz_of_not_less v os arch h hne) hsuf
  · intro htag hne hsuf
    by_cases h : v.LessThan tarVersion = true
    · exact absurd hsuf (location_not_tgz_of_less v os arch htag h hne)
    · simp [installCached, hN, h]

/-- C9 (witness). The version `17.03.0-ce`, whose tag does not end in `.tgz`:
its location ends in `.tgz`, and a cached file of it is unpacked. -/
theorem suffix_and_strategy_witness :
    downloadSuffix { StaticVersion 17 3 0 with Tag := "ce".toList } = ".tgz".toList ∧
    installCached exampleEnv exampleFS { StaticVersion 17 3 0 with Tag := "ce".toList }
        "/cache/17.3.0-ce".toList "/target".toList
      = installMultiBinary exampleEnv exampleFS "/cache/17.3.0-ce".toList "/target".toList :=
  have h := suffix_and_strategy exampleEnv exampleFS "/cache".toList
    { StaticVersion 17 3 0 with Tag := "ce".toList } "/cache/17.3.0-ce".toList
    "/target".toList "linux".toList "x86_64".toList
  ⟨(h.2.1 (by decide)).1, h.2.2.2.2.2.2.2 (by decide) (by decide) (by decide)⟩

end versionutil

/-! ## `PutVersion` twice -/

namespace buildutil

open versionutil

theorem PutVersion_same {δ : Type} [DecidableEq δ] (digest : GoString → δ) (fs : FS)
    (root : GoString) (v : Version) (source cs ce : GoString)
    (hsrc : fs source = some (Node.file cs)) (hent : fs (cachePath root v) = some (Node.file ce))
    (hd : digest ce = digest cs) :
    PutVersion digest fs root v source = .ok (fs, none) := by
  rw [PutVersion_eq]
  simp [FS.stat, hent, binaryDigest, hsrc, hd]

theorem PutVersion_copies {δ : Type} [DecidableEq δ] (digest : GoString → δ) (fs : FS)
    (root : GoString) (v : Version) (source cs : GoString)
    (hsrc : fs source = some (Node.file cs))
    (hent : fs (cachePath root v) = none ∨
      ∃ c0, fs (cachePath root v) = some (Node.file c0) ∧ digest c0 ≠ digest cs) :
    source ≠ cachePath root v ∧
    PutVersion digest fs root v source = .ok (putCopy fs source (cachePath root v)) := by
  rw [PutVersion_eq]
  rcases hent with hnone | ⟨c0, hc0, hd⟩
  · constructor
    · intro h
      rw [h, hnone] at hsrc
      cases hsrc
    · simp [FS.stat, hnone]
  · constructor
    · intro h
      rw [h, hc0] at hsrc
      cases hsrc
      exact hd rfl
    · simp [FS.stat, hc0, binaryDigest, hsrc, Ne.symm hd]

theorem PutVersion_after {δ : Type} [DecidableEq δ] (digest : GoString → δ) (fs fs1 : FS)
    (root : GoString) (v : Version) (source cs : GoString)
    (hsrc : fs source = some (Node.file cs))
    (hput : PutVersion digest fs root v source = .ok (fs1, none)) :
    ∃ ce, fs1 (cachePath root v) = some (Node.file ce) ∧ digest ce = digest cs ∧
      ((fs (cachePath root v) = none ∨
        ∃ c0, fs (cachePath root v) = some (Node.file c0) ∧ digest c0 ≠ digest cs) → ce = cs) := by
  have hcopy : ∀ hent : (fs (cachePath root v) = none ∨
      ∃ c0, fs (cachePath root v) = some (Node.file c0) ∧ digest c0 ≠ digest cs),
      fs1 (cachePath root v) = some (Node.file cs) := by
    intro hent
    obtain ⟨hne, heq⟩ := PutVersion_copies digest fs root v source cs hsrc hent
    rw [heq] at hput
    have hp : putCopy fs source (cachePath root v) = (fs1, none) := Except.ok.inj hput
    have hd := putCopy_dest fs source (cachePath root v) cs hsrc hne (by rw [hp])
    rw [hp] at hd
    exact hd
  cases hent : fs (cachePath root v) with
  | none => exact ⟨cs, hcopy (Or.inl hent), rfl, fun _ => rfl⟩
  | some node =>
    cases node with
    | dir =>
      rw [PutVersion_eq] at hput
      simp [FS.stat, hent, binaryDigest, hsrc] at hput
    | file c0 =>
      by_cases hd : digest c0 = digest cs
      · rw [PutVersion_same digest fs root v source cs c0 hsrc hent hd] at hput
        have hfs : fs = fs1 := (Prod.mk.inj (Except.ok.inj hput)).1
        refine ⟨c0, by rw [← hfs]; exact hent, hd, ?_⟩
        rintro (h | ⟨c1, h1, h2⟩)
        · cases h
        · cases h1
          exact absurd hd h2
      · exact ⟨cs, hcopy (Or.inr ⟨c0, hent, hd⟩), rfl, fun _ => rfl⟩

/-- C13. For a source that is a regular file with the content `cs`, over an
explicit state of the filesystem and for any digest function: when the cache
entry of `v` is a file whose digest is the source's, `PutVersion` returns no
error and leaves the filesystem as it is; when there is no entry, or its digest
differs, `PutVersion` is the copy of the source to the entry, and after a
`PutVersion` that returns no error the entry has the content `cs`; after any
`PutVersion` that returns no error the entry is a file with the digest of the
source; and when the source still has its content afterwards, a second
`PutVersion` returns no error and changes nothing. -/
theorem PutVersion_idempotent {δ : Type} [DecidableEq δ] (digest : GoString → δ)
    (fs : FS) (root : GoString) (v : Version)
    (source cs : GoString) (hsrc : fs source = some (Node.file cs)) :
    (∀ ce, fs (cachePath root v) = some (Node.file ce) → digest ce = digest cs →
      PutVersion digest fs root v source = .ok (fs, none)) ∧
    ((fs (cachePath root v) = none ∨
        ∃ c0, fs (cachePath root v) = some (Node.file c0) ∧ digest c0 ≠ digest cs) →
      PutVersion digest fs root v source = .ok (putCopy fs source (cachePath root v)) ∧
      ∀ fs1, PutVersion digest fs root v source = .ok (fs1, none) →
        fs1 (cachePath root v) = some (Node.file cs)) ∧
    (∀ fs1, PutVersion digest fs root v source = .ok (fs1, none) →
      ∃ ce, fs1 (cachePath root v) = some (Node.file ce) ∧ digest ce = digest cs) ∧
    (∀ fs1, PutVersion digest fs root v source = .ok (fs1, none) →
      fs1 source = some (Node.file cs) →
      PutVersion digest fs1 root v source = .ok (fs1, none)) := by
  refine ⟨?_, ?_, ?_, ?_⟩
  · intro ce hent hd
    exact PutVersion_same digest fs root v source cs ce hsrc hent hd
  · intro hent
    refine ⟨(PutVersion_copies digest fs root v source cs hsrc hent).2, ?_⟩
    intro fs1 hput
    obtain ⟨ce, hce, _, hcs⟩ := PutVersion_after digest fs fs1 root v source cs hsrc hput
    rw [hce, hcs hent]
  · intro fs1 hput
    obtain ⟨ce, hce, hd, _⟩ := PutVersion_after digest fs fs1 root v source cs hsrc hput
    exact ⟨ce, hce, hd⟩
  · intro fs1 hput hs1
    obtain ⟨ce, hce, hd, _⟩ := PutVersion_after digest fs fs1 root v source cs hsrc hput
    exact PutVersion_same digest fs1 root v source cs ce hs1 hce hd

/-- C13 (witness). In the example filesystem, with the sum of the bytes as the
digest: the build of commit `abc123` is in the cache with the content of
`/src/docker`, and `PutVersion` changes nothing; the entry of `1.9.0-rc1` has
another digest, `PutVersion` copies the source over it and returns no error,
and the entry then has the content of the source. -/
theorem PutVersion_idempotent_witness :
    PutVersion exampleDigest exampleFS "/cache".toList
      ⟨"1.9.0-dev".toList, (1, 9, 0), "dev".toList, "abc123".toList⟩ "/src/docker".toList
      = .ok (exampleFS, none) ∧
    PutVersion exampleDigest exampleFS "/cache".toList
      ⟨"1.9.0-rc1".toList, (1, 9, 0), "rc1".toList, []⟩ "/src/docker".toList
      = .ok (putCopy exampleFS "/src/docker".toList
          (cachePath "/cache".toList ⟨"1.9.0-rc1".toList, (1, 9, 0), "rc1".toList, []⟩)) ∧
    (putCopy exampleFS "/src/docker".toList "/cache/1.9.0-rc1".toList).2 = none ∧
    (putCopy exampleFS "/src/docker".toList "/cache/1.9.0-rc1".toList).1
      "/cache/1.9.0-rc1".toList = some (Node.file "build".toList) :=
  ⟨(PutVersion_idempotent exampleDigest exampleFS "/cache".toList
      ⟨"1.9.0-dev".toList, (1, 9, 0), "dev".toList, "abc123".toList⟩ "/src/docker".toList
      "build".toList (by decide)).1 "build".toList (by decide) rfl,
    ((PutVersion_idempotent exampleDigest exampleFS "/cache".toList
      ⟨"1.9.0-rc1".toList, (1, 9, 0), "rc1".toList, []⟩ "/src/docker".toList
      "build".toList (by decide)).2.1
        (Or.inr ⟨"older".toList, by decide, by decide⟩)).1,
    by decide, by decide⟩

end buildutil

/-! ## Decimal numbers, and the versions `ParseVersion` returns -/

namespace versionutil

open regexp

theorem digitChar_isDigit (n : Nat) :
    isDigit (Nat.digitChar (n % 10)) = true ∧ (Nat.digitChar (n % 10)).toNat - 48 = n % 10 := by
  have h : n % 10 < 10 := Nat.mod_lt n (by decide)
  generalize n % 10 = m at h
  interval_cases m <;> decide

theorem numeralValue_concat (s : GoString) (c : Char) :
    numeralValue (s ++ [c]) = 10 * numeralValue s + (c.toNat - 48) := by
  simp [numeralValue, Nat.ofDigits_cons]
  omega

theorem toDigitsCore_spec (f : Nat) :
    ∀ (n : Nat) (ds : List Char), ∃ pre, Nat.toDigitsCore 10 f n ds = pre ++ ds ∧
      (∀ c ∈ pre, isDigit c = true) ∧ (n < f → numeralValue pre = n) := by
  induction f with
  | zero =>
    intro n ds
    exact ⟨[], rfl, by simp, by omega⟩
  | succ f ih =>
    intro n ds
    obtain ⟨hd, hv⟩ := digitChar_isDigit n
    by_cases h : n / 10 = 0
    · refine ⟨[Nat.digitChar (n % 10)], by simp [Nat.toDigitsCore, h], by simpa using hd, ?_⟩
      intro _
      have hnv : numeralValue [Nat.digitChar (n % 10)] = (Nat.digitChar (n % 10)).toNat - 48 := by
        simp [numeralValue]
      rw [hnv, hv]
      omega
    · obtain ⟨pre, hpre, hall, hval⟩ := ih (n / 10) (Nat.digitChar (n % 10) :: ds)
      refine ⟨pre ++ [Nat.digitChar (n % 10)], by simp [Nat.toDigitsCore, h, hpre], ?_, ?_⟩
      · intro c hc
        rcases List.mem_append.mp hc with hc | hc
        · exact hall c hc
        · have hcd : c = Nat.digitChar (n % 10) := by simpa using hc
          rw [hcd]
          exact hd
      · intro hn
        rw [numeralValue_concat, hval (by omega), hv]
        omega

/-- The decimal digits of a number: digit characters, whose value is the
number. -/
theorem toDigits_spec (n : Nat) :
    Nat.toDigits 10 n ≠ [] ∧ (∀ c ∈ Nat.toDigits 10 n, isDigit c = true) ∧
      numeralValue (Nat.toDigits 10 n) = n := by
  obtain ⟨pre, hpre, hall, hval⟩ := toDigitsCore_spec (n + 1) n []
  have heq : Nat.toDigits 10 n = pre := by
    rw [Nat.toDigits, hpre]
    simp
  obtain ⟨last, hlast⟩ := toDigits_last n
  refine ⟨?_, ?_, ?_⟩
  · rw [hlast]
    simp
  · rw [heq]
    exact hall
  · rw [heq]
    exact hval (by omega)

theorem fmt_d_nat (n : Nat) : fmt.d (n : Int) = Nat.toDigits 10 n := by
  have hneg : ¬ ((n : Int) < 0) := by omega
  simp [fmt.d, fmt.fmtInteger, hneg]

end versionutil

namespace strconv

open regexp versionutil

/-- On a numeral `Atoi` returns the value without an error, or an error. -/
theorem Atoi_numeral_ok (s : GoString) (hs : IsNumeral s) (h : (Atoi s).2 = none) :
    (Atoi s).1 = (numeralValue s : Int) := by
  by_cases hfit : numeralValue s < 2 ^ 63
  · rw [Atoi_numeral s hs hfit]
  · exfalso
    obtain ⟨h1, h2⟩ := isDigit_head s hs
    have hp : parseDigits s = some (numeralValue s) := by
      have hall : s.all isDigit = true := by
        rw [List.all_eq_true]
        exact hs.2
      unfold parseDigits
      rw [if_pos ⟨hs.1, hall⟩, foldl_digits]
      simp
    have h63 : (2 : Nat) ^ 63 = 9223372036854775808 := by norm_num
    rw [h63] at hfit
    simp [Atoi, h1, h2, hp, hfit] at h

end strconv

namespace versionutil

open regexp

/-- A version `ParseVersion` returns without an error has the parts of a
version text: natural numbers, and the tag and the commit of the text. -/
theorem ParseVersion_ok_fields (s : GoString) (v : Version) (h : ParseVersion s = (v, none)) :
    ∃ t : VersionText, t.WellFormed ∧ v.Tag = t.tagText ∧ v.Commit = t.commitText ∧
      v.versionNumber = ((numeralValue t.major : Int), (numeralValue t.minor : Int),
        (numeralValue t.patch : Int)) := by
  cases hf : versionRegexp.find s with
  | none =>
    rw [ParseVersion_of_no_match s hf] at h
    simp at h
  | some caps =>
    obtain ⟨before, t, after, ht, hs, rfl⟩ := find_some s caps hf
    have hsub : versionRegexp.FindStringSubmatch s
        = [t.text, t.major, t.minor, t.patch, t.tagText, t.commitText] := by
      simp [Regex.FindStringSubmatch, hf, VersionText.submatches]
    rw [ParseVersion_of_submatches s _ _ _ _ _ _ hsub] at h
    split_ifs at h with e1 e2 e3 e4
    · exact absurd (Prod.mk.inj h).2 e1
    · exact absurd (Prod.mk.inj h).2 e2
    · exact absurd (Prod.mk.inj h).2 e3
    · rw [← (Prod.mk.inj h).1]
      refine ⟨t, ht, rfl, rfl, ?_⟩
      simp only [strconv.Atoi_numeral_ok _ ht.major (not_not.mp e1),
        strconv.Atoi_numeral_ok _ ht.minor (not_not.mp e2),
        strconv.Atoi_numeral_ok _ ht.patch (not_not.mp e3)]
    · rw [← (Prod.mk.inj h).1]
      refine ⟨t, ht, rfl, rfl, ?_⟩
      simp only [strconv.Atoi_numeral_ok _ ht.major (not_not.mp e1),
        strconv.Atoi_numeral_ok _ ht.minor (not_not.mp e2),
        strconv.Atoi_numeral_ok _ ht.patch (not_not.mp e3)]

end versionutil

/-! ## `Join` with a plain last element -/

namespace filepath

theorem splitSlash_ne_nil (s : GoString) : splitSlash s ≠ [] := by
  cases s with
  | nil => simp [splitSlash]
  | cons c cs =>
    unfold splitSlash
    split
    · simp
    · split <;> simp

theorem splitSlash_plain (e : GoString) (he : '/' ∉ e) : splitSlash e = [e] := by
  induction e with
  | nil => rfl
  | cons c cs ih =>
    have hc : c ≠ '/' := fun h => he (by simp [h])
    have hcs : '/' ∉ cs := fun h => he (by simp [h])
    simp [splitSlash, hc, ih hcs]

theorem splitSlash_append (r e : GoString) (he : '/' ∉ e) :
    splitSlash (r ++ '/' :: e) = splitSlash r ++ [e] := by
  induction r with
  | nil => simp [splitSlash, splitSlash_plain e he]
  | cons c cs ih =>
    by_cases hc : c = '/'
    · simp [splitSlash, hc, ih]
    · cases hs : splitSlash cs with
      | nil => exact absurd hs (splitSlash_ne_nil cs)
      | cons x xs => simp [splitSlash, hc, ih, hs]

theorem joinSlash_concat (xs : List GoString) (e : GoString) :
    joinSlash (xs ++ [e]) = if xs = [] then e else joinSlash xs ++ '/' :: e := by
  induction xs with
  | nil => rfl
  | cons x xs ih =>
    cases xs with
    | nil => simp [joinSlash]
    | cons y ys =>
      have h : joinSlash ((y :: ys) ++ [e]) = joinSlash (y :: ys) ++ '/' :: e := by
        rw [ih]
        simp
      show x ++ '/' :: joinSlash ((y :: ys) ++ [e]) = _
      rw [h]
      simp [joinSlash]

theorem cleanElem_plain (rooted : Bool) (o : List GoString) (e : GoString) (hne : e ≠ [])
    (h1 : e ≠ ".".toList) (h2 : e ≠ "..".toList) : cleanElem rooted o e = e :: o := by
  unfold cleanElem
  rw [if_neg (fun h => h.elim hne h1), if_neg h2]

theorem Clean_eq (path : GoString) (hp : path ≠ []) (b : Bool)
    (hb : b = decide (path.head? = some '/')) :
    Clean path =
      if b = true then '/' :: joinSlash ((splitSlash path).foldl (cleanElem b) []).reverse
      else if joinSlash ((splitSlash path).foldl (cleanElem b) []).reverse = [] then ".".toList
      else joinSlash ((splitSlash path).foldl (cleanElem b) []).reverse := by
  subst hb
  unfold Clean
  rw [if_neg hp]

/-- The result of `Clean` on a path that ends in a slash and a plain element. -/
theorem Clean_plain (r e : GoString) (b : Bool) (hb : b = decide ((r ++ '/' :: e).head? = some '/'))
    (hne : e ≠ []) (hs : '/' ∉ e) (h1 : e ≠ ".".toList) (h2 : e ≠ "..".toList) :
    Clean (r ++ '/' :: e) =
      ((if b = true then ['/'] else [])
        ++ (if ((splitSlash r).foldl (cleanElem b) []).reverse = [] then []
            else joinSlash ((splitSlash r).foldl (cleanElem b) []).reverse ++ ['/'])) ++ e := by
  rw [Clean_eq (r ++ '/' :: e) (by simp) b hb, splitSlash_append r e hs, List.foldl_append,
    List.foldl_cons, List.foldl_nil, cleanElem_plain b _ e hne h1 h2, List.reverse_cons,
    joinSlash_concat]
  generalize (splitSlash r).foldl (cleanElem b) [] = out
  cases b <;> cases out <;> simp [hne]

/-- A last element that is plain (not empty, without a slash, and neither `.`
nor `..`) is the end of what `Join` returns, after a directory part that the
root alone decides. -/
theorem Join_plain (root : GoString) :
    ∃ dir : GoString, (dir = [] ∨ dir.getLast? = some '/') ∧
      ∀ e : GoString, e ≠ [] → '/' ∉ e → e ≠ ".".toList → e ≠ "..".toList →
        Join [root, e] = dir ++ e := by
  cases root with
  | nil =>
    refine ⟨[], Or.inl rfl, ?_⟩
    intro e hne hs h1 h2
    cases e with
    | nil => exact absurd rfl hne
    | cons x xs =>
      have hx : x ≠ '/' := fun h => hs (by simp [h])
      have hjoin : Join [[], x :: xs] = Clean (x :: xs) := by
        simp [Join, List.dropWhile, joinSlash]
      rw [hjoin, Clean_eq (x :: xs) (by simp) false (by simp [hx]),
        splitSlash_plain (x :: xs) hs, List.foldl_cons, List.foldl_nil,
        cleanElem_plain false [] (x :: xs) hne h1 h2]
      simp [joinSlash]
  | cons y ys =>
    refine ⟨(if decide (y = '/') = true then ['/'] else [])
      ++ (if ((splitSlash (y :: ys)).foldl (cleanElem (decide (y = '/'))) []).reverse = [] then []
          else joinSlash ((splitSlash (y :: ys)).foldl (cleanElem (decide (y = '/'))) []).reverse
            ++ ['/']), ?_, ?_⟩
    · generalize (splitSlash (y :: ys)).foldl (cleanElem (decide (y = '/'))) [] = out
      generalize decide (y = '/') = b
      have key : ∀ (a : Char) (x : GoString), (a :: (x ++ ['/'])).getLast? = some '/' := by
        intro a x
        exact List.getLast?_concat (a :: x)
      cases b <;> cases out <;> simp [key]
    · intro e hne hs h1 h2
      have hjoin : Join [y :: ys, e] = Clean ((y :: ys) ++ '/' :: e) := by
        simp [Join, List.dropWhile, joinSlash]
      rw [hjoin]
      exact Clean_plain (y :: ys) e (decide (y = '/')) (by simp) hne hs h1 h2

end filepath

/-! ## The init file of one cache entry and the cache entry of another version -/

namespace buildutil

open versionutil regexp

theorem sep_inj (c : Char) :
    ∀ (a b x y : GoString), c ∉ a → c ∉ b → a ++ c :: x = b ++ c :: y → a = b ∧ x = y := by
  intro a
  induction a with
  | nil =>
    intro b x y _ hb h
    cases b with
    | nil => exact ⟨rfl, by simpa using h⟩
    | cons z zs =>
      have hz : c = z := by
        have hh := List.head_eq_of_cons_eq h
        exact hh
      exact absurd (by simp [hz]) hb
  | cons z zs ih =>
    intro b x y ha hb h
    cases b with
    | nil =>
      have hz : z = c := List.head_eq_of_cons_eq h
      exact absurd (by simp [hz]) ha
    | cons u us =>
      have hzu : z = u := List.head_eq_of_cons_eq h
      have ht : zs ++ c :: x = us ++ c :: y := List.tail_eq_of_cons_eq h
      obtain ⟨h1, h2⟩ := ih us x y (fun hm => ha (by simp [hm])) (fun hm => hb (by simp [hm])) ht
      exact ⟨by rw [hzu, h1], h2⟩

theorem digits_not_mem (n : Nat) (ch : Char) (hch : isDigit ch = false) :
    ch ∉ Nat.toDigits 10 n := by
  intro hm
  have h := (toDigits_spec n).2.1 ch hm
  rw [hch] at h
  exact absurd h (by simp)

theorem toDigits_inj (a b : Nat) (h : Nat.toDigits 10 a = Nat.toDigits 10 b) : a = b := by
  rw [← (toDigits_spec a).2.2, ← (toDigits_spec b).2.2, h]

/-- The three numbers in plain decimal, separated by dots. -/
theorem decimal_inj (a b c a1 b1 c1 : Nat)
    (h : Nat.toDigits 10 a ++ '.' :: (Nat.toDigits 10 b ++ '.' :: Nat.toDigits 10 c)
      = Nat.toDigits 10 a1 ++ '.' :: (Nat.toDigits 10 b1 ++ '.' :: Nat.toDigits 10 c1)) :
    a = a1 ∧ b = b1 ∧ c = c1 := by
  have hdot : ∀ n, '.' ∉ Nat.toDigits 10 n := fun n => digits_not_mem n '.' (by decide)
  obtain ⟨h1, h2⟩ := sep_inj '.' _ _ _ _ (hdot a) (hdot a1) h
  obtain ⟨h3, h4⟩ := sep_inj '.' _ _ _ _ (hdot b) (hdot b1) h2
  exact ⟨toDigits_inj a a1 h1, toDigits_inj b b1 h3, toDigits_inj c c1 h4⟩

theorem decimal_plain (a b c : Nat) :
    ∃ x rest, Nat.toDigits 10 a ++ '.' :: (Nat.toDigits 10 b ++ '.' :: Nat.toDigits 10 c)
        = x :: rest ∧ isDigit x = true ∧
      ∀ ch, isDigit ch = false → ch ≠ '.' → ch ∉ x :: rest := by
  obtain ⟨hne, hall, _⟩ := toDigits_spec a
  cases hd : Nat.toDigits 10 a with
  | nil => exact absurd hd hne
  | cons x xs =>
    refine ⟨x, xs ++ '.' :: (Nat.toDigits 10 b ++ '.' :: Nat.toDigits 10 c), rfl,
      hall x (by simp [hd]), ?_⟩
    intro ch hch hdot
    have ha := digits_not_mem a ch hch
    have hb := digits_not_mem b ch hch
    have hc := digits_not_mem c ch hch
    rw [hd] at ha
    simp only [List.mem_cons, List.mem_append, not_or] at ha ⊢
    tauto

theorem tailText_not_mem (ch : Char) (h1 : isLowerDigitUnderscore ch = false) (h2 : ch ≠ '-')
    (segs : List GoString)
    (h : ∀ seg ∈ segs, seg ≠ [] ∧ ∀ x ∈ seg, isLowerDigitUnderscore x = true) :
    ch ∉ tailText segs := by
  induction segs with
  | nil => simp [tailText]
  | cons seg segs ih =>
    have hseg := (h seg (by simp)).2
    have hrec := ih fun sg hsg => h sg (by simp [hsg])
    have hs : ch ∉ seg := by
      intro hmem
      have := hseg ch hmem
      rw [h1] at this
      exact absurd this (by simp)
    simp only [tailText, List.mem_cons, List.mem_append]
    tauto

/-- The tag of a version text starts with a lowercase letter and has no slash. -/
theorem tagText_shape (t : VersionText) (ht : t.WellFormed) :
    ∃ x rest, t.tagText = x :: rest ∧ isLower x = true ∧ '/' ∉ t.tagText := by
  obtain ⟨a, b, r3, hhead, ha, hb⟩ := ht.tagHead
  refine ⟨a, b :: r3 ++ tailText t.tagTail, by simp [VersionText.tagText, hhead], ha, ?_⟩
  have htl := tailText_not_mem '/' (by decide) (by decide) t.tagTail ht.tagTail
  have hr3 : '/' ∉ b :: r3 := fun hm => absurd (hb '/' hm) (by decide)
  have ha2 : '/' ≠ a := by
    rintro rfl
    revert ha
    decide
  simp only [VersionText.tagText, hhead, List.mem_append, List.mem_cons]
  simp only [List.mem_cons] at hr3
  tauto

end buildutil

namespace buildutil

open versionutil regexp

theorem cachePath_decimal (root : GoString) :
    ∃ dir : GoString, (dir = [] ∨ dir.getLast? = some '/') ∧
      ∀ (v : Version) (a b c : Nat), v.Commit = [] → v.Tag ≠ [] →
        v.versionNumber = ((a : Int), (b : Int), (c : Int)) →
        cachePath root v = dir ++ (Nat.toDigits 10 a ++ '.' :: (Nat.toDigits 10 b
          ++ '.' :: Nat.toDigits 10 c) ++ '-' :: v.Tag) := by
  obtain ⟨dir, hdir, hjoin⟩ := filepath.Join_plain root
  refine ⟨dir, hdir, ?_⟩
  intro v a b c hc ht hn
  obtain ⟨x, rest, he, hx, hno⟩ := decimal_plain a b c
  have hplain := hjoin (Nat.toDigits 10 a ++ '.' :: (Nat.toDigits 10 b
      ++ '.' :: Nat.toDigits 10 c))
    (by rw [he]; simp)
    (by rw [he]; exact hno '/' (by decide) (by decide))
    (by
      rw [he]
      intro h
      have hx2 : x = '.' := List.head_eq_of_cons_eq h
      rw [hx2] at hx
      revert hx
      decide)
    (by
      rw [he]
      intro h
      have hx2 : x = '.' := List.head_eq_of_cons_eq h
      rw [hx2] at hx
      revert hx
      decide)
  simp only [cachePath, hc, ne_eq, not_true_eq_false, if_false, hn, fmt_d_nat, ht,
    not_false_eq_true, if_true]
  have hform : Nat.toDigits 10 a ++ ".".toList ++ Nat.toDigits 10 b ++ ".".toList
      ++ Nat.toDigits 10 c
      = Nat.toDigits 10 a ++ '.' :: (Nat.toDigits 10 b ++ '.' :: Nat.toDigits 10 c) := by
    simp
  rw [hform, hplain]
  simp

theorem initFile_plain (dir name : GoString) (hdir : dir = [] ∨ dir.getLast? = some '/')
    (hname : '/' ∉ name) (hd : strings.HasPrefix name "docker".toList = false) :
    initFile (dir ++ name) = dir ++ name ++ "-init".toList := by
  simp only [initFile, Split_eq dir name hname hdir, hd, Bool.false_eq_true, if_false,
    List.append_assoc]

/-- C15 (counterexample). `ParseVersion` accepts `1.9.0-rc1` and
`1.9.0-rc1-init`, both without a commit, and in the cache at `/cache` the init
file of the first is the cache entry of the second, `/cache/1.9.0-rc1-init`. -/
theorem init_path_is_cache_entry :
    (ParseVersion "1.9.0-rc1".toList).2 = none ∧
    (ParseVersion "1.9.0-rc1-init".toList).2 = none ∧
    (ParseVersion "1.9.0-rc1".toList).1.Commit = [] ∧
    (ParseVersion "1.9.0-rc1-init".toList).1.Commit = [] ∧
    versionFile "/cache".toList (ParseVersion "1.9.0-rc1".toList).1
      = .ok "/cache/1.9.0-rc1".toList ∧
    initFile "/cache/1.9.0-rc1".toList = "/cache/1.9.0-rc1-init".toList ∧
    versionFile "/cache".toList (ParseVersion "1.9.0-rc1-init".toList).1
      = .ok "/cache/1.9.0-rc1-init".toList :=
  ⟨by decide, by decide, by decide, by decide, by rfl, by decide, by rfl⟩

/-- C15 (amended). For every cache root and every two versions `v` and `w`
that `ParseVersion` returns without a commit, the init file of the cache entry
of `v` is that entry's path followed by `-init`, and it is the cache entry of
`w` exactly when `w` has the numbers of `v` and the tag of `v` followed by
`-init`; for every other `w` the two paths differ. -/
theorem init_path_and_cache_entry (root sv sw : GoString) (v w : Version)
    (hv : ParseVersion sv = (v, none)) (hw : ParseVersion sw = (w, none))
    (hvc : v.Commit = []) (hwc : w.Commit = []) :
    ∃ pv pw, versionFile root v = .ok pv ∧ versionFile root w = .ok pw ∧
      initFile pv = pv ++ "-init".toList ∧
      (initFile pv = pw ↔
        (w.versionNumber = v.versionNumber ∧ w.Tag = v.Tag ++ "-init".toList)) := by
  obtain ⟨tv, htv, hvt, _, hvn⟩ := ParseVersion_ok_fields sv v hv
  obtain ⟨tw, htw, hwt, _, hwn⟩ := ParseVersion_ok_fields sw w hw
  obtain ⟨xv, rv, hxv, _, hsv⟩ := tagText_shape tv htv
  obtain ⟨xw, rw1, hxw, _, hsw⟩ := tagText_shape tw htw
  obtain ⟨dir, hdir, hpath⟩ := cachePath_decimal root
  have hvne : v.Tag ≠ [] := by rw [hvt, hxv]; simp
  have hwne : w.Tag ≠ [] := by rw [hwt, hxw]; simp
  have hpv := hpath v _ _ _ hvc hvne hvn
  have hpw := hpath w _ _ _ hwc hwne hwn
  obtain ⟨dv, restv, hev, hdv, hnov⟩ :=
    decimal_plain (numeralValue tv.major) (numeralValue tv.minor) (numeralValue tv.patch)
  obtain ⟨dw, restw, hew, hdw, hnow⟩ :=
    decimal_plain (numeralValue tw.major) (numeralValue tw.minor) (numeralValue tw.patch)
  have hnamev : '/' ∉ Nat.toDigits 10 (numeralValue tv.major) ++ '.' ::
      (Nat.toDigits 10 (numeralValue tv.minor) ++ '.' :: Nat.toDigits 10 (numeralValue tv.patch))
      ++ '-' :: v.Tag := by
    rw [hev, hvt]
    intro hm
    rcases List.mem_append.mp hm with h1 | h1
    · exact hnov '/' (by decide) (by decide) h1
    · rcases List.mem_cons.mp h1 with h2 | h2
      · exact absurd h2 (by decide)
      · exact hsv h2
  have hnodocker : strings.HasPrefix (Nat.toDigits 10 (numeralValue tv.major) ++ '.' ::
      (Nat.toDigits 10 (numeralValue tv.minor) ++ '.' :: Nat.toDigits 10 (numeralValue tv.patch))
      ++ '-' :: v.Tag) "docker".toList = false := by
    rw [hev]
    have hx : dv ≠ 'd' := by
      rintro rfl
      revert hdv
      decide
    simp [strings.HasPrefix, List.isPrefixOf, Ne.symm hx]
  have hinit := initFile_plain dir _ hdir hnamev hnodocker
  refine ⟨cachePath root v, cachePath root w, versionFile_eq root v hvc,
    versionFile_eq root w hwc, ?_, ?_⟩
  · rw [hpv, hinit]
  · rw [hpv, hinit, hpw]
    have hdash : ∀ n1 n2 n3 : Nat, '-' ∉ Nat.toDigits 10 n1 ++ '.' ::
        (Nat.toDigits 10 n2 ++ '.' :: Nat.toDigits 10 n3) := by
      intro n1 n2 n3
      obtain ⟨d, r, he, _, hno⟩ := decimal_plain n1 n2 n3
      rw [he]
      exact hno '-' (by decide) (by decide)
    constructor
    · intro h
      have h2 := List.append_cancel_left
        (by simpa [List.append_assoc] using h :
          dir ++ (Nat.toDigits 10 (numeralValue tv.major) ++ '.' ::
            (Nat.toDigits 10 (numeralValue tv.minor) ++ '.' ::
              Nat.toDigits 10 (numeralValue tv.patch)) ++ '-' :: (v.Tag ++ "-init".toList))
          = dir ++ (Nat.toDigits 10 (numeralValue tw.major) ++ '.' ::
            (Nat.toDigits 10 (numeralValue tw.minor) ++ '.' ::
              Nat.toDigits 10 (numeralValue tw.patch)) ++ '-' :: w.Tag))
      obtain ⟨h3, h4⟩ := sep_inj '-' _ _ _ _ (hdash _ _ _) (hdash _ _ _) h2
      obtain ⟨ha, hb, hc⟩ := decimal_inj _ _ _ _ _ _ h3
      refine ⟨?_, h4.symm⟩
      rw [hvn, hwn, ha, hb, hc]
    · rintro ⟨hnum, htag⟩
      rw [hvn, hwn] at hnum
      have ha : numeralValue tw.major = numeralValue tv.major := by
        have := (Prod.mk.inj hnum).1
        exact_mod_cast this
      have hb : numeralValue tw.minor = numeralValue tv.minor := by
        have := (Prod.mk.inj (Prod.mk.inj hnum).2).1
        exact_mod_cast this
      have hc : numeralValue tw.patch = numeralValue tv.patch := by
        have := (Prod.mk.inj (Prod.mk.inj hnum).2).2
        exact_mod_cast this
      rw [ha, hb, hc, htag]
      simp

/-- C15 (witness). The versions `1.9.0-rc1` and `1.9.0-ce` in the cache at
`/cache`. -/
theorem init_path_and_cache_entry_witness :
    ∃ pv pw, versionFile "/cache".toList ⟨"1.9.0-rc1".toList, (1, 9, 0), "rc1".toList, []⟩
        = .ok pv ∧
      versionFile "/cache".toList ⟨"1.9.0-ce".toList, (1, 9, 0), "ce".toList, []⟩ = .ok pw ∧
      initFile pv = pv ++ "-init".toList ∧
      (initFile pv = pw ↔
        (((1 : Int), (9 : Int), (0 : Int)) = ((1 : Int), (9 : Int), (0 : Int)) ∧
          "ce".toList = "rc1".toList ++ "-init".toList)) :=
  init_path_and_cache_entry "/cache".toList "1.9.0-rc1".toList "1.9.0-ce".toList
    ⟨"1.9.0-rc1".toList, (1, 9, 0), "rc1".toList, []⟩
    ⟨"1.9.0-ce".toList, (1, 9, 0), "ce".toList, []⟩ (by decide) (by decide) rfl rfl

end buildutil

/-! ## Copying a bundle whose sidecar does not match -/

namespace buildutil

theorem hex_Decode_space (rest : GoString) (e : GoString) :
    hex.Decode (' ' :: rest) ≠ .ok e := by
  cases rest with
  | nil => simp [hex.Decode, show hex.fromHexChar ' ' = none from by decide]
  | cons q rest => simp [hex.Decode, show hex.fromHexChar ' ' = none from by decide]

theorem take_indexOf (a : Char) (l : GoString) :
    l.take (l.indexOf a) = l.takeWhile fun c => c != a := by
  induction l with
  | nil => rfl
  | cons x xs ih =>
    by_cases hx : x = a
    · subst hx
      simp [List.indexOf_cons_self, List.takeWhile]
    · have hb : (x != a) = true := by simp [hx]
      rw [List.indexOf_cons_ne _ (fun h => hx h)]
      simp only [List.takeWhile_cons, List.take_succ_cons, ih]
      rw [if_pos hb]

theorem takeWhile_not_mem (a : Char) (l : GoString) (h : a ∉ l) :
    (l.takeWhile fun c => c != a) = l := by
  induction l with
  | nil => rfl
  | cons x xs ih =>
    have hx : x ≠ a := fun hxa => h (by simp [hxa])
    have hxs : a ∉ xs := fun hm => h (List.mem_cons_of_mem _ hm)
    have hb : (x != a) = true := by simp [hx]
    simp only [List.takeWhile_cons]
    rw [if_pos hb, ih hxs]

theorem sidecarToken_cases (side : GoString) :
    (∃ rest, side = ' ' :: rest) ∨
      (if IndexRune side ' ' > 0 then side.take (IndexRune side ' ').toNat else side)
        = recordedToken side := by
  unfold IndexRune recordedToken
  by_cases hm : ' ' ∈ side
  · rw [if_pos hm]
    by_cases hi : 0 < side.indexOf ' '
    · right
      rw [if_pos (by exact_mod_cast hi)]
      simp only [Int.toNat_ofNat]
      exact take_indexOf ' ' side
    · left
      cases side with
      | nil => simp at hm
      | cons x xs =>
        by_cases hx : x = ' '
        · exact ⟨xs, by rw [hx]⟩
        · rw [List.indexOf_cons_ne _ (fun h => hx h)] at hi
          exact absurd (Nat.succ_pos _) hi
  · right
    rw [if_neg hm, if_neg (by decide)]
    exact (takeWhile_not_mem ' ' side hm).symm

theorem recordedToken_space (rest : GoString) : recordedToken (' ' :: rest) = [] := by
  simp [recordedToken]

theorem Ext_sidecar (x : GoString) : filepath.Ext (x ++ ".sha256".toList) = ".sha256".toList := by
  simp [filepath.Ext, List.takeWhile]

theorem take_sidecar (x : GoString) :
    (x ++ ".sha256".toList).take ((x ++ ".sha256".toList).length - 7) = x := by
  simp

theorem copyBinary_keeps (sha : GoString → GoString) (fs : FS)
    (name tn source target q : GoString) (n : Node) (hq : q ≠ filepath.Join [target, tn])
    (h : fs q = some n) : (copyBinary sha fs name tn source target).1 q = some n := by
  have hc := CopyFile_keeps fs (filepath.Join [source, name]) (filepath.Join [target, tn]) q n hq h
  unfold copyBinary
  simp only
  split
  · exact h
  · split
    · exact hc
    · split
      · split <;> exact hc
      · exact hc

theorem copyBinary_mismatch (sha : GoString → GoString) (fs : FS)
    (name tn source target c side : GoString)
    (hX : fs (filepath.Join [source, name]) = some (Node.file c))
    (hside : fs (filepath.Join [source, name] ++ ".sha256".toList) = some (Node.file side))
    (hd1 : filepath.Join [target, tn] ≠ filepath.Join [source, name])
    (hd2 : filepath.Join [target, tn] ≠ filepath.Join [source, name] ++ ".sha256".toList)
    (hmis : (hex.Decode (recordedToken side)).toOption ≠ some (sha c)) :
    ∃ e, (copyBinary sha fs name tn source target).2 = some e ∧
      (recordedToken side ≠ [] → ∀ x, hex.Decode (recordedToken side) = .ok x →
        (CopyFile fs (filepath.Join [source, name]) (filepath.Join [target, tn])).2 = none →
        e = Error.hashMismatch) ∧
      (∀ e0, (CopyFile fs (filepath.Join [source, name]) (filepath.Join [target, tn])).2
        = some e0 → e = e0) := by
  have hst : fs.stat (filepath.Join [source, name]) = true := by simp [FS.stat, hX]
  cases hcf : (CopyFile fs (filepath.Join [source, name]) (filepath.Join [target, tn])).2 with
  | some e0 =>
    refine ⟨e0, ?_, ?_, ?_⟩
    · unfold copyBinary
      simp only [hst, Bool.true_eq_false, if_false, hcf, ne_eq, not_false_eq_true, if_true,
        reduceCtorEq]
    · intro _ x _ h
      cases h
    · intro e1 h1
      exact Option.some.inj h1
  | none =>
    have hsc := CopyFile_keeps fs (filepath.Join [source, name]) (filepath.Join [target, tn])
      (filepath.Join [source, name] ++ ".sha256".toList) _ (Ne.symm hd2) hside
    have hdc := CopyFile_dest fs _ (filepath.Join [target, tn]) c hX (Ne.symm hd1) hcf
    unfold copyBinary
    simp only [hst, Bool.true_eq_false, if_false, hcf, ne_eq, not_true_eq_false, hsc]
    rcases sidecarToken_cases side with ⟨rest, hsp⟩ | htok
    · have hcode : (if IndexRune side ' ' > 0 then side.take (IndexRune side ' ').toNat
          else side) = side := by
        rw [hsp]
        rfl
      rw [hcode]
      cases hdec : hex.Decode side with
      | error e =>
        refine ⟨e, rfl, ?_, ?_⟩
        · intro hne
          rw [hsp, recordedToken_space] at hne
          exact absurd rfl hne
        · intro e0 h0
          cases h0
      | ok x =>
        rw [hsp] at hdec
        exact absurd hdec (hex_Decode_space rest x)
    · rw [htok]
      cases hdec : hex.Decode (recordedToken side) with
      | error e =>
        refine ⟨e, rfl, ?_, ?_⟩
        · intro _ x hx
          cases hx
        · intro e0 h0
          cases h0
      | ok x =>
        have hxne : x ≠ sha c := by
          intro hxe
          apply hmis
          rw [hdec, hxe]
          rfl
        refine ⟨Error.hashMismatch, ?_, fun _ _ _ _ => rfl, ?_⟩
        · simp only [hashCheck, hdc, ne_eq, hxne, not_false_eq_true, if_true]
        · intro e0 h0
          cases h0

theorem copyBundleNames_skip (sha : GoString → GoString) (suffix source target : GoString)
    (fs : FS) (pre rest : List GoString)
    (h : ∀ n ∈ pre, filepath.Ext n ≠ ".sha256".toList) :
    copyBundleNames sha suffix source target fs (pre ++ rest)
      = copyBundleNames sha suffix source target fs rest := by
  induction pre with
  | nil => rfl
  | cons n pre ih =>
    have hn := h n (List.mem_cons_self _ _)
    have ht := ih (fun m hm => h m (List.mem_cons_of_mem _ hm))
    show copyBundleNames sha suffix source target fs (n :: (pre ++ rest)) = _
    rw [copyBundleNames, if_pos hn, ht]

theorem copyBundleNames_mismatch (sha : GoString → GoString)
    (suffix source target x c side : GoString)
    (hmis : (hex.Decode (recordedToken side)).toOption ≠ some (sha c))
    (fis : List GoString) :
    ∀ fs : FS, x ++ ".sha256".toList ∈ fis →
      fs (filepath.Join [source, x]) = some (Node.file c) →
      fs (filepath.Join [source, x] ++ ".sha256".toList) = some (Node.file side) →
      (∀ n ∈ fis, filepath.Ext n = ".sha256".toList →
        bundleDest suffix target n ≠ filepath.Join [source, x] ∧
        bundleDest suffix target n ≠ filepath.Join [source, x] ++ ".sha256".toList) →
      ∃ e, (copyBundleNames sha suffix source target fs fis).2 = some (Error.copyFailed e) := by
  induction fis with
  | nil =>
    intro fs hmem
    simp at hmem
  | cons n fis ih =>
    intro fs hmem hX hside hfree
    have hfree2 : ∀ m ∈ fis, filepath.Ext m = ".sha256".toList →
        bundleDest suffix target m ≠ filepath.Join [source, x] ∧
        bundleDest suffix target m ≠ filepath.Join [source, x] ++ ".sha256".toList :=
      fun m hm => hfree m (List.mem_cons_of_mem _ hm)
    by_cases hext : filepath.Ext n = ".sha256".toList
    · obtain ⟨hd1, hd2⟩ := hfree n (List.mem_cons_self _ _) hext
      rw [copyBundleNames, if_neg (fun h => h hext)]
      simp only
      cases hr : (copyBinary sha fs (n.take (n.length - 7))
          (if strings.HasSuffix (n.take (n.length - 7)) suffix
            then (n.take (n.length - 7)).take ((n.take (n.length - 7)).length - suffix.length)
            else n.take (n.length - 7)) source target).2 with
      | some e => exact ⟨e, rfl⟩
      | none =>
        by_cases hn : n = x ++ ".sha256".toList
        · have hname : n.take (n.length - 7) = x := by rw [hn]; exact take_sidecar x
          rw [hname] at hr
          have hd1x : bundleDest suffix target (x ++ ".sha256".toList)
              ≠ filepath.Join [source, x] := by rw [← hn]; exact hd1
          have hd2x : bundleDest suffix target (x ++ ".sha256".toList)
              ≠ filepath.Join [source, x] ++ ".sha256".toList := by rw [← hn]; exact hd2
          simp only [bundleDest, take_sidecar] at hd1x hd2x
          obtain ⟨e, he, _⟩ := copyBinary_mismatch sha fs x _ source target c side hX hside
            hd1x hd2x hmis
          rw [hr] at he
          cases he
        · have hmem2 : x ++ ".sha256".toList ∈ fis := by
            rcases List.mem_cons.mp hmem with h | h
            · exact absurd h.symm hn
            · exact h
          apply ih _ hmem2 _ _ hfree2
          · exact copyBinary_keeps sha fs _ _ source target _ _ (Ne.symm hd1) hX
          · exact copyBinary_keeps sha fs _ _ source target _ _ (Ne.symm hd2) hside
    · have hn : n ≠ x ++ ".sha256".toList := by
        intro h
        rw [h] at hext
        exact hext (Ext_sidecar x)
      have hmem2 : x ++ ".sha256".toList ∈ fis := by
        rcases List.mem_cons.mp hmem with h | h
        · exact absurd h.symm hn
        · exact h
      rw [copyBundleNames, if_pos hext]
      exact ih fs hmem2 hX hside hfree2

theorem copyBundleNames_first (sha : GoString → GoString)
    (suffix source target x c side y : GoString) (fs : FS) (post : List GoString)
    (hmis : (hex.Decode (recordedToken side)).toOption ≠ some (sha c))
    (hX : fs (filepath.Join [source, x]) = some (Node.file c))
    (hside : fs (filepath.Join [source, x] ++ ".sha256".toList) = some (Node.file side))
    (hd1 : bundleDest suffix target (x ++ ".sha256".toList) ≠ filepath.Join [source, x])
    (hd2 : bundleDest suffix target (x ++ ".sha256".toList)
      ≠ filepath.Join [source, x] ++ ".sha256".toList)
    (hne : recordedToken side ≠ []) (hy : hex.Decode (recordedToken side) = .ok y) :
    (copyBundleNames sha suffix source target fs ((x ++ ".sha256".toList) :: post)).2
        = some (Error.copyFailed Error.hashMismatch) ∨
      ∃ e, (CopyFile fs (filepath.Join [source, x])
          (bundleDest suffix target (x ++ ".sha256".toList))).2 = some e ∧
        (copyBundleNames sha suffix source target fs ((x ++ ".sha256".toList) :: post)).2
          = some (Error.copyFailed e) := by
  simp only [bundleDest, take_sidecar] at hd1 hd2 ⊢
  obtain ⟨e, he, hprec, hcopy⟩ := copyBinary_mismatch sha fs x _ source target c side hX hside
    hd1 hd2 hmis
  have hres : (copyBundleNames sha suffix source target fs ((x ++ ".sha256".toList) :: post)).2
      = some (Error.copyFailed e) := by
    rw [copyBundleNames, if_neg (fun h => h (Ext_sidecar x))]
    simp only [take_sidecar, he]
  cases hcf : (CopyFile fs (filepath.Join [source, x]) (filepath.Join [target,
      if strings.HasSuffix x suffix = true then x.take (x.length - suffix.length) else x])).2 with
  | none =>
    left
    rw [hres, hprec hne y hy hcf]
  | some e0 =>
    right
    exact ⟨e0, rfl, by rw [hres, hcopy e0 hcf]⟩

/-- C14 (counterexample). The bundle directory `/b` holds the binary `docker`
with the content `abc` and the sidecar `docker.sha256`, whose recorded value is
the sum of the empty content and differs from the sum of `abc`. Copied onto
itself (source and target `/b`), `CopyFile` truncates the binary before it reads
it, the check is made on the emptied file, and `CopyBundleBinaries` reports
success. -/
theorem CopyBundleBinaries_mismatch_reports_success :
    exampleBundle "/b/docker".toList = some (Node.file "abc".toList) ∧
    exampleBundle "/b/docker.sha256".toList = some (Node.file
      "e3b0c44298fc1c149afbf4c8996fb92427ae41e4649b934ca495991b7852b855  docker\n".toList) ∧
    (hex.Decode (recordedToken
      "e3b0c44298fc1c149afbf4c8996fb92427ae41e4649b934ca495991b7852b855  docker\n".toList)).toOption
      ≠ some (exampleSum "abc".toList) ∧
    (CopyBundleBinaries exampleSum (.ok exampleListing) exampleBundle
      "/b".toList "/b".toList).2 = none ∧
    (CopyBundleBinaries exampleSum (.ok exampleListing) exampleBundle
      "/b".toList "/b".toList).1 "/b/docker".toList = some (Node.file []) := by
  decide

/-- C14 (amended). Let the listing of the bundle directory hold the sidecar
`x.sha256`, let the binary `x` have the content `c`, and let the recorded value
of the sidecar (the token before the first space, hex-decoded) differ from the
sum of `c`. If no copy that the listing asks for has the binary `x` or its
sidecar as its destination, `CopyBundleBinaries` returns an error `copy failed`
and never success; and when `x.sha256` is the first sidecar of the listing and
its token is not empty and is valid hexadecimal, the error is
`copy failed: hash mismatch`, unless the copy of `x` itself fails, and then it
is the error of that copy. -/
theorem CopyBundleBinaries_mismatch (sha : GoString → GoString) (fs : FS)
    (source target x c side : GoString) (fis : List GoString)
    (hmem : x ++ ".sha256".toList ∈ fis)
    (hX : fs (filepath.Join [source, x]) = some (Node.file c))
    (hside : fs (filepath.Join [source, x] ++ ".sha256".toList) = some (Node.file side))
    (hfree : ∀ n ∈ fis, filepath.Ext n = ".sha256".toList →
      bundleDest (versionSuffix source) target n ≠ filepath.Join [source, x] ∧
      bundleDest (versionSuffix source) target n
        ≠ filepath.Join [source, x] ++ ".sha256".toList)
    (hmis : (hex.Decode (recordedToken side)).toOption ≠ some (sha c)) :
    (∃ e, (CopyBundleBinaries sha (.ok fis) fs source target).2
      = some (Error.copyFailed e)) ∧
    (∀ pre post y, fis = pre ++ (x ++ ".sha256".toList) :: post →
      (∀ n ∈ pre, filepath.Ext n ≠ ".sha256".toList) →
      recordedToken side ≠ [] → hex.Decode (recordedToken side) = .ok y →
      (CopyBundleBinaries sha (.ok fis) fs source target).2
          = some (Error.copyFailed Error.hashMismatch) ∨
        ∃ e, (CopyFile fs (filepath.Join [source, x])
            (bundleDest (versionSuffix source) target (x ++ ".sha256".toList))).2 = some e ∧
          (CopyBundleBinaries sha (.ok fis) fs source target).2
            = some (Error.copyFailed e)) := by
  constructor
  · exact copyBundleNames_mismatch sha (versionSuffix source) source target x c side hmis fis
      fs hmem hX hside hfree
  · intro pre post y hfis hpre hne hy
    obtain ⟨hd1, hd2⟩ := hfree (x ++ ".sha256".toList) hmem (Ext_sidecar x)
    show (copyBundleNames sha (versionSuffix source) source target fs fis).2 = _ ∨
      ∃ e, _ ∧ (copyBundleNames sha (versionSuffix source) source target fs fis).2 = _
    rw [hfis, copyBundleNames_skip sha _ source target fs pre _ hpre]
    exact copyBundleNames_first sha _ source target x c side y fs post hmis hX hside
      hd1 hd2 hne hy

/-- C14 (witness). The example bundle `/b` copied to `/t`: the copy of the
binary is made, and the error is `copy failed: hash mismatch`. -/
theorem CopyBundleBinaries_mismatch_witness :
    (CopyBundleBinaries exampleSum (.ok exampleListing) exampleBundle
      "/b".toList "/t".toList).2 = some (Error.copyFailed Error.hashMismatch) ∧
    ∃ e, (CopyBundleBinaries exampleSum (.ok exampleListing) exampleBundle
      "/b".toList "/t".toList).2 = some (Error.copyFailed e) :=
  ⟨by decide,
    (CopyBundleBinaries_mismatch exampleSum exampleBundle "/b".toList "/t".toList
      "docker".toList "abc".toList
      "e3b0c44298fc1c149afbf4c8996fb92427ae41e4649b934ca495991b7852b855  docker\n".toList
      exampleListing (by decide) (by decide) (by decide) (by decide) (by decide)).1⟩

end buildutil
